import Mathlib

/-!
# Minesweeper grid engine (`minesweeper.go`)

A shallow embedding of the grid engine of `minesweeper.go` and a verification of its
specification.

Modelling conventions.

* A Go `[][]int` is a `List (List Int)`; `m[l][c]` is `readAt m l c` and
  `m[l][c] = v` is `writeAt m l c v`.  Both fail with `Fault.indexOutOfRange`
  exactly where the Go runtime panics with "index out of range".
* A function that can panic returns `Except Fault _`; the receiver `g *grid` is threaded
  through as an explicit state.
* Go's `int` is 64 bit.  The counter `flags` and the products and differences computed
  from the fields `width`, `height` and `mines` are wrapped with `wrapInt`.  Loop counters
  and coordinates (`i`, `count`, `uncovered`, `l-1`, `c+1`, ...) are bounded by the number
  of cells of an allocated grid and are left unwrapped.
* The random source of `GetRandomTile` is a list of the tiles it returns, consumed one per
  draw; the placement loop fails with `Fault.drawsExhausted` if the list ends before the
  loop stops.
* The recursion of `UncoverTilesToCheck` is driven by a fuel argument; `UncoverTile`
  supplies `cascadeFuel`, which is shown to be sufficient.
* `make` panics for a negative length and for a size beyond the allocator's limit
  `maxAlloc` (`makesliceFails`); running out of memory is not modelled.
* A failure carries no state.  Where the state at a panic matters, the statements that
  precede it are a definition of their own (`placeGuard`).
* `UncoverTileLog` repeats `UncoverTile` with a ghost log of the cells at which
  `UncoverAround` is invoked; it computes the same grid.
* `endOfTurn` is the pair of checks that ends the loop body of `main`.
-/

namespace Minesweeper

/-! ## Constants -/

def MINE_TILE : Int := 9
def EMPTY_TILE : Int := 0

def COVERED : Int := 0
def VISIBLE : Int := 1
def FLAGGED : Int := 2

def UNKNOWN : Int := 0
def TO_CHECK : Int := 1
def CHECKED : Int := 2

/-- Length of `LETTERS`, the column alphabet. -/
def LETTERS_LEN : Int := 52

/-- The ways a call can fail to return. -/
inductive Fault where
  /-- `panic("Cannot uncover tile ..., out of grid")` / `panic("Cannot mark tile ...")` -/
  | outOfGrid
  /-- `panic("Cannot place %d mines on the %dx%d grid.")` -/
  | tooManyMines
  /-- runtime error: index out of range -/
  | indexOutOfRange
  /-- runtime error: makeslice: len out of range -/
  | makesliceLen
  /-- `rand.Intn` called with a non-positive argument -/
  | invalidIntn
  /-- the list of random draws ended before the placement loop stopped -/
  | drawsExhausted
  /-- the fuel of the cascade recursion ran out -/
  | fuelExhausted
  deriving DecidableEq

/-- The `grid` struct. -/
structure grid where
  board : List (List Int)
  width : Int
  height : Int
  mines : Int
  mask : List (List Int)
  mineFound : Bool
  flags : Int
  lookup : List (List Int)
  deriving DecidableEq

/-- Two's complement wrap-around of a 64 bit `int`. -/
def wrapInt (x : Int) : Int := (x + 2 ^ 63) % 2 ^ 64 - 2 ^ 63

/-- The values a Go `int` can hold. -/
def IsInt64 (x : Int) : Prop := -(2 ^ 63) ≤ x ∧ x < 2 ^ 63

instance (x : Int) : Decidable (IsInt64 x) := by unfold IsInt64; infer_instance

/-! ## Slices of slices -/

/-- The row `m[l]`. -/
def rowAt (m : List (List Int)) (l : Int) : Except Fault (List Int) :=
  if l < 0 then .error .indexOutOfRange
  else match m[l.toNat]? with
    | some row => .ok row
    | none => .error .indexOutOfRange

/-- The read `m[l][c]`. -/
def readAt (m : List (List Int)) (l c : Int) : Except Fault Int :=
  match rowAt m l with
  | .error e => .error e
  | .ok row =>
    if c < 0 then .error .indexOutOfRange
    else match row[c.toNat]? with
      | some v => .ok v
      | none => .error .indexOutOfRange

/-- The assignment `m[l][c] = v`. -/
def writeAt (m : List (List Int)) (l c v : Int) : Except Fault (List (List Int)) :=
  match rowAt m l with
  | .error e => .error e
  | .ok row =>
    if c < 0 then .error .indexOutOfRange
    else if c.toNat < row.length then .ok (m.set l.toNat (row.set c.toNat v))
    else .error .indexOutOfRange

/-- The value of `m[l][c]` for an index in range (`0` elsewhere). -/
def cellAt (m : List (List Int)) (l c : Int) : Int :=
  match readAt m l c with
  | .ok v => v
  | .error _ => 0

/-- The slice `m` has `h` rows of `w` cells. -/
def Dims (m : List (List Int)) (h w : Int) : Prop :=
  (m.length : Int) = h ∧ ∀ row ∈ m, (row.length : Int) = w

instance (m : List (List Int)) (h w : Int) : Decidable (Dims m h w) := by
  unfold Dims; infer_instance

/-- The three slices of the grid have `height` rows of `width` cells. -/
def WF (g : grid) : Prop :=
  Dims g.board g.height g.width ∧ Dims g.mask g.height g.width ∧
    Dims g.lookup g.height g.width

instance (g : grid) : Decidable (WF g) := by unfold WF; infer_instance

/-- The coordinates `(l, c)` are inside the grid. -/
def inB (g : grid) (l c : Int) : Prop := 0 ≤ l ∧ l < g.height ∧ 0 ≤ c ∧ c < g.width

instance (g : grid) (l c : Int) : Decidable (inB g l c) := by unfold inB; infer_instance

/-- Number of cells of `m` that hold `v`. -/
def countCells (v : Int) (m : List (List Int)) : Nat :=
  (m.map (fun row => row.count v)).sum

/-! ## Construction -/

/-- The largest size in bytes of one allocation: `maxAlloc` of the Go runtime, `1 << 48`
on the 64 bit platforms (linux/amd64, arm64). -/
def maxAlloc : Int := 2 ^ 48

/-- The check of the runtime's `makeslice`: `make([]T, n)` for elements of `size` bytes
panics with "makeslice: len out of range" when `n` is negative or `size * n` bytes exceed
`maxAlloc`. -/
def makesliceFails (size n : Int) : Prop := n < 0 ∨ size * n > maxAlloc

instance (size n : Int) : Decidable (makesliceFails size n) := by
  unfold makesliceFails; infer_instance

/-- `BuildGrid(width, height)`: the three `make([][]int, height)` (slice headers of 24
bytes) come first, then `make([]int, width)` (`int`s of 8 bytes) once per row, so `width`
is checked only when there is a row.  Running out of memory below `maxAlloc` is a fatal
error of the runtime that depends on the machine; it is not modelled. -/
def BuildGrid (width height : Int) : Except Fault grid :=
  if makesliceFails 24 height then .error .makesliceLen
  else if 0 < height ∧ makesliceFails 8 width then .error .makesliceLen
  else
    let rows := List.replicate height.toNat (List.replicate width.toNat (0 : Int))
    .ok { board := rows, width := width, height := height, mines := 0, mask := rows,
          mineFound := false, flags := 0, lookup := rows }

/-! ## Mine placement -/

/-- `GetRandomTile`: `r.Intn(n)` panics unless `0 < n`; otherwise the tile is the next draw
of the random source. -/
def GetRandomTile (g : grid) (draw : Int × Int) : Except Fault (Int × Int) :=
  if g.height ≤ 0 ∨ g.width ≤ 0 then .error .invalidIntn else .ok draw

/-- One `if` line of `CountMinesAround`: the guard is evaluated first, the board is read
only if it holds. -/
def countStep (g : grid) (guard : Bool) (l c : Int) (count : Int) : Except Fault Int :=
  if guard then
    match readAt g.board l c with
    | .error e => .error e
    | .ok v => if v = MINE_TILE then .ok (count + 1) else .ok count
  else .ok count

/-- `CountMinesAround(l, c)`. -/
def CountMinesAround (g : grid) (l c : Int) : Except Fault Int := do
  let count : Int := 0
  let count ← countStep g (decide (l > 0 ∧ c > 0)) (l - 1) (c - 1) count
  let count ← countStep g (decide (l > 0)) (l - 1) c count
  let count ← countStep g (decide (l > 0 ∧ c < g.width - 1)) (l - 1) (c + 1) count
  let count ← countStep g (decide (c > 0)) l (c - 1) count
  let count ← countStep g (decide (c < g.width - 1)) l (c + 1) count
  let count ← countStep g (decide (l < g.height - 1 ∧ c > 0)) (l + 1) (c - 1) count
  let count ← countStep g (decide (l < g.height - 1)) (l + 1) c count
  let count ← countStep g (decide (l < g.height - 1 ∧ c < g.width - 1)) (l + 1) (c + 1) count
  pure count

/-- The statement `if g.board[l][c] != MINE_TILE { g.board[l][c] = MINE_TILE; i++ }` of the
placement loop. -/
def placeStep (g : grid) (i : Int) (l c : Int) : Except Fault (grid × Int) :=
  match readAt g.board l c with
  | .error e => .error e
  | .ok v =>
    if v ≠ MINE_TILE then
      match writeAt g.board l c MINE_TILE with
      | .error e => .error e
      | .ok b => .ok ({ g with board := b }, i + 1)
    else .ok (g, i)

/-- The placement loop of `PlaceMines`, `for { ...; if i >= count { break } }`, with the
draws of the random source in a list. -/
def placeLoop (count : Int) : List (Int × Int) → grid → Int → Except Fault grid
  | [], _, _ => .error .drawsExhausted
  | draw :: rest, g, i =>
    match GetRandomTile g draw with
    | .error e => .error e
    | .ok (l, c) =>
      match placeStep g i l c with
      | .error e => .error e
      | .ok (g, i) => if i ≥ count then .ok g else placeLoop count rest g i

/-- Body of the recount loops of `PlaceMines` at the cell `(l, c)`. -/
def recountCell (g : grid) (l c : Nat) : Except Fault grid :=
  match readAt g.board l c with
  | .error e => .error e
  | .ok code =>
    if code ≠ MINE_TILE then
      match CountMinesAround g l c with
      | .error e => .error e
      | .ok n =>
        match writeAt g.board l c n with
        | .error e => .error e
        | .ok b => .ok { g with board := b }
    else .ok g

/-- The inner loop `for c, code := range line` of the recount. -/
def recountRow (g : grid) (l : Nat) : Except Fault grid :=
  match rowAt g.board l with
  | .error e => .error e
  | .ok line => (List.range line.length).foldlM (fun g c => recountCell g l c) g

/-- The recount loops `for l, line := range g.board`. -/
def recount (g : grid) : Except Fault grid :=
  (List.range g.board.length).foldlM recountRow g

/-- `PlaceMines(count)`. -/
def PlaceMines (g : grid) (count : Int) (draws : List (Int × Int)) : Except Fault grid :=
  let g := { g with mines := count }
  if count > wrapInt (g.width * g.height) then .error .tooManyMines
  else
    match placeLoop count draws g 0 with
    | .error e => .error e
    | .ok g => recount g

/-- The statements of `PlaceMines(count)` that precede the placement loop, `g.mines = count`
and the guard; a failure carries the receiver as it is when the panic is raised. -/
def placeGuard (g : grid) (count : Int) : Except (Fault × grid) grid :=
  let g := { g with mines := count }
  if count > wrapInt (g.width * g.height) then .error (.tooManyMines, g) else .ok g

/-! ## Revealing and flagging -/

/-- Body of the two loops of `UncoverAround(l, c)` at the position `(col, row)`. -/
def visit (l c : Int) (g : grid) (col row : Int) : Except Fault grid :=
  if col < 0 ∨ col > g.height - 1 ∨ row < 0 ∨ row > g.width - 1 then .ok g
  else if col = l ∧ row = c then .ok g
  else
    match readAt g.board col row with
    | .error e => .error e
    | .ok b =>
      if b = MINE_TILE then
        match writeAt g.lookup col row CHECKED with
        | .error e => .error e
        | .ok lk => .ok { g with lookup := lk }
      else
        match readAt g.mask col row with
        | .error e => .error e
        | .ok m =>
          if m = FLAGGED then .ok g
          else
            match writeAt g.mask col row VISIBLE with
            | .error e => .error e
            | .ok mk =>
              match readAt g.lookup col row with
              | .error e => .error e
              | .ok lv =>
                if lv = UNKNOWN then
                  match (if b = EMPTY_TILE then writeAt g.lookup col row TO_CHECK
                         else .ok g.lookup) with
                  | .error e => .error e
                  | .ok lk1 =>
                    match (if b > EMPTY_TILE then writeAt lk1 col row CHECKED
                           else .ok lk1) with
                    | .error e => .error e
                    | .ok lk2 => .ok { g with mask := mk, lookup := lk2 }
                else .ok { g with mask := mk }

/-- `UncoverAround(l, c)`. -/
def UncoverAround (g : grid) (l c : Int) : Except Fault grid :=
  match writeAt g.lookup l c CHECKED with
  | .error e => .error e
  | .ok lk =>
    [l - 1, l, l + 1].foldlM
      (fun g col => [c - 1, c, c + 1].foldlM (fun g row => visit l c g col row) g)
      { g with lookup := lk }

/-- Body of the loops of `UncoverTilesToCheck` at the cell `(l, c)`; the state is the grid
and the local `goOn`. -/
def scanCell (l : Nat) (s : grid × Bool) (c : Nat) : Except Fault (grid × Bool) :=
  match readAt s.1.lookup l c with
  | .error e => .error e
  | .ok tile =>
    if tile = TO_CHECK then
      match UncoverAround s.1 l c with
      | .error e => .error e
      | .ok g => .ok (g, true)
    else .ok s

/-- The inner loop `for c, tile := range line` of `UncoverTilesToCheck`. -/
def scanRow (s : grid × Bool) (l : Nat) : Except Fault (grid × Bool) :=
  match rowAt s.1.lookup l with
  | .error e => .error e
  | .ok line => (List.range line.length).foldlM (scanCell l) s

/-- One pass of the loops of `UncoverTilesToCheck`. -/
def scanPass (g : grid) : Except Fault (grid × Bool) :=
  (List.range g.lookup.length).foldlM scanRow (g, false)

/-- `UncoverTilesToCheck`, one unit of fuel per invocation. -/
def UncoverTilesToCheck : Nat → grid → Except Fault grid
  | 0, _ => .error .fuelExhausted
  | fuel + 1, g =>
    match scanPass g with
    | .error e => .error e
    | .ok (g, goOn) => if goOn then UncoverTilesToCheck fuel g else .ok g

/-- Fuel that `UncoverTile` gives to the cascade: one more than the number of cells. -/
def cascadeFuel (g : grid) : Nat := (g.lookup.map List.length).sum + 1

/-- The panic of `UncoverTile` and `FlagTileAsMined`: its message indexes the letters with
`c`, which is itself checked. -/
def outOfGridPanic (c : Int) : Fault :=
  if 0 ≤ c ∧ c < LETTERS_LEN then .outOfGrid else .indexOutOfRange

/-- `UncoverTile(l, c)`. -/
def UncoverTile (g : grid) (l c : Int) : Except Fault grid :=
  if l ≥ g.height ∨ c ≥ g.width then .error (outOfGridPanic c)
  else
    match readAt g.mask l c with
    | .error e => .error e
    | .ok m =>
      if m = FLAGGED then .ok g
      else
        match readAt g.board l c with
        | .error e => .error e
        | .ok b =>
          if b = MINE_TILE then
            match writeAt g.mask l c VISIBLE with
            | .error e => .error e
            | .ok mk => .ok { g with mask := mk, mineFound := true }
          else
            match writeAt g.mask l c VISIBLE with
            | .error e => .error e
            | .ok mk =>
              if b = EMPTY_TILE then
                match UncoverAround { g with mask := mk } l c with
                | .error e => .error e
                | .ok g1 => UncoverTilesToCheck (cascadeFuel g1) g1
              else .ok { g with mask := mk }

/-- `FlagTileAsMined(l, c)`. -/
def FlagTileAsMined (g : grid) (l c : Int) : Except Fault grid :=
  if l ≥ g.height ∨ c ≥ g.width then .error (outOfGridPanic c)
  else
    match readAt g.mask l c with
    | .error e => .error e
    | .ok m =>
      if m = FLAGGED then
        match writeAt g.mask l c COVERED with
        | .error e => .error e
        | .ok mk =>
          match writeAt g.lookup l c UNKNOWN with
          | .error e => .error e
          | .ok lk => .ok { g with mask := mk, lookup := lk, flags := wrapInt (g.flags - 1) }
      else
        match writeAt g.mask l c FLAGGED with
        | .error e => .error e
        | .ok mk =>
          match writeAt g.lookup l c CHECKED with
          | .error e => .error e
          | .ok lk => .ok { g with mask := mk, lookup := lk, flags := wrapInt (g.flags + 1) }

/-! ## Win and loss -/

/-- `CheckLoseCondition`: `true` when it prints "Bum! You lose." and exits. -/
def CheckLoseCondition (g : grid) : Bool := g.mineFound

/-- The counting loops of `CheckWinCondition`. -/
def countUncovered (mask : List (List Int)) : Int :=
  mask.foldl
    (fun uncovered line =>
      line.foldl (fun uncovered code => if code = VISIBLE then uncovered + 1 else uncovered)
        uncovered)
    0

/-- `CheckWinCondition`: `true` when it prints "You won!" and exits. -/
def CheckWinCondition (g : grid) : Bool :=
  decide (countUncovered g.mask = wrapInt (wrapInt (g.width * g.height) - g.mines)
    ∧ g.flags = g.mines)

/-- Outcome of the two checks that end a turn. -/
inductive Verdict where
  /-- "Bum! You lose." and exit -/
  | lose
  /-- "You won!" and exit -/
  | win
  /-- neither check exits: the loop goes on -/
  | goOn
  deriving DecidableEq

/-- The end of the loop body of `main`: `g.CheckLoseCondition()` runs first and exits the
program when `mineFound` is set; `g.CheckWinCondition()` runs only after it has returned. -/
def endOfTurn (g : grid) : Verdict :=
  if CheckLoseCondition g then .lose
  else if CheckWinCondition g then .win
  else .goOn

/-! ## The cascade with a log of its expansions

The same functions as above with a ghost list: every invocation of `UncoverAround` appends
the cell it is invoked at.  The grid they compute is that of the functions above
(`uncoverTileLog_erase`). -/

/-- `scanCell`, logging the invocation of `UncoverAround`. -/
def scanCellLog (l : Nat) (s : (grid × Bool) × List (Int × Int)) (c : Nat) :
    Except Fault ((grid × Bool) × List (Int × Int)) :=
  match readAt s.1.1.lookup l c with
  | .error e => .error e
  | .ok tile =>
    if tile = TO_CHECK then
      match UncoverAround s.1.1 l c with
      | .error e => .error e
      | .ok g => .ok ((g, true), s.2 ++ [((l : Int), (c : Int))])
    else .ok s

/-- `scanRow` with the log. -/
def scanRowLog (s : (grid × Bool) × List (Int × Int)) (l : Nat) :
    Except Fault ((grid × Bool) × List (Int × Int)) :=
  match rowAt s.1.1.lookup l with
  | .error e => .error e
  | .ok line => (List.range line.length).foldlM (scanCellLog l) s

/-- `scanPass` with the log. -/
def scanPassLog (g : grid) (log : List (Int × Int)) :
    Except Fault ((grid × Bool) × List (Int × Int)) :=
  (List.range g.lookup.length).foldlM scanRowLog ((g, false), log)

/-- `UncoverTilesToCheck` with the log. -/
def UncoverTilesToCheckLog : Nat → grid → List (Int × Int) →
    Except Fault (grid × List (Int × Int))
  | 0, _, _ => .error .fuelExhausted
  | fuel + 1, g, log =>
    match scanPassLog g log with
    | .error e => .error e
    | .ok ((g, goOn), log) => if goOn then UncoverTilesToCheckLog fuel g log else .ok (g, log)

/-- `UncoverTile` with the log of the cells at which `UncoverAround` was invoked. -/
def UncoverTileLog (g : grid) (l c : Int) : Except Fault (grid × List (Int × Int)) :=
  if l ≥ g.height ∨ c ≥ g.width then .error (outOfGridPanic c)
  else
    match readAt g.mask l c with
    | .error e => .error e
    | .ok m =>
      if m = FLAGGED then .ok (g, [])
      else
        match readAt g.board l c with
        | .error e => .error e
        | .ok b =>
          if b = MINE_TILE then
            match writeAt g.mask l c VISIBLE with
            | .error e => .error e
            | .ok mk => .ok ({ g with mask := mk, mineFound := true }, [])
          else
            match writeAt g.mask l c VISIBLE with
            | .error e => .error e
            | .ok mk =>
              if b = EMPTY_TILE then
                match UncoverAround { g with mask := mk } l c with
                | .error e => .error e
                | .ok g1 => UncoverTilesToCheckLog (cascadeFuel g1) g1 [(l, c)]
              else .ok ({ g with mask := mk }, [])

/-! ## Vocabulary of the statements -/

/-- The cell `(p, q)` is one of the eight neighbours of `(l, c)`. -/
def adj (l c p q : Int) : Prop :=
  l - 1 ≤ p ∧ p ≤ l + 1 ∧ c - 1 ≤ q ∧ q ≤ c + 1 ∧ ¬ (p = l ∧ q = c)

instance (l c p q : Int) : Decidable (adj l c p q) := by unfold adj; infer_instance

/-- The eight neighbour positions of `(l, c)`. -/
def neighbourhood (l c : Int) : List (Int × Int) :=
  [(l - 1, c - 1), (l - 1, c), (l - 1, c + 1), (l, c - 1), (l, c + 1),
    (l + 1, c - 1), (l + 1, c), (l + 1, c + 1)]

/-- Brute-force recomputation of an adjacency count: the number of neighbour positions of
`(l, c)` that lie inside the grid and hold a mine. -/
def mineNeighbours (g : grid) (l c : Int) : Int :=
  (((neighbourhood l c).filter
    (fun p => decide (inB g p.1 p.2 ∧ cellAt g.board p.1 p.2 = MINE_TILE))).length : Nat)

/-- The cells linked to `(l, c)` by a chain of 8-adjacent cells that all satisfy `elig`
(the start `(l, c)` itself need not). -/
inductive Chain (elig : Int → Int → Prop) (l c : Int) : Int → Int → Prop where
  | start : Chain elig l c l c
  | step (p q p' q' : Int) :
      Chain elig l c p q → adj p q p' q' → elig p' q' → Chain elig l c p' q'

/-- An unflagged zero-count cell of the grid. -/
def zeroOpen (g : grid) (p q : Int) : Prop :=
  inB g p q ∧ cellAt g.board p q = EMPTY_TILE ∧ cellAt g.mask p q ≠ FLAGGED

/-- An unflagged zero-count cell of the grid whose cascade marker is `UNKNOWN`. -/
def zeroFresh (g : grid) (p q : Int) : Prop :=
  zeroOpen g p q ∧ cellAt g.lookup p q = UNKNOWN

/-- A zero-count cell of the grid. -/
def zeroCell (g : grid) (p q : Int) : Prop :=
  inB g p q ∧ cellAt g.board p q = EMPTY_TILE

/-- No cell is marked `TO_CHECK`. -/
def NoPending (g : grid) : Prop :=
  ∀ p q, cellAt g.lookup p q ≠ TO_CHECK

/-- The cells whose visibility differs between `g` and `g'` are revealed in `g'`, and each
is the cell `(l, c)` or a cell inside the grid, neither a mine nor flagged in `g`, next to
a cell of the chain region of `(l, c)`. -/
def ChangesBounded (elig : Int → Int → Prop) (g g' : grid) (l c : Int) : Prop :=
  ∀ p q, cellAt g'.mask p q ≠ cellAt g.mask p q →
    cellAt g'.mask p q = VISIBLE ∧
    ((p = l ∧ q = c) ∨
      (inB g p q ∧ cellAt g.board p q ≠ MINE_TILE ∧ cellAt g.mask p q ≠ FLAGGED ∧
        ∃ a b, Chain elig l c a b ∧ adj a b p q))

/-- The grid with every cascade marker reset to `UNKNOWN`. -/
def resetLookup (g : grid) : grid :=
  { g with lookup := g.lookup.map (fun row => row.map (fun _ => UNKNOWN)) }

/-- The positions of a grid of `h` rows and `w` columns, row by row. -/
def allCells (h w : Nat) : List (Int × Int) :=
  (List.range h).flatMap
    (fun (i : Nat) => (List.range w).map (fun (j : Nat) => ((i : Int), (j : Int))))

/-- Every cell of the chain region of `(l, c)` is revealed in `g'`, and so is every
neighbour of such a cell that was neither a mine nor flagged in `g`. -/
def RegionRevealed (elig : Int → Int → Prop) (g g' : grid) (l c : Int) : Prop :=
  ∀ p q, Chain elig l c p q →
    cellAt g'.mask p q = VISIBLE ∧
    ∀ p' q', adj p q p' q' → inB g p' q' → cellAt g.board p' q' ≠ MINE_TILE →
      cellAt g.mask p' q' ≠ FLAGGED → cellAt g'.mask p' q' = VISIBLE

/-- Everything but the visibility and the markers is the same in both states. -/
def Frame (g g' : grid) : Prop :=
  g'.board = g.board ∧ g'.width = g.width ∧ g'.height = g.height ∧ g'.mines = g.mines ∧
    g'.flags = g.flags ∧ g'.mineFound = g.mineFound

/-- Everything but the board is the same in both states. -/
def BoardFrame (g g' : grid) : Prop :=
  g'.width = g.width ∧ g'.height = g.height ∧ g'.mines = g.mines ∧ g'.mask = g.mask ∧
    g'.lookup = g.lookup ∧ g'.flags = g.flags ∧ g'.mineFound = g.mineFound

/-- Visibility that one step of `UncoverAround` leaves on a neighbour with board value `b`
and visibility `m`. -/
def maskAfter (b m : Int) : Int :=
  if b = MINE_TILE then m else if m = FLAGGED then m else VISIBLE

/-- Marker that one step of `UncoverAround` leaves on a neighbour with board value `b`,
visibility `m` and marker `lv`. -/
def lookupAfter (b m lv : Int) : Int :=
  if b = MINE_TILE then CHECKED
  else if m = FLAGGED then lv
  else if lv = UNKNOWN then
    (if b = EMPTY_TILE then TO_CHECK else if b > EMPTY_TILE then CHECKED else lv)
  else lv

/-! ## Game states -/

/-- The states of a game: `BuildGrid`, then `PlaceMines`, then any number of in-bounds
`UncoverTile` and `FlagTileAsMined` calls.  The grid has been allocated, so the number of
its cells is below `2 ^ 63`, and `count` is an `int`. -/
inductive Reachable : grid → Prop where
  | init (width height count : Int) (draws : List (Int × Int)) (g0 g : grid) :
      width * height < 2 ^ 63 → IsInt64 count →
      BuildGrid width height = .ok g0 → PlaceMines g0 count draws = .ok g → Reachable g
  | uncover (g g' : grid) (l c : Int) :
      Reachable g → inB g l c → UncoverTile g l c = .ok g' → Reachable g'
  | flag (g g' : grid) (l c : Int) :
      Reachable g → inB g l c → FlagTileAsMined g l c = .ok g' → Reachable g'

/-- The state `g'` is reached from `g` by a sequence of in-bounds `UncoverTile` and
`FlagTileAsMined` calls. -/
inductive Plays : grid → grid → Prop where
  | done (g : grid) : Plays g g
  | uncover (g g1 g2 : grid) (l c : Int) :
      Plays g g1 → inB g1 l c → UncoverTile g1 l c = .ok g2 → Plays g g2
  | flag (g g1 g2 : grid) (l c : Int) :
      Plays g g1 → inB g1 l c → FlagTileAsMined g1 l c = .ok g2 → Plays g g2

/-! ## Example states -/

/-- The one-row grid `BuildGrid(5, 1)` after `PlaceMines(1)` drew the tile `(0, 4)`. -/
def rowGame : grid :=
  { board := [[0, 0, 0, 1, 9]], width := 5, height := 1, mines := 1,
    mask := [[0, 0, 0, 0, 0]], mineFound := false, flags := 0,
    lookup := [[0, 0, 0, 0, 0]] }

/-- The state `rowGame` after `FlagTileAsMined(0, 4)`. -/
def rowGameFlagged : grid :=
  { rowGame with mask := [[0, 0, 0, 0, 2]], flags := 1, lookup := [[0, 0, 0, 0, 2]] }

/-- The state `rowGame` after `UncoverTile(0, 0)` and `FlagTileAsMined(0, 4)`: a won game. -/
def rowGameWon : grid :=
  { rowGame with mask := [[1, 1, 1, 1, 2]], flags := 1, lookup := [[2, 2, 2, 2, 2]] }

/-- The state `rowGame` after `FlagTileAsMined(0, 2)`, `UncoverTile(0, 0)` and
`FlagTileAsMined(0, 2)`: the cell `(0, 2)` was flagged while the cascade passed and is
covered again. -/
def rowGameStale : grid :=
  { rowGame with mask := [[1, 1, 0, 0, 0]], lookup := [[2, 2, 0, 0, 0]] }

/-- The state `rowGame` after `UncoverTile(0, 3)`. -/
def rowGameRevealed : grid :=
  { rowGame with mask := [[0, 0, 0, 1, 0]] }

/-- The state `rowGame` after `UncoverTile(0, 4)`: the mine has been revealed. -/
def rowGameLost : grid :=
  { rowGame with mask := [[0, 0, 0, 0, 1]], mineFound := true }

/-- The state `rowGameLost` after `FlagTileAsMined(0, 3)` and `UncoverTile(0, 0)`. -/
def rowGameLostWon : grid :=
  { board := [[0, 0, 0, 1, 9]], width := 5, height := 1, mines := 1,
    mask := [[1, 1, 1, 2, 1]], mineFound := true, flags := 1,
    lookup := [[2, 2, 2, 2, 0]] }

/-- The grid `BuildGrid(3, 3)` after `PlaceMines(1)` drew the tile `(1, 1)`. -/
def centreMine : grid :=
  { board := [[1, 1, 1], [1, 9, 1], [1, 1, 1]], width := 3, height := 3, mines := 1,
    mask := [[0, 0, 0], [0, 0, 0], [0, 0, 0]], mineFound := false, flags := 0,
    lookup := [[0, 0, 0], [0, 0, 0], [0, 0, 0]] }

/-! ## Reading and writing cells -/

theorem list_set_getElem {α : Type} (l : List α) (i : Nat) (h : i < l.length) :
    l.set i l[i] = l := by
  apply List.ext_getElem (by simp)
  intro n h1 h2
  rw [List.getElem_set]
  split
  · rename_i he; subst he; rfl
  · rfl

theorem rowAt_eq_ok {m : List (List Int)} {l : Int} {row : List Int}
    (h : rowAt m l = .ok row) : 0 ≤ l ∧ m[l.toNat]? = some row := by
  unfold rowAt at h
  split at h
  · cases h
  · split at h
    · rename_i r hr
      cases h
      exact ⟨by omega, hr⟩
    · cases h

theorem rowAt_of_get {m : List (List Int)} {l : Int} {row : List Int}
    (h0 : 0 ≤ l) (h : m[l.toNat]? = some row) : rowAt m l = .ok row := by
  unfold rowAt
  rw [if_neg (by omega), h]

theorem readAt_eq_ok {m : List (List Int)} {l c v : Int} (h : readAt m l c = .ok v) :
    ∃ row, rowAt m l = .ok row ∧ 0 ≤ c ∧ row[c.toNat]? = some v := by
  unfold readAt at h
  split at h
  · cases h
  · rename_i row hrow
    refine ⟨row, hrow, ?_⟩
    split at h
    · cases h
    · split at h
      · rename_i x hx
        cases h
        exact ⟨by omega, hx⟩
      · cases h

theorem readAt_of_row {m : List (List Int)} {l c v : Int} {row : List Int}
    (hr : rowAt m l = .ok row) (h0 : 0 ≤ c) (h : row[c.toNat]? = some v) :
    readAt m l c = .ok v := by
  unfold readAt
  rw [hr]
  simp only
  rw [if_neg (by omega), h]

theorem cellAt_of_readAt {m : List (List Int)} {l c v : Int} (h : readAt m l c = .ok v) :
    cellAt m l c = v := by
  unfold cellAt; rw [h]

theorem rowAt_of_dims {m : List (List Int)} {h w l : Int} (hd : Dims m h w)
    (h0 : 0 ≤ l) (h1 : l < h) : ∃ row, rowAt m l = .ok row ∧ (row.length : Int) = w := by
  have hlt : l.toNat < m.length := by have := hd.1; omega
  refine ⟨m[l.toNat], rowAt_of_get h0 (List.getElem?_eq_getElem hlt), ?_⟩
  exact hd.2 _ (List.getElem_mem _)

theorem rowAt_dims {m : List (List Int)} {h w l : Int} {row : List Int} (hd : Dims m h w)
    (hr : rowAt m l = .ok row) : 0 ≤ l ∧ l < h ∧ (row.length : Int) = w := by
  obtain ⟨h0, hg⟩ := rowAt_eq_ok hr
  obtain ⟨hlt, rfl⟩ := List.getElem?_eq_some.mp hg
  refine ⟨h0, ?_, hd.2 _ (List.getElem_mem _)⟩
  have := hd.1; omega

theorem readAt_of_dims {m : List (List Int)} {h w l c : Int} (hd : Dims m h w)
    (h0 : 0 ≤ l) (h1 : l < h) (h2 : 0 ≤ c) (h3 : c < w) :
    readAt m l c = .ok (cellAt m l c) := by
  obtain ⟨row, hr, hlen⟩ := rowAt_of_dims hd h0 h1
  have hlt : c.toNat < row.length := by omega
  have hv : readAt m l c = .ok row[c.toNat] :=
    readAt_of_row hr h2 (List.getElem?_eq_getElem hlt)
  rw [hv, cellAt_of_readAt hv]

theorem readAt_dims {m : List (List Int)} {h w l c v : Int} (hd : Dims m h w)
    (hv : readAt m l c = .ok v) : 0 ≤ l ∧ l < h ∧ 0 ≤ c ∧ c < w := by
  obtain ⟨row, hr, h2, hg⟩ := readAt_eq_ok hv
  obtain ⟨h0, h1, hlen⟩ := rowAt_dims hd hr
  obtain ⟨hlt, -⟩ := List.getElem?_eq_some.mp hg
  exact ⟨h0, h1, h2, by omega⟩

theorem writeAt_eq_ok {m m' : List (List Int)} {l c v : Int} (h : writeAt m l c v = .ok m') :
    ∃ row, rowAt m l = .ok row ∧ 0 ≤ c ∧ c.toNat < row.length ∧
      m' = m.set l.toNat (row.set c.toNat v) := by
  unfold writeAt at h
  split at h
  · cases h
  · rename_i row hrow
    refine ⟨row, hrow, ?_⟩
    split at h
    · cases h
    · split at h
      · rename_i hlt
        cases h
        exact ⟨by omega, hlt, rfl⟩
      · cases h

theorem writeAt_of_row {m : List (List Int)} {l c : Int} (v : Int) {row : List Int}
    (hr : rowAt m l = .ok row) (h0 : 0 ≤ c) (h : c.toNat < row.length) :
    writeAt m l c v = .ok (m.set l.toNat (row.set c.toNat v)) := by
  unfold writeAt
  rw [hr]
  simp only
  rw [if_neg (by omega), if_pos h]

theorem writeAt_of_dims {m : List (List Int)} {h w l c : Int} (v : Int) (hd : Dims m h w)
    (h0 : 0 ≤ l) (h1 : l < h) (h2 : 0 ≤ c) (h3 : c < w) :
    ∃ m', writeAt m l c v = .ok m' := by
  obtain ⟨row, hr, hlen⟩ := rowAt_of_dims hd h0 h1
  exact ⟨_, writeAt_of_row v hr h2 (by omega)⟩

theorem writeAt_dims {m m' : List (List Int)} {h w l c v : Int}
    (hw : writeAt m l c v = .ok m') (hd : Dims m h w) : Dims m' h w := by
  obtain ⟨row, hr, h0, hlt, rfl⟩ := writeAt_eq_ok hw
  obtain ⟨-, -, hlen⟩ := rowAt_dims hd hr
  refine ⟨by simpa using hd.1, ?_⟩
  intro r hmem
  rcases List.mem_or_eq_of_mem_set hmem with h | h
  · exact hd.2 r h
  · subst h; simpa using hlen

theorem writeAt_inRange {m m' : List (List Int)} {h w l c v : Int}
    (hw : writeAt m l c v = .ok m') (hd : Dims m h w) : 0 ≤ l ∧ l < h ∧ 0 ≤ c ∧ c < w := by
  obtain ⟨row, hr, h0, hlt, -⟩ := writeAt_eq_ok hw
  obtain ⟨h1, h2, hlen⟩ := rowAt_dims hd hr
  exact ⟨h1, h2, h0, by omega⟩

theorem readAt_writeAt {m m' : List (List Int)} {l c v : Int}
    (hw : writeAt m l c v = .ok m') (p q : Int) :
    readAt m' p q = if p = l ∧ q = c then .ok v else readAt m p q := by
  obtain ⟨row, hr, h0, hlt, rfl⟩ := writeAt_eq_ok hw
  obtain ⟨hl0, hg⟩ := rowAt_eq_ok hr
  obtain ⟨hllt, hrow⟩ := List.getElem?_eq_some.mp hg
  by_cases hp : p = l
  · subst hp
    have hr' : rowAt (m.set p.toNat (row.set c.toNat v)) p = .ok (row.set c.toNat v) :=
      rowAt_of_get hl0 (by simp [List.getElem?_set, hllt])
    by_cases hq : q = c
    · subst hq
      rw [if_pos ⟨rfl, rfl⟩]
      exact readAt_of_row hr' h0 (by simp [List.getElem?_set, hlt])
    · rw [if_neg (by tauto)]
      unfold readAt
      rw [hr', hr]
      simp only
      by_cases hq0 : q < 0
      · rw [if_pos hq0, if_pos hq0]
      · rw [if_neg hq0, if_neg hq0]
        have hne : c.toNat ≠ q.toNat := by omega
        rw [List.getElem?_set_ne hne]
  · rw [if_neg (by tauto)]
    unfold readAt rowAt
    by_cases hp0 : p < 0
    · rw [if_pos hp0, if_pos hp0]
    · rw [if_neg hp0, if_neg hp0]
      have hne : l.toNat ≠ p.toNat := by omega
      rw [List.getElem?_set_ne hne]

theorem cellAt_writeAt {m m' : List (List Int)} {l c v : Int}
    (hw : writeAt m l c v = .ok m') (p q : Int) :
    cellAt m' p q = if p = l ∧ q = c then v else cellAt m p q := by
  unfold cellAt
  rw [readAt_writeAt hw]
  by_cases h : p = l ∧ q = c
  · rw [if_pos h, if_pos h]
  · rw [if_neg h, if_neg h]

theorem writeAt_same {m : List (List Int)} {l c v : Int} (h : readAt m l c = .ok v) :
    writeAt m l c v = .ok m := by
  obtain ⟨row, hr, h0, hg⟩ := readAt_eq_ok h
  obtain ⟨hlt, hv⟩ := List.getElem?_eq_some.mp hg
  obtain ⟨hl0, hrg⟩ := rowAt_eq_ok hr
  obtain ⟨hllt, hrow⟩ := List.getElem?_eq_some.mp hrg
  rw [writeAt_of_row v hr h0 hlt]
  congr 1
  have h1 : row.set c.toNat v = row := by
    rw [← hv]; exact list_set_getElem _ _ hlt
  rw [h1, ← hrow]
  exact list_set_getElem _ _ hllt

theorem writeAt_writeAt {m m1 : List (List Int)} {l c v : Int} (v' : Int)
    (hw : writeAt m l c v = .ok m1) : writeAt m1 l c v' = writeAt m l c v' := by
  obtain ⟨row, hr, h0, hlt, rfl⟩ := writeAt_eq_ok hw
  obtain ⟨hl0, hrg⟩ := rowAt_eq_ok hr
  obtain ⟨hllt, hrow⟩ := List.getElem?_eq_some.mp hrg
  have hr' : rowAt (m.set l.toNat (row.set c.toNat v)) l = .ok (row.set c.toNat v) :=
    rowAt_of_get hl0 (by simp [List.getElem?_set, hllt])
  rw [writeAt_of_row v' hr' h0 (by simpa using hlt), writeAt_of_row v' hr h0 hlt]
  simp

theorem countCells_writeAt {m m' : List (List Int)} {l c v : Int} (x : Int)
    (hw : writeAt m l c v = .ok m') :
    countCells x m' + (if cellAt m l c = x then 1 else 0) =
      countCells x m + (if v = x then 1 else 0) := by
  obtain ⟨row, hr, h0, hlt, rfl⟩ := writeAt_eq_ok hw
  obtain ⟨hl0, hrg⟩ := rowAt_eq_ok hr
  obtain ⟨hllt, hrow⟩ := List.getElem?_eq_some.mp hrg
  have hcell : cellAt m l c = row[c.toNat] :=
    cellAt_of_readAt (readAt_of_row hr h0 (List.getElem?_eq_getElem hlt))
  rw [hcell]
  have hrowcount : (row.set c.toNat v).count x + (if row[c.toNat] = x then 1 else 0) =
      row.count x + (if v = x then 1 else 0) := by
    have h1 := List.count_set v x row c.toNat hlt
    have h2 : (if row[c.toNat] = x then 1 else 0) ≤ row.count x := by
      split
      · rename_i he
        exact List.count_pos_iff.mpr (he ▸ List.getElem_mem _)
      · exact Nat.zero_le _
    simp only [beq_iff_eq] at h1
    omega
  clear hcell hr hw hrg
  subst hrow
  generalize l.toNat = i at *
  unfold countCells
  induction m generalizing i with
  | nil => simp at hllt
  | cons r rs ih =>
    cases i with
    | zero =>
      simp only [List.getElem_cons_zero] at hrowcount hlt ⊢
      simp only [List.set_cons_zero, List.map_cons, List.sum_cons]
      omega
    | succ j =>
      simp only [List.getElem_cons_succ] at hrowcount hlt ⊢
      simp only [List.set_cons_succ, List.map_cons, List.sum_cons]
      have := ih j (by simpa using hllt) hlt hrowcount
      omega

theorem cells_writeAt {m m' : List (List Int)} {l c v : Int}
    (hw : writeAt m l c v = .ok m') :
    (m'.map List.length).sum = (m.map List.length).sum ∧ m'.length = m.length := by
  obtain ⟨row, hr, h0, hlt, rfl⟩ := writeAt_eq_ok hw
  obtain ⟨hl0, hrg⟩ := rowAt_eq_ok hr
  obtain ⟨hllt, hrow⟩ := List.getElem?_eq_some.mp hrg
  refine ⟨?_, by simp⟩
  subst hrow
  generalize l.toNat = i at *
  clear hr hw hrg
  induction m generalizing i with
  | nil => simp at hllt
  | cons r rs ih =>
    cases i with
    | zero => simp
    | succ j =>
      simp only [List.getElem_cons_succ] at hlt ⊢
      simp only [List.set_cons_succ, List.map_cons, List.sum_cons]
      rw [ih j (by simpa using hllt) hlt]

/-! ## 64 bit arithmetic -/

theorem wrapInt_of_isInt64 {x : Int} (h : IsInt64 x) : wrapInt x = x := by
  unfold IsInt64 at h
  unfold wrapInt
  have h1 : (x + 2 ^ 63) % 2 ^ 64 = x + 2 ^ 63 :=
    Int.emod_eq_of_lt (by omega) (by omega)
  rw [h1]; omega

theorem isInt64_wrapInt (x : Int) : IsInt64 (wrapInt x) := by
  unfold IsInt64 wrapInt
  have h1 : 0 ≤ (x + 2 ^ 63) % 2 ^ 64 := Int.emod_nonneg _ (by norm_num)
  have h2 : (x + 2 ^ 63) % 2 ^ 64 < 2 ^ 64 := Int.emod_lt_of_pos _ (by norm_num)
  constructor <;> omega

theorem wrapInt_succ_pred {x : Int} (h : IsInt64 x) : wrapInt (wrapInt (x + 1) - 1) = x := by
  unfold IsInt64 at h
  by_cases hx : x + 1 < 2 ^ 63
  · rw [wrapInt_of_isInt64 (x := x + 1) ⟨by omega, hx⟩]
    rw [show x + 1 - 1 = x by omega]
    exact wrapInt_of_isInt64 h
  · have hx' : x = 2 ^ 63 - 1 := by omega
    subst hx'
    decide

theorem wrapInt_overflow {x : Int} (h0 : 2 ^ 63 ≤ x) (h1 : x < 2 ^ 64) : wrapInt x < 0 := by
  unfold wrapInt
  omega

/-! ## Counting cells -/

theorem countCells_le_cells (v : Int) (m : List (List Int)) :
    countCells v m ≤ (m.map List.length).sum := by
  unfold countCells
  induction m with
  | nil => simp
  | cons r rs ih =>
    simp only [List.map_cons, List.sum_cons]
    have := List.count_le_length v r
    omega

theorem cells_of_dims {m : List (List Int)} {h w : Int} (hd : Dims m h w) :
    (((m.map List.length).sum : Nat) : Int) = h * w := by
  obtain ⟨h1, h2⟩ := hd
  subst h1
  induction m with
  | nil => simp
  | cons r rs ih =>
    have hr : (r.length : Int) = w := h2 r (List.mem_cons_self _ _)
    have := ih (fun row hrow => h2 row (List.mem_cons_of_mem _ hrow))
    simp only [List.map_cons, List.sum_cons, List.length_cons]
    rw [Nat.cast_add, this, hr]
    push_cast; ring

theorem countCells_le_of_dims (v : Int) {m : List (List Int)} {h w : Int} (hd : Dims m h w) :
    (countCells v m : Int) ≤ h * w := by
  rw [← cells_of_dims hd]
  exact_mod_cast countCells_le_cells v m

theorem foldl_count_row (v : Int) (row : List Int) (n : Int) :
    row.foldl (fun uncovered code => if code = v then uncovered + 1 else uncovered) n =
      n + (row.count v : Int) := by
  induction row generalizing n with
  | nil => simp
  | cons x xs ih =>
    simp only [List.foldl_cons, List.count_cons, beq_iff_eq]
    rw [ih]
    split
    · simp; omega
    · simp

theorem foldl_count_rows (v : Int) (m : List (List Int)) (n : Int) :
    m.foldl (fun uncovered line =>
        line.foldl (fun uncovered code => if code = v then uncovered + 1 else uncovered)
          uncovered) n = n + (countCells v m : Int) := by
  unfold countCells
  induction m generalizing n with
  | nil => simp
  | cons r rs ih =>
    simp only [List.foldl_cons, List.map_cons, List.sum_cons]
    rw [ih, foldl_count_row]
    push_cast; ring

theorem countUncovered_eq (mask : List (List Int)) :
    countUncovered mask = (countCells VISIBLE mask : Int) := by
  unfold countUncovered
  rw [foldl_count_rows]; simp

/-! ## Direct properties of `UncoverTile`, `FlagTileAsMined` and `CheckWinCondition` -/

theorem inB_not_panic {g : grid} {l c : Int} (hb : inB g l c) :
    ¬ (l ≥ g.height ∨ c ≥ g.width) := by
  unfold inB at hb; omega

/-- C5: revealing an unflagged mine sets `mineFound` (the loss check becomes true), marks
the cell revealed and changes nothing else: no cascade runs (the marker grid `lookup` is
untouched), the visibility of every other cell and the flag count stay as they were. -/
theorem uncoverTile_mine (g : grid) (l c : Int) (hwf : WF g) (hb : inB g l c)
    (hmine : cellAt g.board l c = MINE_TILE) (hflag : cellAt g.mask l c ≠ FLAGGED) :
    ∃ g', UncoverTile g l c = .ok g' ∧ g'.mineFound = true ∧ CheckLoseCondition g' = true ∧
      cellAt g'.mask l c = VISIBLE ∧
      (∀ p q, ¬ (p = l ∧ q = c) → cellAt g'.mask p q = cellAt g.mask p q) ∧
      g'.flags = g.flags ∧ g'.lookup = g.lookup ∧ g'.board = g.board ∧
      g'.width = g.width ∧ g'.height = g.height ∧ g'.mines = g.mines := by
  obtain ⟨h0, h1, h2, h3⟩ := hb
  have hm := readAt_of_dims hwf.2.1 h0 h1 h2 h3
  have hbd := readAt_of_dims hwf.1 h0 h1 h2 h3
  obtain ⟨mk, hmk⟩ := writeAt_of_dims VISIBLE hwf.2.1 h0 h1 h2 h3
  refine ⟨{ g with mask := mk, mineFound := true }, ?_, rfl, rfl, ?_, ?_, rfl, rfl, rfl, rfl,
    rfl, rfl⟩
  · unfold UncoverTile
    rw [if_neg (inB_not_panic ⟨h0, h1, h2, h3⟩), hm]
    simp only
    rw [if_neg hflag, hbd]
    simp only
    rw [if_pos hmine, hmk]
  · show cellAt mk l c = VISIBLE
    rw [cellAt_writeAt hmk, if_pos ⟨rfl, rfl⟩]
  · intro p q hpq
    show cellAt mk p q = _
    rw [cellAt_writeAt hmk, if_neg hpq]

theorem uncoverTile_mine_witness :
    ∃ g', UncoverTile rowGame 0 4 = .ok g' ∧ g'.mineFound = true ∧
      CheckLoseCondition g' = true ∧ cellAt g'.mask 0 4 = VISIBLE ∧
      (∀ p q, ¬ (p = 0 ∧ q = 4) → cellAt g'.mask p q = cellAt rowGame.mask p q) ∧
      g'.flags = rowGame.flags ∧ g'.lookup = rowGame.lookup ∧ g'.board = rowGame.board ∧
      g'.width = rowGame.width ∧ g'.height = rowGame.height ∧ g'.mines = rowGame.mines :=
  uncoverTile_mine rowGame 0 4 (by decide) (by decide) (by decide) (by decide)

/-- `UncoverTile` on a flagged cell returns the state it was given. -/
theorem uncoverTile_of_flagged {g : grid} {l c : Int} (hwf : WF g) (hb : inB g l c)
    (hflag : cellAt g.mask l c = FLAGGED) : UncoverTile g l c = .ok g := by
  obtain ⟨h0, h1, h2, h3⟩ := hb
  have hm := readAt_of_dims hwf.2.1 h0 h1 h2 h3
  unfold UncoverTile
  rw [if_neg (inB_not_panic ⟨h0, h1, h2, h3⟩), hm]
  simp only
  rw [if_pos hflag]

/-- C6: `UncoverTile` on a flagged cell is a no-op: it returns the state it was given, so
the visibility of every cell, the flag count and `mineFound` are unchanged, whether or not
the cell holds a mine. -/
theorem uncoverTile_flagged_noop (g : grid) (l c : Int) (hwf : WF g) (hb : inB g l c)
    (hflag : cellAt g.mask l c = FLAGGED) :
    UncoverTile g l c = .ok g ∧
      ∀ g', UncoverTile g l c = .ok g' →
        (∀ p q, cellAt g'.mask p q = cellAt g.mask p q) ∧ g'.flags = g.flags ∧
          g'.mineFound = g.mineFound := by
  have h := uncoverTile_of_flagged hwf hb hflag
  refine ⟨h, ?_⟩
  intro g' hg'
  rw [h] at hg'
  cases hg'
  exact ⟨fun _ _ => rfl, rfl, rfl⟩

theorem uncoverTile_flagged_noop_witness :
    UncoverTile rowGameFlagged 0 4 = .ok rowGameFlagged ∧
      ∀ g', UncoverTile rowGameFlagged 0 4 = .ok g' →
        (∀ p q, cellAt g'.mask p q = cellAt rowGameFlagged.mask p q) ∧
          g'.flags = rowGameFlagged.flags ∧ g'.mineFound = rowGameFlagged.mineFound :=
  uncoverTile_flagged_noop rowGameFlagged 0 4 (by decide) (by decide) (by decide)

/-- The effect of `FlagTileAsMined` on a cell that is not flagged. -/
theorem flagTile_unflagged {g : grid} {l c : Int} (hwf : WF g) (hb : inB g l c)
    (hflag : cellAt g.mask l c ≠ FLAGGED) :
    ∃ mk lk, writeAt g.mask l c FLAGGED = .ok mk ∧ writeAt g.lookup l c CHECKED = .ok lk ∧
      FlagTileAsMined g l c =
        .ok { g with mask := mk, lookup := lk, flags := wrapInt (g.flags + 1) } := by
  obtain ⟨h0, h1, h2, h3⟩ := hb
  have hm := readAt_of_dims hwf.2.1 h0 h1 h2 h3
  obtain ⟨mk, hmk⟩ := writeAt_of_dims FLAGGED hwf.2.1 h0 h1 h2 h3
  obtain ⟨lk, hlk⟩ := writeAt_of_dims CHECKED hwf.2.2 h0 h1 h2 h3
  refine ⟨mk, lk, hmk, hlk, ?_⟩
  unfold FlagTileAsMined
  rw [if_neg (inB_not_panic ⟨h0, h1, h2, h3⟩), hm]
  simp only
  rw [if_neg hflag, hmk]
  simp only
  rw [hlk]

/-- The effect of `FlagTileAsMined` on a flagged cell. -/
theorem flagTile_flagged {g : grid} {l c : Int} (hwf : WF g) (hb : inB g l c)
    (hflag : cellAt g.mask l c = FLAGGED) :
    ∃ mk lk, writeAt g.mask l c COVERED = .ok mk ∧ writeAt g.lookup l c UNKNOWN = .ok lk ∧
      FlagTileAsMined g l c =
        .ok { g with mask := mk, lookup := lk, flags := wrapInt (g.flags - 1) } := by
  obtain ⟨h0, h1, h2, h3⟩ := hb
  have hm := readAt_of_dims hwf.2.1 h0 h1 h2 h3
  obtain ⟨mk, hmk⟩ := writeAt_of_dims COVERED hwf.2.1 h0 h1 h2 h3
  obtain ⟨lk, hlk⟩ := writeAt_of_dims UNKNOWN hwf.2.2 h0 h1 h2 h3
  refine ⟨mk, lk, hmk, hlk, ?_⟩
  unfold FlagTileAsMined
  rw [if_neg (inB_not_panic ⟨h0, h1, h2, h3⟩), hm]
  simp only
  rw [if_pos hflag, hmk]
  simp only
  rw [hlk]

/-- C7: on a covered cell two `FlagTileAsMined` calls in a row restore the board, the
visibility of every cell, the flag count (a 64 bit `int`) and `mineFound`. -/
theorem flagTile_twice (g : grid) (l c : Int) (hwf : WF g) (hflags : IsInt64 g.flags)
    (hb : inB g l c) (hcov : cellAt g.mask l c = COVERED) :
    ∃ g1 g2, FlagTileAsMined g l c = .ok g1 ∧ FlagTileAsMined g1 l c = .ok g2 ∧
      g2.board = g.board ∧ g2.mask = g.mask ∧ g2.flags = g.flags ∧
      g2.mineFound = g.mineFound ∧ g2.width = g.width ∧ g2.height = g.height ∧
      g2.mines = g.mines := by
  have hnf : cellAt g.mask l c ≠ FLAGGED := by rw [hcov]; decide
  obtain ⟨mk, lk, hmk, hlk, h1⟩ := flagTile_unflagged hwf hb hnf
  have hwf1 : WF { g with mask := mk, lookup := lk, flags := wrapInt (g.flags + 1) } :=
    ⟨hwf.1, writeAt_dims hmk hwf.2.1, writeAt_dims hlk hwf.2.2⟩
  have hfl : cellAt mk l c = FLAGGED := by rw [cellAt_writeAt hmk, if_pos ⟨rfl, rfl⟩]
  obtain ⟨mk2, lk2, hmk2, hlk2, h2⟩ := flagTile_flagged hwf1 hb hfl
  refine ⟨_, _, h1, h2, rfl, ?_, ?_, rfl, rfl, rfl, rfl⟩
  · show mk2 = g.mask
    have h3 : writeAt mk l c COVERED = writeAt g.mask l c COVERED :=
      writeAt_writeAt COVERED hmk
    have h4 : writeAt g.mask l c COVERED = .ok g.mask := by
      apply writeAt_same
      have := readAt_of_dims hwf.2.1 hb.1 hb.2.1 hb.2.2.1 hb.2.2.2
      rw [this, hcov]
    have h5 : Except.ok mk2 = (Except.ok g.mask : Except Fault _) := by
      rw [← hmk2]; show writeAt mk l c COVERED = _; rw [h3, h4]
    exact Except.ok.inj h5
  · show wrapInt (wrapInt (g.flags + 1) - 1) = g.flags
    exact wrapInt_succ_pred hflags

theorem flagTile_twice_witness :
    ∃ g1 g2, FlagTileAsMined rowGame 0 2 = .ok g1 ∧ FlagTileAsMined g1 0 2 = .ok g2 ∧
      g2.board = rowGame.board ∧ g2.mask = rowGame.mask ∧ g2.flags = rowGame.flags ∧
      g2.mineFound = rowGame.mineFound ∧ g2.width = rowGame.width ∧
      g2.height = rowGame.height ∧ g2.mines = rowGame.mines :=
  flagTile_twice rowGame 0 2 (by decide) (by decide) (by decide) (by decide)

/-- C8, as the code behaves on the revealed cell `(0, 3)` of `rowGameRevealed`:
`FlagTileAsMined` turns the revealed cell into a flagged one and raises the flag count
from 0 to 1, so the call is not a no-op. -/
theorem flagTile_revealed_counterexample :
    WF rowGameRevealed ∧ inB rowGameRevealed 0 3 ∧
      cellAt rowGameRevealed.mask 0 3 = VISIBLE ∧
      ∃ g', FlagTileAsMined rowGameRevealed 0 3 = .ok g' ∧
        cellAt g'.mask 0 3 ≠ VISIBLE ∧ g'.flags ≠ rowGameRevealed.flags :=
  ⟨by decide, by decide, by decide, _, rfl, by decide, by decide⟩

/-- C8 (amended): on a revealed cell `FlagTileAsMined` flags the cell: its visibility
becomes flagged, its marker becomes `CHECKED`, the flag count goes up by one (as a 64 bit
`int`); every other cell keeps its visibility and the board, `mineFound` and the
dimensions are unchanged. -/
theorem flagTile_on_revealed (g : grid) (l c : Int) (hwf : WF g) (hb : inB g l c)
    (hvis : cellAt g.mask l c = VISIBLE) :
    ∃ g', FlagTileAsMined g l c = .ok g' ∧ cellAt g'.mask l c = FLAGGED ∧
      g'.flags = wrapInt (g.flags + 1) ∧
      (∀ p q, ¬ (p = l ∧ q = c) → cellAt g'.mask p q = cellAt g.mask p q) ∧
      cellAt g'.lookup l c = CHECKED ∧
      g'.board = g.board ∧ g'.mineFound = g.mineFound ∧ g'.width = g.width ∧
      g'.height = g.height ∧ g'.mines = g.mines := by
  have hnf : cellAt g.mask l c ≠ FLAGGED := by rw [hvis]; decide
  obtain ⟨mk, lk, hmk, hlk, h1⟩ := flagTile_unflagged hwf hb hnf
  refine ⟨_, h1, ?_, rfl, ?_, ?_, rfl, rfl, rfl, rfl, rfl⟩
  · show cellAt mk l c = FLAGGED
    rw [cellAt_writeAt hmk, if_pos ⟨rfl, rfl⟩]
  · intro p q hpq
    show cellAt mk p q = _
    rw [cellAt_writeAt hmk, if_neg hpq]
  · show cellAt lk l c = CHECKED
    rw [cellAt_writeAt hlk, if_pos ⟨rfl, rfl⟩]

theorem flagTile_on_revealed_witness :
    ∃ g', FlagTileAsMined rowGameRevealed 0 3 = .ok g' ∧ cellAt g'.mask 0 3 = FLAGGED ∧
      g'.flags = wrapInt (rowGameRevealed.flags + 1) ∧
      (∀ p q, ¬ (p = 0 ∧ q = 3) → cellAt g'.mask p q = cellAt rowGameRevealed.mask p q) ∧
      cellAt g'.lookup 0 3 = CHECKED ∧
      g'.board = rowGameRevealed.board ∧ g'.mineFound = rowGameRevealed.mineFound ∧
      g'.width = rowGameRevealed.width ∧ g'.height = rowGameRevealed.height ∧
      g'.mines = rowGameRevealed.mines :=
  flagTile_on_revealed rowGameRevealed 0 3 (by decide) (by decide) (by decide)

/-- The wrapped arithmetic of the win check agrees with the exact one. -/
theorem checkWin_counts {g : grid} (hwf : WF g)
    (hcells : g.width * g.height < 2 ^ 63) (hmines : IsInt64 g.mines) :
    CheckWinCondition g = true ↔
      ((countCells VISIBLE g.mask : Int) = g.width * g.height - g.mines ∧
        g.flags = g.mines) := by
  obtain ⟨hm0, hm1⟩ := hmines
  have hle : (countCells VISIBLE g.mask : Int) ≤ g.height * g.width :=
    countCells_le_of_dims VISIBLE hwf.2.1
  have hnn : (0 : Int) ≤ countCells VISIBLE g.mask := Int.natCast_nonneg _
  have hcomm : g.height * g.width = g.width * g.height := Int.mul_comm _ _
  have hprod : wrapInt (g.width * g.height) = g.width * g.height :=
    wrapInt_of_isInt64 ⟨by omega, hcells⟩
  unfold CheckWinCondition
  rw [decide_eq_true_iff, countUncovered_eq, hprod]
  by_cases hbig : g.width * g.height - g.mines < 2 ^ 63
  · rw [wrapInt_of_isInt64 ⟨by omega, hbig⟩]
  · have hneg := wrapInt_overflow (x := g.width * g.height - g.mines) (by omega) (by omega)
    constructor
    · rintro ⟨h, -⟩; omega
    · rintro ⟨h, -⟩; omega

/-- C10: for a grid whose cells fit the address space and whose `mines` is an `int`, the
win check succeeds exactly when the number of `VISIBLE` cells equals `width*height - mines`
and `flags` equals `mines`; nothing else of the state enters the condition, in particular
not the positions of the flags. -/
theorem checkWinCondition_iff (g : grid) (hwf : WF g)
    (hcells : g.width * g.height < 2 ^ 63) (hmines : IsInt64 g.mines) :
    CheckWinCondition g = true ↔
      ((countCells VISIBLE g.mask : Int) = g.width * g.height - g.mines ∧
        g.flags = g.mines) :=
  checkWin_counts hwf hcells hmines

theorem checkWinCondition_iff_witness :
    CheckWinCondition rowGameWon = true ↔
      ((countCells VISIBLE rowGameWon.mask : Int) =
          rowGameWon.width * rowGameWon.height - rowGameWon.mines ∧
        rowGameWon.flags = rowGameWon.mines) :=
  checkWinCondition_iff rowGameWon (by decide) (by decide) (by decide)

/-! ## Loops -/

theorem foldlM_range_inv {σ : Type} (f : σ → Nat → Except Fault σ) (P : Nat → σ → Prop)
    (n : Nat) (s : σ) (h0 : P 0 s)
    (hstep : ∀ i s, i < n → P i s → ∃ s', f s i = .ok s' ∧ P (i + 1) s') :
    ∃ s', (List.range n).foldlM f s = .ok s' ∧ P n s' := by
  induction n with
  | zero => exact ⟨s, rfl, h0⟩
  | succ k ih =>
    obtain ⟨s1, h1, hP1⟩ := ih (fun i s hi hP => hstep i s (by omega) hP)
    obtain ⟨s2, h2, hP2⟩ := hstep k s1 (by omega) hP1
    refine ⟨s2, ?_, hP2⟩
    rw [List.range_succ, List.foldlM_append, h1]
    show (List.foldlM f s1 [k]) = _
    rw [List.foldlM_cons, h2]
    rfl

theorem frame_refl (g : grid) : Frame g g := ⟨rfl, rfl, rfl, rfl, rfl, rfl⟩

theorem frame_trans {g1 g2 g3 : grid} (h12 : Frame g1 g2) (h23 : Frame g2 g3) :
    Frame g1 g3 := by
  obtain ⟨a1, a2, a3, a4, a5, a6⟩ := h12
  obtain ⟨b1, b2, b3, b4, b5, b6⟩ := h23
  exact ⟨b1.trans a1, b2.trans a2, b3.trans a3, b4.trans a4, b5.trans a5, b6.trans a6⟩

theorem inB_of_frame {g g' : grid} (h : Frame g g') (l c : Int) : inB g' l c ↔ inB g l c := by
  unfold inB; rw [h.2.1, h.2.2.1]

/-! ## One step of `UncoverAround` -/

theorem visit_skip {g : grid} {l c col row : Int}
    (h : ¬ inB g col row ∨ (col = l ∧ row = c)) : visit l c g col row = .ok g := by
  unfold visit
  by_cases hb : col < 0 ∨ col > g.height - 1 ∨ row < 0 ∨ row > g.width - 1
  · rw [if_pos hb]
  · rw [if_neg hb]
    have hin : inB g col row := by unfold inB; omega
    rcases h with h | h
    · exact absurd hin h
    · rw [if_pos h]

theorem visit_eq {g : grid} {l c col row : Int} (hwf : WF g) (hb : inB g col row)
    (hne : ¬ (col = l ∧ row = c)) :
    ∃ mk lk,
      writeAt g.mask col row (maskAfter (cellAt g.board col row) (cellAt g.mask col row))
        = .ok mk ∧
      writeAt g.lookup col row
        (lookupAfter (cellAt g.board col row) (cellAt g.mask col row)
          (cellAt g.lookup col row)) = .ok lk ∧
      visit l c g col row = .ok { g with mask := mk, lookup := lk } := by
  obtain ⟨h0, h1, h2, h3⟩ := hb
  have hbd := readAt_of_dims hwf.1 h0 h1 h2 h3
  have hm := readAt_of_dims hwf.2.1 h0 h1 h2 h3
  have hl := readAt_of_dims hwf.2.2 h0 h1 h2 h3
  have hguard : ¬ (col < 0 ∨ col > g.height - 1 ∨ row < 0 ∨ row > g.width - 1) := by omega
  unfold visit
  rw [if_neg hguard, if_neg hne, hbd]
  simp only
  generalize cellAt g.board col row = b at *
  generalize cellAt g.mask col row = m at *
  generalize cellAt g.lookup col row = lv at *
  by_cases hmine : b = MINE_TILE
  · obtain ⟨lk, hlk⟩ := writeAt_of_dims CHECKED hwf.2.2 h0 h1 h2 h3
    refine ⟨g.mask, lk, ?_, ?_, ?_⟩
    · unfold maskAfter; rw [if_pos hmine]; exact writeAt_same hm
    · unfold lookupAfter; rw [if_pos hmine]; exact hlk
    · rw [if_pos hmine, hlk]
  · rw [if_neg hmine, hm]
    simp only
    by_cases hfl : m = FLAGGED
    · refine ⟨g.mask, g.lookup, ?_, ?_, ?_⟩
      · unfold maskAfter; rw [if_neg hmine, if_pos hfl]; exact writeAt_same hm
      · unfold lookupAfter; rw [if_neg hmine, if_pos hfl]; exact writeAt_same hl
      · rw [if_pos hfl]
    · obtain ⟨mk, hmk⟩ := writeAt_of_dims VISIBLE hwf.2.1 h0 h1 h2 h3
      rw [if_neg hfl, hmk]
      simp only
      rw [hl]
      simp only
      have hma : maskAfter b m = VISIBLE := by
        unfold maskAfter; rw [if_neg hmine, if_neg hfl]
      rw [hma]
      by_cases hu : lv = UNKNOWN
      · rw [if_pos hu]
        by_cases hz : b = EMPTY_TILE
        · obtain ⟨lk, hlk⟩ := writeAt_of_dims TO_CHECK hwf.2.2 h0 h1 h2 h3
          have hnp : ¬ b > EMPTY_TILE := by rw [hz]; decide
          refine ⟨mk, lk, hmk, ?_, ?_⟩
          · unfold lookupAfter
            rw [if_neg hmine, if_neg hfl, if_pos hu, if_pos hz]; exact hlk
          · rw [if_pos hz, hlk]
            simp only
            rw [if_neg hnp]
        · rw [if_neg hz]
          simp only
          by_cases hp : b > EMPTY_TILE
          · obtain ⟨lk, hlk⟩ := writeAt_of_dims CHECKED hwf.2.2 h0 h1 h2 h3
            refine ⟨mk, lk, hmk, ?_, ?_⟩
            · unfold lookupAfter
              rw [if_neg hmine, if_neg hfl, if_pos hu, if_neg hz, if_pos hp]; exact hlk
            · rw [if_pos hp, hlk]
          · refine ⟨mk, g.lookup, hmk, ?_, ?_⟩
            · unfold lookupAfter
              rw [if_neg hmine, if_neg hfl, if_pos hu, if_neg hz, if_neg hp]
              exact writeAt_same hl
            · rw [if_neg hp]
      · rw [if_neg hu]
        refine ⟨mk, g.lookup, hmk, ?_, rfl⟩
        unfold lookupAfter
        rw [if_neg hmine, if_neg hfl, if_neg hu]
        exact writeAt_same hl

theorem maskAfter_eq_flagged (b m : Int) : maskAfter b m = FLAGGED ↔ m = FLAGGED := by
  unfold maskAfter
  split
  · rfl
  · split
    · rfl
    · rename_i h; constructor
      · intro h1; exact absurd h1 (by decide)
      · intro h1; exact absurd h1 h

theorem lookupAfter_checked (b m : Int) : lookupAfter b m CHECKED = CHECKED := by
  unfold lookupAfter
  split
  · rfl
  · split
    · rfl
    · rw [if_neg (by decide)]

/-- What a run of `visit` over distinct positions does, cell by cell. -/
theorem visits_spec (l c : Int) (ps : List (Int × Int)) (hnd : ps.Nodup) (g : grid)
    (hwf : WF g) :
    ∃ g', ps.foldlM (fun g p => visit l c g p.1 p.2) g = .ok g' ∧ WF g' ∧ Frame g g' ∧
      (∀ p q, cellAt g'.mask p q =
        if (p, q) ∈ ps ∧ inB g p q ∧ ¬ (p = l ∧ q = c)
        then maskAfter (cellAt g.board p q) (cellAt g.mask p q) else cellAt g.mask p q) ∧
      (∀ p q, cellAt g'.lookup p q =
        if (p, q) ∈ ps ∧ inB g p q ∧ ¬ (p = l ∧ q = c)
        then lookupAfter (cellAt g.board p q) (cellAt g.mask p q) (cellAt g.lookup p q)
        else cellAt g.lookup p q) ∧
      countCells FLAGGED g'.mask = countCells FLAGGED g.mask ∧
      countCells CHECKED g.lookup ≤ countCells CHECKED g'.lookup := by
  induction ps generalizing g with
  | nil =>
    refine ⟨g, rfl, hwf, frame_refl g, ?_, ?_, rfl, le_refl _⟩
    · intro p q; simp
    · intro p q; simp
  | cons a rest ih =>
    obtain ⟨hnotin, hnd'⟩ := List.nodup_cons.mp hnd
    obtain ⟨col, row⟩ := a
    by_cases hact : inB g col row ∧ ¬ (col = l ∧ row = c)
    · obtain ⟨hb, hne⟩ := hact
      obtain ⟨mk, lk, hmk, hlk, hv⟩ := visit_eq (l := l) (c := c) hwf hb hne
      have hwf1 : WF { g with mask := mk, lookup := lk } :=
        ⟨hwf.1, writeAt_dims hmk hwf.2.1, writeAt_dims hlk hwf.2.2⟩
      obtain ⟨g', hg', hwf', hfr, hmask, hlook, hcf, hcc⟩ := ih hnd' _ hwf1
      have hfr1 : Frame g { g with mask := mk, lookup := lk } :=
        ⟨rfl, rfl, rfl, rfl, rfl, rfl⟩
      refine ⟨g', ?_, hwf', frame_trans hfr1 hfr, ?_, ?_, ?_, ?_⟩
      · rw [List.foldlM_cons, hv]; exact hg'
      · intro p q
        rw [hmask p q]
        simp only [inB_of_frame hfr1]
        show (if _ then maskAfter (cellAt g.board p q) (cellAt mk p q) else cellAt mk p q) = _
        rw [cellAt_writeAt hmk]
        by_cases hpq : p = col ∧ q = row
        · obtain ⟨rfl, rfl⟩ := hpq
          rw [if_neg (fun h => hnotin h.1), if_pos ⟨rfl, rfl⟩,
            if_pos ⟨List.mem_cons_self _ _, hb, hne⟩]
        · rw [if_neg hpq]
          have hmem : (p, q) ∈ (col, row) :: rest ↔ (p, q) ∈ rest := by
            rw [List.mem_cons]
            constructor
            · rintro (h | h)
              · exact absurd (by simpa using h) hpq
              · exact h
            · exact Or.inr
          simp only [hmem]
      · intro p q
        rw [hlook p q]
        simp only [inB_of_frame hfr1]
        show (if _ then lookupAfter (cellAt g.board p q) (cellAt mk p q) (cellAt lk p q)
          else cellAt lk p q) = _
        rw [cellAt_writeAt hmk, cellAt_writeAt hlk]
        by_cases hpq : p = col ∧ q = row
        · obtain ⟨rfl, rfl⟩ := hpq
          rw [if_neg (fun h => hnotin h.1), if_pos ⟨rfl, rfl⟩,
            if_pos ⟨List.mem_cons_self _ _, hb, hne⟩]
        · rw [if_neg hpq, if_neg hpq]
          have hmem : (p, q) ∈ (col, row) :: rest ↔ (p, q) ∈ rest := by
            rw [List.mem_cons]
            constructor
            · rintro (h | h)
              · exact absurd (by simpa using h) hpq
              · exact h
            · exact Or.inr
          simp only [hmem]
      · rw [hcf]
        show countCells FLAGGED mk = _
        have h1 := countCells_writeAt FLAGGED hmk
        have h2 := maskAfter_eq_flagged (cellAt g.board col row) (cellAt g.mask col row)
        by_cases h3 : cellAt g.mask col row = FLAGGED
        · rw [if_pos h3, if_pos (h2.mpr h3)] at h1; omega
        · rw [if_neg h3, if_neg (fun h => h3 (h2.mp h))] at h1; omega
      · refine le_trans ?_ hcc
        show _ ≤ countCells CHECKED lk
        have h1 := countCells_writeAt CHECKED hlk
        by_cases h3 : cellAt g.lookup col row = CHECKED
        · have h4 : lookupAfter (cellAt g.board col row) (cellAt g.mask col row)
              (cellAt g.lookup col row) = CHECKED := by
            rw [h3]; exact lookupAfter_checked _ _
          rw [if_pos h3, if_pos h4] at h1; omega
        · rw [if_neg h3] at h1
          split at h1 <;> omega
    · have hv : visit l c g col row = .ok g := by
        apply visit_skip
        by_cases hb : inB g col row
        · right; by_contra hne; exact hact ⟨hb, hne⟩
        · left; exact hb
      obtain ⟨g', hg', hwf', hfr, hmask, hlook, hcf, hcc⟩ := ih hnd' g hwf
      refine ⟨g', ?_, hwf', hfr, ?_, ?_, hcf, hcc⟩
      · rw [List.foldlM_cons, hv]; exact hg'
      · intro p q
        rw [hmask p q]
        by_cases hpq : p = col ∧ q = row
        · obtain ⟨rfl, rfl⟩ := hpq
          rw [if_neg (fun h => hnotin h.1), if_neg (fun h => hact h.2)]
        · have hmem : (p, q) ∈ (col, row) :: rest ↔ (p, q) ∈ rest := by
            rw [List.mem_cons]
            constructor
            · rintro (h | h)
              · exact absurd (by simpa using h) hpq
              · exact h
            · exact Or.inr
          simp only [hmem]
      · intro p q
        rw [hlook p q]
        by_cases hpq : p = col ∧ q = row
        · obtain ⟨rfl, rfl⟩ := hpq
          rw [if_neg (fun h => hnotin h.1), if_neg (fun h => hact h.2)]
        · have hmem : (p, q) ∈ (col, row) :: rest ↔ (p, q) ∈ rest := by
            rw [List.mem_cons]
            constructor
            · rintro (h | h)
              · exact absurd (by simpa using h) hpq
              · exact h
            · exact Or.inr
          simp only [hmem]

/-! ## `UncoverAround` -/

/-- The positions the two loops of `UncoverAround(l, c)` run through, in order. -/
theorem uncoverAround_loops (l c : Int) (g : grid) :
    [l - 1, l, l + 1].foldlM
        (fun g col => [c - 1, c, c + 1].foldlM (fun g row => visit l c g col row) g) g =
      [(l - 1, c - 1), (l - 1, c), (l - 1, c + 1), (l, c - 1), (l, c), (l, c + 1),
        (l + 1, c - 1), (l + 1, c), (l + 1, c + 1)].foldlM
        (fun g p => visit l c g p.1 p.2) g := by
  simp only [List.foldlM_cons, List.foldlM_nil, bind_assoc, bind_pure]

theorem nbhd_nodup (l c : Int) :
    [(l - 1, c - 1), (l - 1, c), (l - 1, c + 1), (l, c - 1), (l, c), (l, c + 1),
      (l + 1, c - 1), (l + 1, c), (l + 1, c + 1)].Nodup := by
  simp only [List.nodup_cons, List.mem_cons, Prod.mk.injEq, List.mem_singleton,
    List.not_mem_nil, List.nodup_nil, not_or, not_and, not_false_eq_true, and_true]
  omega

theorem mem_nbhd (l c p q : Int) :
    (p, q) ∈ [(l - 1, c - 1), (l - 1, c), (l - 1, c + 1), (l, c - 1), (l, c), (l, c + 1),
      (l + 1, c - 1), (l + 1, c), (l + 1, c + 1)] ↔
      (l - 1 ≤ p ∧ p ≤ l + 1 ∧ c - 1 ≤ q ∧ q ≤ c + 1) := by
  simp only [List.mem_cons, Prod.mk.injEq, List.mem_singleton, List.not_mem_nil, or_false]
  omega

/-- What `UncoverAround(l, c)` does, cell by cell: the centre is marked `CHECKED`; every
neighbour inside the grid gets the visibility `maskAfter` and the marker `lookupAfter`;
nothing else changes. -/
theorem uncoverAround_spec {g : grid} {l c : Int} (hwf : WF g) (hb : inB g l c) :
    ∃ g', UncoverAround g l c = .ok g' ∧ WF g' ∧ Frame g g' ∧
      (∀ p q, cellAt g'.mask p q =
        if adj l c p q ∧ inB g p q
        then maskAfter (cellAt g.board p q) (cellAt g.mask p q) else cellAt g.mask p q) ∧
      (∀ p q, cellAt g'.lookup p q =
        if p = l ∧ q = c then CHECKED
        else if adj l c p q ∧ inB g p q
        then lookupAfter (cellAt g.board p q) (cellAt g.mask p q) (cellAt g.lookup p q)
        else cellAt g.lookup p q) ∧
      countCells FLAGGED g'.mask = countCells FLAGGED g.mask ∧
      countCells CHECKED g.lookup + (if cellAt g.lookup l c = CHECKED then 0 else 1) ≤
        countCells CHECKED g'.lookup := by
  obtain ⟨lk, hlk⟩ := writeAt_of_dims CHECKED hwf.2.2 hb.1 hb.2.1 hb.2.2.1 hb.2.2.2
  have hwf1 : WF { g with lookup := lk } := ⟨hwf.1, hwf.2.1, writeAt_dims hlk hwf.2.2⟩
  have hfr1 : Frame g { g with lookup := lk } := ⟨rfl, rfl, rfl, rfl, rfl, rfl⟩
  obtain ⟨g', hg', hwf', hfr, hmask, hlook, hcf, hcc⟩ :=
    visits_spec l c _ (nbhd_nodup l c) _ hwf1
  refine ⟨g', ?_, hwf', frame_trans hfr1 hfr, ?_, ?_, hcf, ?_⟩
  · unfold UncoverAround
    rw [hlk]
    simp only
    rw [uncoverAround_loops]
    exact hg'
  · intro p q
    rw [hmask p q]
    simp only [mem_nbhd, inB_of_frame hfr1]
    show (if _ then maskAfter (cellAt g.board p q) (cellAt g.mask p q) else cellAt g.mask p q)
      = _
    have hiff : ((l - 1 ≤ p ∧ p ≤ l + 1 ∧ c - 1 ≤ q ∧ q ≤ c + 1) ∧ inB g p q ∧ ¬ (p = l ∧ q = c))
        ↔ (adj l c p q ∧ inB g p q) := by
      unfold adj; tauto
    simp only [hiff]
  · intro p q
    rw [hlook p q]
    simp only [mem_nbhd, inB_of_frame hfr1]
    show (if _ then lookupAfter (cellAt g.board p q) (cellAt g.mask p q) (cellAt lk p q)
      else cellAt lk p q) = _
    rw [cellAt_writeAt hlk]
    have hiff : ((l - 1 ≤ p ∧ p ≤ l + 1 ∧ c - 1 ≤ q ∧ q ≤ c + 1) ∧ inB g p q ∧ ¬ (p = l ∧ q = c))
        ↔ (adj l c p q ∧ inB g p q) := by
      unfold adj; tauto
    simp only [hiff]
    by_cases hpq : p = l ∧ q = c
    · have hna : ¬ (adj l c p q ∧ inB g p q) := fun h => h.1.2.2.2.2 hpq
      rw [if_neg hna, if_pos hpq, if_pos hpq]
    · rw [if_neg hpq, if_neg hpq]
  · refine le_trans ?_ hcc
    show _ ≤ countCells CHECKED lk
    have h1 := countCells_writeAt CHECKED hlk
    rw [if_pos rfl] at h1
    split <;> split at h1 <;> omega

/-! ## `UncoverTilesToCheck` -/

theorem cells_eq_of_frame {g g' : grid} (hwf : WF g) (hwf' : WF g') (hfr : Frame g g') :
    (g'.lookup.map List.length).sum = (g.lookup.map List.length).sum := by
  have h1 := cells_of_dims hwf.2.2
  have h2 := cells_of_dims hwf'.2.2
  rw [hfr.2.1, hfr.2.2.1] at h2
  exact_mod_cast h2.trans h1.symm

/-- One pass of the loops of `UncoverTilesToCheck` returns; it keeps every property `P`
that `UncoverAround`, run at a cell marked `TO_CHECK`, keeps; the number of `CHECKED`
markers grows when `goOn` is set; and when `goOn` is not set the grid is untouched and has
no `TO_CHECK` marker. -/
theorem scanPass_spec (P : grid → Prop) {g : grid} (hwf : WF g) (hP : P g)
    (hstep : ∀ g1 g2 l c, WF g1 → inB g1 l c → cellAt g1.lookup l c = TO_CHECK → P g1 →
      UncoverAround g1 l c = .ok g2 → P g2) :
    ∃ g' goOn, scanPass g = .ok (g', goOn) ∧ WF g' ∧ Frame g g' ∧ P g' ∧
      countCells CHECKED g.lookup ≤ countCells CHECKED g'.lookup ∧
      (goOn = true → countCells CHECKED g.lookup < countCells CHECKED g'.lookup) ∧
      (goOn = false → g' = g ∧ ∀ p q, inB g p q → cellAt g.lookup p q ≠ TO_CHECK) := by
  -- the invariant of both loops; `done` is the set of cells already scanned
  let Inv : (Int → Int → Prop) → grid × Bool → Prop := fun done s =>
    WF s.1 ∧ Frame g s.1 ∧ P s.1 ∧
      countCells CHECKED g.lookup ≤ countCells CHECKED s.1.lookup ∧
      (s.2 = true → countCells CHECKED g.lookup < countCells CHECKED s.1.lookup) ∧
      (s.2 = false → s.1 = g ∧ ∀ p q, inB g p q → done p q → cellAt g.lookup p q ≠ TO_CHECK)
  have hlen : (g.lookup.length : Int) = g.height := hwf.2.2.1
  have hcell : ∀ (i j : Nat) (s : grid × Bool), (i : Int) < g.height → (j : Int) < g.width →
      Inv (fun p q => p < i ∨ (p = i ∧ q < j)) s →
      ∃ s', scanCell i s j = .ok s' ∧ Inv (fun p q => p < i ∨ (p = i ∧ q < (j + 1 : Nat))) s' := by
    intro i j s hi hj ⟨hwfs, hfrs, hPs, hcnt, htrue, hfalse⟩
    have hbs : inB s.1 i j := by
      rw [inB_of_frame hfrs]; exact ⟨by omega, hi, by omega, hj⟩
    have hread := readAt_of_dims hwfs.2.2 hbs.1 hbs.2.1 hbs.2.2.1 hbs.2.2.2
    unfold scanCell
    rw [hread]
    simp only
    by_cases htile : cellAt s.1.lookup i j = TO_CHECK
    · rw [if_pos htile]
      obtain ⟨g2, hg2, hwf2, hfr2, -, -, -, hcc⟩ := uncoverAround_spec hwfs hbs
      have hne : ¬ cellAt s.1.lookup i j = CHECKED := by rw [htile]; decide
      rw [if_neg hne] at hcc
      rw [hg2]
      refine ⟨(g2, true), rfl, hwf2, frame_trans hfrs hfr2,
        hstep s.1 g2 i j hwfs hbs htile hPs hg2, by show _ ≤ countCells CHECKED g2.lookup; omega,
        fun _ => by show _ < countCells CHECKED g2.lookup; omega, fun h => by cases h⟩
    · rw [if_neg htile]
      refine ⟨s, rfl, hwfs, hfrs, hPs, hcnt, htrue, ?_⟩
      intro hs
      obtain ⟨hsg, hall⟩ := hfalse hs
      refine ⟨hsg, ?_⟩
      intro p q hpq hdone
      rcases hdone with h | ⟨h1, h2⟩
      · exact hall p q hpq (Or.inl h)
      · by_cases hq : q < (j : Int)
        · exact hall p q hpq (Or.inr ⟨h1, hq⟩)
        · have hqj : q = (j : Int) := by push_cast at h2; omega
          rw [h1, hqj, ← hsg]; exact htile
  have hrow : ∀ (i : Nat) (s : grid × Bool), i < g.lookup.length →
      Inv (fun p _ => p < i) s →
      ∃ s', scanRow s i = .ok s' ∧ Inv (fun p _ => p < (i + 1 : Nat)) s' := by
    intro i s hi hinv
    have hi' : (i : Int) < g.height := by omega
    have hwfs := hinv.1
    have hfrs := hinv.2.1
    have hd : Dims s.1.lookup g.height g.width := by
      have := hwfs.2.2; rw [hfrs.2.1, hfrs.2.2.1] at this; exact this
    obtain ⟨line, hline, hlinelen⟩ := rowAt_of_dims hd (by omega) hi'
    unfold scanRow
    rw [hline]
    simp only
    obtain ⟨s', hs', hinv'⟩ := foldlM_range_inv (scanCell i)
      (fun j s => Inv (fun p q => p < i ∨ (p = i ∧ q < j)) s) line.length s
      (by
        obtain ⟨a1, a2, a3, a4, a5, a6⟩ := hinv
        refine ⟨a1, a2, a3, a4, a5, fun hs => ⟨(a6 hs).1, ?_⟩⟩
        intro p q hpq hdone
        rcases hdone with h | ⟨h1, h2⟩
        · exact (a6 hs).2 p q hpq h
        · exact absurd hpq.2.2.1 (by push_cast at h2; omega))
      (fun j s hj hs => hcell i j s hi' (by omega) hs)
    refine ⟨s', hs', ?_⟩
    obtain ⟨a1, a2, a3, a4, a5, a6⟩ := hinv'
    refine ⟨a1, a2, a3, a4, a5, fun hs => ⟨(a6 hs).1, ?_⟩⟩
    intro p q hpq hdone
    apply (a6 hs).2 p q hpq
    by_cases hp : p < (i : Int)
    · exact Or.inl hp
    · exact Or.inr ⟨by push_cast at hdone; omega, by have := hpq.2.2.2; omega⟩
  obtain ⟨s', hs', hinv'⟩ := foldlM_range_inv scanRow (fun i s => Inv (fun p _ => p < i) s)
    g.lookup.length (g, false)
    ⟨hwf, frame_refl g, hP, le_refl _, fun h => absurd h (by simp),
      fun _ => ⟨rfl, fun p q hpq hdone => absurd hpq.1 (by push_cast at hdone; omega)⟩⟩
    (fun i s hi hs => hrow i s hi hs)
  obtain ⟨a1, a2, a3, a4, a5, a6⟩ := hinv'
  refine ⟨s'.1, s'.2, hs', a1, a2, a3, a4, a5, fun hs => ⟨(a6 hs).1, ?_⟩⟩
  intro p q hpq
  exact (a6 hs).2 p q hpq (by have := hpq.2.1; omega)

/-- The cascade returns when the fuel exceeds the number of cells not yet marked
`CHECKED`; it keeps every property that `UncoverAround`, run at a cell marked `TO_CHECK`,
keeps; and it leaves no `TO_CHECK` marker. -/
theorem cascade_spec (P : grid → Prop)
    (hstep : ∀ g1 g2 l c, WF g1 → inB g1 l c → cellAt g1.lookup l c = TO_CHECK → P g1 →
      UncoverAround g1 l c = .ok g2 → P g2)
    (fuel : Nat) (g : grid) (hwf : WF g) (hP : P g)
    (hfuel : (g.lookup.map List.length).sum < fuel + countCells CHECKED g.lookup) :
    ∃ g', UncoverTilesToCheck fuel g = .ok g' ∧ WF g' ∧ Frame g g' ∧ P g' ∧
      ∀ p q, inB g p q → cellAt g'.lookup p q ≠ TO_CHECK := by
  induction fuel generalizing g with
  | zero =>
    have := countCells_le_cells CHECKED g.lookup
    omega
  | succ n ih =>
    obtain ⟨g1, goOn, hpass, hwf1, hfr1, hP1, hle, htrue, hfalse⟩ := scanPass_spec P hwf hP hstep
    unfold UncoverTilesToCheck
    rw [hpass]
    simp only
    cases goOn with
    | false =>
      obtain ⟨hg, hall⟩ := hfalse rfl
      subst hg
      exact ⟨g1, by simp, hwf1, hfr1, hP1, hall⟩
    | true =>
      have hlt := htrue rfl
      have hcells := cells_eq_of_frame hwf hwf1 hfr1
      obtain ⟨g2, h2, hwf2, hfr2, hP2, hall⟩ := ih g1 hwf1 hP1 (by omega)
      refine ⟨g2, by simpa using h2, hwf2, frame_trans hfr1 hfr2, hP2, ?_⟩
      intro p q hpq
      exact hall p q ((inB_of_frame hfr1 p q).mpr hpq)

theorem cascadeFuel_enough (g : grid) :
    (g.lookup.map List.length).sum < cascadeFuel g + countCells CHECKED g.lookup := by
  unfold cascadeFuel; omega

/-! ## `CountMinesAround` -/

/-- One if the position is inside the grid and holds a mine, zero otherwise. -/
theorem countStep_eq {g : grid} (hwf : WF g) (guard : Bool) (p q count : Int)
    (hguard : guard = true ↔ inB g p q) :
    countStep g guard p q count =
      .ok (count + if inB g p q ∧ cellAt g.board p q = MINE_TILE then 1 else 0) := by
  unfold countStep
  by_cases hb : inB g p q
  · rw [if_pos (hguard.mpr hb), readAt_of_dims hwf.1 hb.1 hb.2.1 hb.2.2.1 hb.2.2.2]
    simp only
    by_cases hm : cellAt g.board p q = MINE_TILE
    · rw [if_pos hm, if_pos ⟨hb, hm⟩]
    · rw [if_neg hm, if_neg (fun h => hm h.2)]; simp
  · have hg : ¬ guard = true := fun h => hb (hguard.mp h)
    rw [if_neg hg, if_neg (fun h => hb h.1)]; simp

theorem filter_length_cons {α : Type} (p : α → Prop) [DecidablePred p] (x : α)
    (xs : List α) :
    (((x :: xs).filter (fun a => decide (p a))).length : Int) =
      (if p x then 1 else 0) + ((xs.filter (fun a => decide (p a))).length : Int) := by
  by_cases h : p x
  · simp [List.filter_cons, h]; omega
  · simp [List.filter_cons, h]

theorem countMinesAround_eq {g : grid} {l c : Int} (hwf : WF g) (hb : inB g l c) :
    CountMinesAround g l c = .ok (mineNeighbours g l c) := by
  obtain ⟨h0, h1, h2, h3⟩ := hb
  unfold CountMinesAround
  dsimp only
  rw [countStep_eq hwf _ _ _ _ (by rw [decide_eq_true_iff]; unfold inB; omega)]
  simp only [bind, Except.bind]
  rw [countStep_eq hwf _ _ _ _ (by rw [decide_eq_true_iff]; unfold inB; omega)]
  simp only
  rw [countStep_eq hwf _ _ _ _ (by rw [decide_eq_true_iff]; unfold inB; omega)]
  simp only
  rw [countStep_eq hwf _ _ _ _ (by rw [decide_eq_true_iff]; unfold inB; omega)]
  simp only
  rw [countStep_eq hwf _ _ _ _ (by rw [decide_eq_true_iff]; unfold inB; omega)]
  simp only
  rw [countStep_eq hwf _ _ _ _ (by rw [decide_eq_true_iff]; unfold inB; omega)]
  simp only
  rw [countStep_eq hwf _ _ _ _ (by rw [decide_eq_true_iff]; unfold inB; omega)]
  simp only
  rw [countStep_eq hwf _ _ _ _ (by rw [decide_eq_true_iff]; unfold inB; omega)]
  simp only [pure, Except.pure]
  congr 1
  unfold mineNeighbours neighbourhood
  simp only [filter_length_cons (fun p : Int × Int =>
    inB g p.1 p.2 ∧ cellAt g.board p.1 p.2 = MINE_TILE), List.filter_nil, List.length_nil]
  push_cast
  ring

theorem mineNeighbours_le (g : grid) (l c : Int) : mineNeighbours g l c ≤ 8 := by
  unfold mineNeighbours
  have h := List.length_filter_le
    (fun p : Int × Int => decide (inB g p.1 p.2 ∧ cellAt g.board p.1 p.2 = MINE_TILE))
    (neighbourhood l c)
  have h8 : (neighbourhood l c).length = 8 := rfl
  omega

theorem mineNeighbours_congr {g g' : grid} (hw : g'.width = g.width)
    (hh : g'.height = g.height)
    (hm : ∀ p q, cellAt g'.board p q = MINE_TILE ↔ cellAt g.board p q = MINE_TILE)
    (l c : Int) : mineNeighbours g' l c = mineNeighbours g l c := by
  unfold mineNeighbours
  have : (fun p : Int × Int => decide (inB g' p.1 p.2 ∧ cellAt g'.board p.1 p.2 = MINE_TILE))
      = (fun p : Int × Int => decide (inB g p.1 p.2 ∧ cellAt g.board p.1 p.2 = MINE_TILE)) := by
    funext p
    apply decide_eq_decide.mpr
    unfold inB
    rw [hw, hh, hm]
  rw [this]

/-! ## `UncoverTile` -/

theorem uncoverTile_unfold {g : grid} {l c : Int} (hwf : WF g) (hb : inB g l c)
    (hnf : cellAt g.mask l c ≠ FLAGGED) :
    ∃ mk, writeAt g.mask l c VISIBLE = .ok mk ∧
      UncoverTile g l c =
        if cellAt g.board l c = MINE_TILE then .ok { g with mask := mk, mineFound := true }
        else if cellAt g.board l c = EMPTY_TILE then
          UncoverAround { g with mask := mk } l c >>=
            fun g1 => UncoverTilesToCheck (cascadeFuel g1) g1
        else .ok { g with mask := mk } := by
  obtain ⟨h0, h1, h2, h3⟩ := hb
  have hm := readAt_of_dims hwf.2.1 h0 h1 h2 h3
  have hbd := readAt_of_dims hwf.1 h0 h1 h2 h3
  obtain ⟨mk, hmk⟩ := writeAt_of_dims VISIBLE hwf.2.1 h0 h1 h2 h3
  refine ⟨mk, hmk, ?_⟩
  unfold UncoverTile
  rw [if_neg (inB_not_panic ⟨h0, h1, h2, h3⟩), hm]
  simp only
  rw [if_neg hnf, hbd]
  simp only
  by_cases hmine : cellAt g.board l c = MINE_TILE
  · rw [if_pos hmine, if_pos hmine, hmk]
  · rw [if_neg hmine, if_neg hmine, hmk]
    simp only
    by_cases hz : cellAt g.board l c = EMPTY_TILE
    · rw [if_pos hz, if_pos hz]
      cases UncoverAround { g with mask := mk } l c with
      | error e => rfl
      | ok g1 => rfl
    · rw [if_neg hz, if_neg hz]

/-- The cascade of `UncoverTile` on an unflagged zero-count cell returns; a property that
holds after the first `UncoverAround` and that `UncoverAround`, run at a cell marked
`TO_CHECK`, keeps, holds for the result; no `TO_CHECK` marker is left. -/
theorem uncoverTile_zero (P : grid → Prop) {g : grid} {l c : Int} (hwf : WF g)
    (hb : inB g l c) (hnf : cellAt g.mask l c ≠ FLAGGED)
    (hz : cellAt g.board l c = EMPTY_TILE)
    (hfirst : ∀ mk g2, writeAt g.mask l c VISIBLE = .ok mk →
      UncoverAround { g with mask := mk } l c = .ok g2 → P g2)
    (hstep : ∀ g1 g2 a b, WF g1 → inB g1 a b → cellAt g1.lookup a b = TO_CHECK → P g1 →
      UncoverAround g1 a b = .ok g2 → P g2) :
    ∃ mk g', writeAt g.mask l c VISIBLE = .ok mk ∧ UncoverTile g l c = .ok g' ∧ WF g' ∧
      Frame { g with mask := mk } g' ∧ P g' ∧
      ∀ p q, inB g p q → cellAt g'.lookup p q ≠ TO_CHECK := by
  obtain ⟨mk, hmk, hun⟩ := uncoverTile_unfold hwf hb hnf
  have hnm : ¬ cellAt g.board l c = MINE_TILE := by rw [hz]; decide
  rw [if_neg hnm, if_pos hz] at hun
  have hwf1 : WF { g with mask := mk } := ⟨hwf.1, writeAt_dims hmk hwf.2.1, hwf.2.2⟩
  have hb1 : inB { g with mask := mk } l c := hb
  obtain ⟨g2, hg2, hwf2, hfr2, -⟩ := uncoverAround_spec hwf1 hb1
  obtain ⟨g', hg', hwf', hfr', hP', hall⟩ :=
    cascade_spec P hstep (cascadeFuel g2) g2 hwf2 (hfirst mk g2 hmk hg2) (cascadeFuel_enough g2)
  refine ⟨mk, g', hmk, ?_, hwf', frame_trans hfr2 hfr', hP', ?_⟩
  · rw [hun, hg2]; exact hg'
  · intro p q hpq
    exact hall p q ((inB_of_frame hfr2 p q).mpr hpq)

theorem maskAfter_flagged (b : Int) : maskAfter b FLAGGED = FLAGGED :=
  (maskAfter_eq_flagged b FLAGGED).mpr rfl

theorem maskAfter_mine (m : Int) : maskAfter MINE_TILE m = m := by
  unfold maskAfter; rw [if_pos rfl]

theorem maskAfter_visible (b : Int) : maskAfter b VISIBLE = VISIBLE := by
  unfold maskAfter
  split
  · rfl
  · rw [if_neg (by decide)]

theorem maskAfter_open {b m : Int} (hb : b ≠ MINE_TILE) (hm : m ≠ FLAGGED) :
    maskAfter b m = VISIBLE := by
  unfold maskAfter; rw [if_neg hb, if_neg hm]

/-- What `UncoverTile` leaves alone: the board, the dimensions, the counters, the number of
flagged cells, every flagged cell and every mine other than the target. -/
theorem uncoverTile_frame {g : grid} {l c : Int} (hwf : WF g) (hb : inB g l c) :
    ∃ g', UncoverTile g l c = .ok g' ∧ WF g' ∧ g'.board = g.board ∧ g'.width = g.width ∧
      g'.height = g.height ∧ g'.mines = g.mines ∧ g'.flags = g.flags ∧
      countCells FLAGGED g'.mask = countCells FLAGGED g.mask ∧
      (∀ p q, cellAt g.mask p q = FLAGGED → cellAt g'.mask p q = FLAGGED) ∧
      (∀ p q, cellAt g.board p q = MINE_TILE → ¬ (p = l ∧ q = c) →
        cellAt g'.mask p q = cellAt g.mask p q) := by
  by_cases hfl : cellAt g.mask l c = FLAGGED
  · refine ⟨g, uncoverTile_of_flagged hwf hb hfl, hwf, rfl, rfl, rfl, rfl, rfl, rfl,
      fun _ _ h => h, fun _ _ _ _ => rfl⟩
  · -- the state after the target has been revealed
    have key : ∀ mk, writeAt g.mask l c VISIBLE = .ok mk →
        countCells FLAGGED mk = countCells FLAGGED g.mask ∧
        (∀ p q, cellAt g.mask p q = FLAGGED → cellAt mk p q = FLAGGED) ∧
        (∀ p q, ¬ (p = l ∧ q = c) → cellAt mk p q = cellAt g.mask p q) := by
      intro mk hmk
      refine ⟨?_, ?_, ?_⟩
      · have h1 := countCells_writeAt FLAGGED hmk
        rw [if_neg hfl, if_neg (by decide)] at h1
        omega
      · intro p q hpq
        rw [cellAt_writeAt hmk]
        have : ¬ (p = l ∧ q = c) := by rintro ⟨rfl, rfl⟩; exact hfl hpq
        rw [if_neg this]; exact hpq
      · intro p q hpq
        rw [cellAt_writeAt hmk, if_neg hpq]
    by_cases hz : cellAt g.board l c = EMPTY_TILE
    · let P : grid → Prop := fun x =>
        x.board = g.board ∧ countCells FLAGGED x.mask = countCells FLAGGED g.mask ∧
        (∀ p q, cellAt g.mask p q = FLAGGED → cellAt x.mask p q = FLAGGED) ∧
        (∀ p q, cellAt g.board p q = MINE_TILE → ¬ (p = l ∧ q = c) →
          cellAt x.mask p q = cellAt g.mask p q)
      have hpres : ∀ x y a b, WF x → inB x a b → P x → UncoverAround x a b = .ok y → P y := by
        intro x y a b hwfx hbx ⟨hx1, hx2, hx3, hx4⟩ hy
        obtain ⟨y', hy', -, hfr, hmask, -, hcf, -⟩ := uncoverAround_spec hwfx hbx
        rw [hy] at hy'
        cases hy'
        refine ⟨hfr.1.trans hx1, hcf.trans hx2, ?_, ?_⟩
        · intro p q hpq
          rw [hmask p q]
          split
          · rw [hx3 p q hpq]; exact maskAfter_flagged _
          · exact hx3 p q hpq
        · intro p q hpq hne
          rw [hmask p q]
          split
          · rw [hx1, hpq, maskAfter_mine]; exact hx4 p q hpq hne
          · exact hx4 p q hpq hne
      obtain ⟨mk, g', hmk, hg', hwf', hfr', hP', -⟩ := uncoverTile_zero P hwf hb hfl hz
        (fun mk g2 hmk hg2 => by
          obtain ⟨k1, k2, k3⟩ := key mk hmk
          exact hpres { g with mask := mk } g2 l c
            ⟨hwf.1, writeAt_dims hmk hwf.2.1, hwf.2.2⟩ hb
            ⟨rfl, k1, k2, fun p q _ hne => k3 p q hne⟩ hg2)
        (fun g1 g2 a b h1 h2 _ h3 h4 => hpres g1 g2 a b h1 h2 h3 h4)
      exact ⟨g', hg', hwf', hP'.1, hfr'.2.1, hfr'.2.2.1, hfr'.2.2.2.1, hfr'.2.2.2.2.1,
        hP'.2.1, hP'.2.2.1, hP'.2.2.2⟩
    · obtain ⟨mk, hmk, hun⟩ := uncoverTile_unfold hwf hb hfl
      obtain ⟨k1, k2, k3⟩ := key mk hmk
      have hwf1 : WF { g with mask := mk } := ⟨hwf.1, writeAt_dims hmk hwf.2.1, hwf.2.2⟩
      by_cases hmine : cellAt g.board l c = MINE_TILE
      · rw [if_pos hmine] at hun
        exact ⟨_, hun, hwf1, rfl, rfl, rfl, rfl, rfl, k1, k2, fun p q _ hne => k3 p q hne⟩
      · rw [if_neg hmine, if_neg hz] at hun
        exact ⟨_, hun, hwf1, rfl, rfl, rfl, rfl, rfl, k1, k2, fun p q _ hne => k3 p q hne⟩

/-! ## `PlaceMines` -/

theorem boardFrame_refl (g : grid) : BoardFrame g g := ⟨rfl, rfl, rfl, rfl, rfl, rfl, rfl⟩

theorem boardFrame_trans {g1 g2 g3 : grid} (h12 : BoardFrame g1 g2) (h23 : BoardFrame g2 g3) :
    BoardFrame g1 g3 := by
  obtain ⟨a1, a2, a3, a4, a5, a6, a7⟩ := h12
  obtain ⟨b1, b2, b3, b4, b5, b6, b7⟩ := h23
  exact ⟨b1.trans a1, b2.trans a2, b3.trans a3, b4.trans a4, b5.trans a5, b6.trans a6,
    b7.trans a7⟩

theorem inB_of_boardFrame {g g' : grid} (h : BoardFrame g g') (l c : Int) :
    inB g' l c ↔ inB g l c := by
  unfold inB; rw [h.1, h.2.1]

/-- The recount loops return; they leave the mines where they are and store in every other
cell the number of mines around it. -/
theorem recount_spec {g : grid} (hwf : WF g) :
    ∃ g', recount g = .ok g' ∧ WF g' ∧ BoardFrame g g' ∧
      (∀ p q, cellAt g'.board p q = MINE_TILE ↔ cellAt g.board p q = MINE_TILE) ∧
      (∀ p q, inB g p q → cellAt g.board p q ≠ MINE_TILE →
        cellAt g'.board p q = mineNeighbours g p q) ∧
      countCells MINE_TILE g'.board = countCells MINE_TILE g.board := by
  let Inv : (Int → Int → Prop) → grid → Prop := fun done s =>
    WF s ∧ BoardFrame g s ∧
      (∀ p q, cellAt s.board p q = MINE_TILE ↔ cellAt g.board p q = MINE_TILE) ∧
      (∀ p q, inB g p q → done p q → cellAt g.board p q ≠ MINE_TILE →
        cellAt s.board p q = mineNeighbours g p q) ∧
      countCells MINE_TILE s.board = countCells MINE_TILE g.board
  have hlen : (g.board.length : Int) = g.height := hwf.1.1
  have hcell : ∀ (i j : Nat) (s : grid), (i : Int) < g.height → (j : Int) < g.width →
      Inv (fun p q => p < i ∨ (p = i ∧ q < j)) s →
      ∃ s', recountCell s i j = .ok s' ∧
        Inv (fun p q => p < i ∨ (p = i ∧ q < (j + 1 : Nat))) s' := by
    intro i j s hi hj ⟨hwfs, hfrs, hmines, hdone, hcnt⟩
    have hbs : inB s i j := by
      rw [inB_of_boardFrame hfrs]; exact ⟨by omega, hi, by omega, hj⟩
    have hread := readAt_of_dims hwfs.1 hbs.1 hbs.2.1 hbs.2.2.1 hbs.2.2.2
    unfold recountCell
    rw [hread]
    simp only
    by_cases hcode : cellAt s.board i j = MINE_TILE
    · rw [if_neg (not_not.mpr hcode)]
      refine ⟨s, rfl, hwfs, hfrs, hmines, ?_, hcnt⟩
      intro p q hpq hd hnm
      rcases hd with h | ⟨h1, h2⟩
      · exact hdone p q hpq (Or.inl h) hnm
      · by_cases hq : q < (j : Int)
        · exact hdone p q hpq (Or.inr ⟨h1, hq⟩) hnm
        · have hqj : q = (j : Int) := by push_cast at h2; omega
          subst h1 hqj
          exact absurd ((hmines _ _).mp hcode) hnm
    · rw [if_pos hcode, countMinesAround_eq hwfs hbs]
      simp only
      obtain ⟨b, hb⟩ := writeAt_of_dims (mineNeighbours s i j) hwfs.1 hbs.1 hbs.2.1 hbs.2.2.1
        hbs.2.2.2
      rw [hb]
      have hn : mineNeighbours s i j = mineNeighbours g i j :=
        mineNeighbours_congr hfrs.1 hfrs.2.1 hmines i j
      have hn9 : mineNeighbours s i j ≠ MINE_TILE := by
        have := mineNeighbours_le s i j
        unfold MINE_TILE; omega
      refine ⟨{ s with board := b }, rfl, ⟨writeAt_dims hb hwfs.1, hwfs.2.1, hwfs.2.2⟩,
        boardFrame_trans hfrs ⟨rfl, rfl, rfl, rfl, rfl, rfl, rfl⟩, ?_, ?_, ?_⟩
      · intro p q
        show cellAt b p q = MINE_TILE ↔ _
        rw [cellAt_writeAt hb]
        by_cases hpq : p = (i : Int) ∧ q = (j : Int)
        · rw [if_pos hpq]
          obtain ⟨rfl, rfl⟩ := hpq
          constructor
          · intro h; exact absurd h hn9
          · intro h; exact absurd ((hmines _ _).mpr h) hcode
        · rw [if_neg hpq]; exact hmines p q
      · intro p q hpq hd hnm
        show cellAt b p q = _
        rw [cellAt_writeAt hb]
        by_cases hpq' : p = (i : Int) ∧ q = (j : Int)
        · rw [if_pos hpq']
          obtain ⟨rfl, rfl⟩ := hpq'
          exact hn
        · rw [if_neg hpq']
          rcases hd with h | ⟨h1, h2⟩
          · exact hdone p q hpq (Or.inl h) hnm
          · exact hdone p q hpq (Or.inr ⟨h1, by push_cast at h2; omega⟩) hnm
      · show countCells MINE_TILE b = _
        have h1 := countCells_writeAt MINE_TILE hb
        rw [if_neg hcode, if_neg hn9] at h1
        omega
  have hrow : ∀ (i : Nat) (s : grid), i < g.board.length →
      Inv (fun p _ => p < i) s →
      ∃ s', recountRow s i = .ok s' ∧ Inv (fun p _ => p < (i + 1 : Nat)) s' := by
    intro i s hi hinv
    have hi' : (i : Int) < g.height := by omega
    have hwfs := hinv.1
    have hfrs := hinv.2.1
    have hd : Dims s.board g.height g.width := by
      have := hwfs.1; rw [hfrs.1, hfrs.2.1] at this; exact this
    obtain ⟨line, hline, hlinelen⟩ := rowAt_of_dims hd (by omega) hi'
    unfold recountRow
    rw [hline]
    simp only
    obtain ⟨s', hs', hinv'⟩ := foldlM_range_inv (fun g c => recountCell g i c)
      (fun j s => Inv (fun p q => p < i ∨ (p = i ∧ q < j)) s) line.length s
      (by
        obtain ⟨a1, a2, a3, a4, a5⟩ := hinv
        refine ⟨a1, a2, a3, ?_, a5⟩
        intro p q hpq hdone
        rcases hdone with h | ⟨h1, h2⟩
        · exact a4 p q hpq h
        · exact absurd hpq.2.2.1 (by push_cast at h2; omega))
      (fun j s hj hs => hcell i j s hi' (by omega) hs)
    refine ⟨s', hs', ?_⟩
    obtain ⟨a1, a2, a3, a4, a5⟩ := hinv'
    refine ⟨a1, a2, a3, ?_, a5⟩
    intro p q hpq hdone
    apply a4 p q hpq
    by_cases hp : p < (i : Int)
    · exact Or.inl hp
    · exact Or.inr ⟨by push_cast at hdone; omega, by have := hpq.2.2.2; omega⟩
  obtain ⟨s', hs', hinv'⟩ := foldlM_range_inv recountRow (fun i s => Inv (fun p _ => p < i) s)
    g.board.length g
    ⟨hwf, boardFrame_refl g, fun _ _ => Iff.rfl,
      fun p q hpq hdone => absurd hpq.1 (by push_cast at hdone; omega), rfl⟩
    (fun i s hi hs => hrow i s hi hs)
  obtain ⟨a1, a2, a3, a4, a5⟩ := hinv'
  refine ⟨s', hs', a1, a2, a3, ?_, a5⟩
  intro p q hpq
  exact a4 p q hpq (by have := hpq.2.1; omega)

/-- One draw of the placement loop. -/
theorem placeStep_ok {g g1 : grid} {i i1 l c : Int} (hwf : WF g)
    (h : placeStep g i l c = .ok (g1, i1)) :
    inB g l c ∧ WF g1 ∧ BoardFrame g g1 ∧
      countCells MINE_TILE g1.board + i = countCells MINE_TILE g.board + i1 ∧
      (cellAt g.board l c ≠ MINE_TILE → i1 = i + 1) ∧
      (cellAt g.board l c = MINE_TILE → i1 = i) ∧
      (∀ p q, cellAt g1.board p q = MINE_TILE ↔
        ((p = l ∧ q = c) ∨ cellAt g.board p q = MINE_TILE)) := by
  unfold placeStep at h
  split at h
  · cases h
  · rename_i v hv
    have hin := readAt_dims hwf.1 hv
    have hcell := cellAt_of_readAt hv
    refine ⟨hin, ?_⟩
    split at h
    · rename_i hne
      split at h
      · cases h
      · rename_i b hb
        cases h
        refine ⟨⟨writeAt_dims hb hwf.1, hwf.2.1, hwf.2.2⟩, ⟨rfl, rfl, rfl, rfl, rfl, rfl, rfl⟩,
          ?_, fun _ => rfl, fun h => absurd (hcell ▸ h) hne, ?_⟩
        · show (countCells MINE_TILE b : Int) + i = _
          have h1 := countCells_writeAt MINE_TILE hb
          rw [hcell, if_neg hne, if_pos rfl] at h1
          omega
        · intro p q
          show cellAt b p q = MINE_TILE ↔ _
          rw [cellAt_writeAt hb]
          by_cases hpq : p = l ∧ q = c
          · rw [if_pos hpq]; exact ⟨fun _ => Or.inl hpq, fun _ => rfl⟩
          · rw [if_neg hpq]; exact ⟨Or.inr, fun h => h.resolve_left hpq⟩
    · rename_i hmine
      have hmine' : v = MINE_TILE := not_not.mp hmine
      cases h
      refine ⟨hwf, boardFrame_refl _, rfl, fun h => absurd (hcell.trans hmine') h, fun _ => rfl,
        ?_⟩
      intro p q
      constructor
      · exact Or.inr
      · rintro (⟨rfl, rfl⟩ | h)
        · exact hcell.trans hmine'
        · exact h

/-- The placement loop: if it stops, the number of mines has grown to `count` more than
there were when `i` was zero; if `count` is not positive, the first draw ends the loop. -/
theorem placeLoop_ok (count : Int) (draws : List (Int × Int)) (g g' : grid) (i : Int)
    (hwf : WF g) (h : placeLoop count draws g i = .ok g') :
    WF g' ∧ BoardFrame g g' ∧
      (i < count → (countCells MINE_TILE g'.board : Int) + i =
        countCells MINE_TILE g.board + count) ∧
      (count ≤ i → ∃ d rest, draws = d :: rest ∧ inB g d.1 d.2 ∧
        (countCells MINE_TILE g'.board : Int) = countCells MINE_TILE g.board +
          (if cellAt g.board d.1 d.2 = MINE_TILE then 0 else 1)) := by
  induction draws generalizing g i with
  | nil => unfold placeLoop at h; cases h
  | cons d rest ih =>
    unfold placeLoop at h
    unfold GetRandomTile at h
    split at h
    · cases h
    · rename_i l c hdraw
      split at hdraw
      · cases hdraw
      · cases hdraw
        split at h
        · cases h
        · rename_i g1 i1 hstep
          obtain ⟨hin, hwf1, hfr1, hcnt, hnew, hold, -⟩ := placeStep_ok hwf hstep
          have hi1 : i1 = i ∨ i1 = i + 1 := by
            by_cases hm : cellAt g.board l c = MINE_TILE
            · exact Or.inl (hold hm)
            · exact Or.inr (hnew hm)
          split at h
          · rename_i hstop
            cases h
            refine ⟨hwf1, hfr1, fun hlt => by omega, fun hge => ⟨(l, c), rest, rfl, hin, ?_⟩⟩
            by_cases hm : cellAt g.board l c = MINE_TILE
            · rw [if_pos hm]; have := hold hm; omega
            · rw [if_neg hm]; have := hnew hm; omega
          · rename_i hgo
            obtain ⟨hwf', hfr', hlt', -⟩ := ih g1 i1 hwf1 h
            refine ⟨hwf', boardFrame_trans hfr1 hfr', fun hlt => ?_, fun hge => by omega⟩
            have := hlt' (by omega)
            omega

theorem placeMines_ok {g g' : grid} {count : Int} {draws : List (Int × Int)} (hwf : WF g)
    (h : PlaceMines g count draws = .ok g') :
    ∃ gm, placeLoop count draws { g with mines := count } 0 = .ok gm ∧ recount gm = .ok g' ∧
      WF gm ∧ BoardFrame { g with mines := count } gm ∧ WF g' ∧ BoardFrame gm g' := by
  unfold PlaceMines at h
  simp only at h
  split at h
  · cases h
  · split at h
    · cases h
    · rename_i gm hgm
      have hwf0 : WF { g with mines := count } := hwf
      obtain ⟨hwfm, hfrm, -, -⟩ := placeLoop_ok count draws _ gm 0 hwf0 hgm
      obtain ⟨g2, hg2, hwf2, hfr2, -⟩ := recount_spec hwfm
      rw [h] at hg2
      cases hg2
      exact ⟨gm, hgm, h, hwfm, hfrm, hwf2, hfr2⟩

/-! ## `BuildGrid` -/

theorem countCells_replicate_zero (v : Int) (hv : v ≠ 0) (n m : Nat) :
    countCells v (List.replicate n (List.replicate m (0 : Int))) = 0 := by
  unfold countCells
  induction n with
  | zero => simp
  | succ k ih =>
    rw [List.replicate_succ, List.map_cons, List.sum_cons, ih]
    have : List.count v (List.replicate m (0 : Int)) = 0 := by
      rw [List.count_replicate]
      simp [Ne.symm hv]
    omega

theorem buildGrid_ok {width height : Int} {g : grid} (h : BuildGrid width height = .ok g) :
    WF g ∧ g.width = width ∧ g.height = height ∧ g.mines = 0 ∧ g.flags = 0 ∧
      g.mineFound = false ∧
      (∀ v, v ≠ 0 → countCells v g.board = 0 ∧ countCells v g.mask = 0 ∧
        countCells v g.lookup = 0) := by
  unfold BuildGrid at h
  split at h
  · cases h
  · rename_i hh
    split at h
    · cases h
    · rename_i hw
      simp only at h
      cases h
      unfold makesliceFails at hh hw
      have hd : Dims (List.replicate height.toNat (List.replicate width.toNat (0 : Int)))
          height width := by
        refine ⟨by simp; omega, ?_⟩
        intro row hrow
        obtain ⟨hne, rfl⟩ := List.mem_replicate.mp hrow
        simp only [List.length_replicate]
        omega
      exact ⟨⟨hd, hd, hd⟩, rfl, rfl, rfl, rfl, rfl,
        fun v hv => ⟨countCells_replicate_zero v hv _ _, countCells_replicate_zero v hv _ _,
          countCells_replicate_zero v hv _ _⟩⟩

/-! ## Invariants of the game states -/

theorem reachable_inv {g : grid} (h : Reachable g) :
    WF g ∧ g.width * g.height < 2 ^ 63 ∧ IsInt64 g.mines ∧
      g.flags = (countCells FLAGGED g.mask : Int) := by
  induction h with
  | init width height count draws g0 g hcells hcount hbuild hplace =>
    obtain ⟨hwf0, hw0, hh0, -, hf0, -, hzero⟩ := buildGrid_ok hbuild
    obtain ⟨gm, -, -, -, hfrm, hwf, hfr⟩ := placeMines_ok hwf0 hplace
    obtain ⟨a1, a2, a3, a4, a5, a6, a7⟩ := hfrm
    obtain ⟨b1, b2, b3, b4, b5, b6, b7⟩ := hfr
    simp only at a1 a2 a3 a4 a5 a6 a7
    refine ⟨hwf, ?_, ?_, ?_⟩
    · rw [b1, b2, a1, a2, hw0, hh0]; exact hcells
    · rw [b3, a3]; exact hcount
    · rw [b6, b4, a6, a4, hf0, (hzero FLAGGED (by decide)).2.1]; rfl
  | uncover g g' l c _ hb hun ih =>
    obtain ⟨hwf, hcells, hmines, hflags⟩ := ih
    obtain ⟨g2, hg2, hwf2, -, hw, hh, hm, hf, hcnt, -⟩ := uncoverTile_frame hwf hb
    rw [hun] at hg2
    cases hg2
    exact ⟨hwf2, by rw [hw, hh]; exact hcells, by rw [hm]; exact hmines,
      by rw [hf, hcnt]; exact hflags⟩
  | flag g g' l c _ hb hfl ih =>
    obtain ⟨hwf, hcells, hmines, hflags⟩ := ih
    have hbound : ∀ m : List (List Int), Dims m g.height g.width →
        (countCells FLAGGED m : Int) < 2 ^ 63 := by
      intro m hd
      have := countCells_le_of_dims FLAGGED hd
      have hc : g.height * g.width = g.width * g.height := Int.mul_comm _ _
      omega
    by_cases hcur : cellAt g.mask l c = FLAGGED
    · obtain ⟨mk, lk, hmk, hlk, hres⟩ := flagTile_flagged hwf hb hcur
      rw [hfl] at hres
      cases hres
      refine ⟨⟨hwf.1, writeAt_dims hmk hwf.2.1, writeAt_dims hlk hwf.2.2⟩, hcells, hmines, ?_⟩
      show wrapInt (g.flags - 1) = (countCells FLAGGED mk : Int)
      have h1 := countCells_writeAt FLAGGED hmk
      rw [if_pos hcur, if_neg (by decide)] at h1
      have h2 := hbound g.mask hwf.2.1
      rw [wrapInt_of_isInt64 ⟨by omega, by omega⟩]
      omega
    · obtain ⟨mk, lk, hmk, hlk, hres⟩ := flagTile_unflagged hwf hb hcur
      rw [hfl] at hres
      cases hres
      refine ⟨⟨hwf.1, writeAt_dims hmk hwf.2.1, writeAt_dims hlk hwf.2.2⟩, hcells, hmines, ?_⟩
      show wrapInt (g.flags + 1) = (countCells FLAGGED mk : Int)
      have h1 := countCells_writeAt FLAGGED hmk
      rw [if_neg hcur, if_pos rfl] at h1
      have h2 := hbound mk (writeAt_dims hmk hwf.2.1)
      rw [wrapInt_of_isInt64 ⟨by omega, by omega⟩]
      omega

/-- The number of mines `PlaceMines(count)` leaves on a fresh grid: `count`, but one when
`count` is not positive. -/
theorem placeMines_fresh_count {width height count : Int} {draws : List (Int × Int)}
    {g0 g : grid} (hbuild : BuildGrid width height = .ok g0)
    (hplace : PlaceMines g0 count draws = .ok g) :
    (countCells MINE_TILE g.board : Int) = max count 1 := by
  obtain ⟨hwf0, -, -, -, -, -, hzero⟩ := buildGrid_ok hbuild
  obtain ⟨gm, hgm, hrec, -, -, -, -⟩ := placeMines_ok hwf0 hplace
  have hwf0' : WF { g0 with mines := count } := hwf0
  obtain ⟨hwfm, -, hlt, hge⟩ := placeLoop_ok count draws _ gm 0 hwf0' hgm
  obtain ⟨g2, hg2, -, -, -, -, hcnt⟩ := recount_spec hwfm
  rw [hrec] at hg2
  cases hg2
  have hz : countCells MINE_TILE g0.board = 0 := (hzero MINE_TILE (by decide)).1
  have hnomine : ∀ p q, cellAt g0.board p q ≠ MINE_TILE := by
    intro p q hpq
    have hin : inB g0 p q := by
      unfold cellAt at hpq
      split at hpq
      · rename_i v hv; exact readAt_dims hwf0.1 hv
      · exact absurd hpq (by decide)
    obtain ⟨b, hb⟩ := writeAt_of_dims 0 hwf0.1 hin.1 hin.2.1 hin.2.2.1 hin.2.2.2
    have h1 := countCells_writeAt MINE_TILE hb
    rw [if_pos hpq, if_neg (by decide)] at h1
    omega
  rw [hcnt]
  by_cases hc : 0 < count
  · have := hlt hc
    simp only at this
    rw [hz] at this
    rw [max_eq_left (by omega)]
    omega
  · obtain ⟨d, rest, -, -, h1⟩ := hge (by omega)
    simp only at h1
    rw [if_neg (hnomine _ _), hz] at h1
    rw [max_eq_right (by omega)]
    omega

/-! ## The region revealed by the cascade -/

theorem lookupAfter_ne_unknown {b m lv : Int} (h : lv ≠ UNKNOWN) :
    lookupAfter b m lv ≠ UNKNOWN := by
  unfold lookupAfter
  by_cases h1 : b = MINE_TILE
  · rw [if_pos h1]; decide
  · rw [if_neg h1]
    by_cases h2 : m = FLAGGED
    · rw [if_pos h2]; exact h
    · rw [if_neg h2, if_neg h]; exact h

theorem lookupAfter_zero {b m : Int} (lv : Int) (hb : b = EMPTY_TILE) (hm : m ≠ FLAGGED) :
    lookupAfter b m lv = if lv = UNKNOWN then TO_CHECK else lv := by
  unfold lookupAfter
  rw [if_neg (by rw [hb]; decide), if_neg hm, if_pos hb]

/-- The cascade of `UncoverTile(l, c)` on an unflagged zero-count cell reveals the region
linked to `(l, c)` through unflagged zero-count cells whose marker is `UNKNOWN`, and the
neighbours of that region that are neither mines nor flagged. -/
theorem uncoverTile_region {g : grid} {l c : Int} (hwf : WF g) (hb : inB g l c)
    (hnf : cellAt g.mask l c ≠ FLAGGED) (hz : cellAt g.board l c = EMPTY_TILE) :
    ∃ g', UncoverTile g l c = .ok g' ∧ RegionRevealed (zeroFresh g) g g' l c := by
  -- `Done x p q`: the neighbourhood of `(p, q)` has been expanded in `x`
  let Done : grid → Int → Int → Prop := fun x p q =>
    ∀ n m, adj p q n m → inB g n m →
      (cellAt g.board n m ≠ MINE_TILE → cellAt g.mask n m ≠ FLAGGED →
        cellAt x.mask n m = VISIBLE) ∧
      (zeroFresh g n m → cellAt x.lookup n m ≠ UNKNOWN)
  let P0 : grid → Prop := fun x =>
    x.board = g.board ∧ x.width = g.width ∧ x.height = g.height ∧
      (∀ p q, cellAt x.mask p q = FLAGGED → cellAt g.mask p q = FLAGGED) ∧
      cellAt x.mask l c = VISIBLE ∧
      (∀ p q, zeroFresh g p q →
        (cellAt x.lookup p q = UNKNOWN ∨ cellAt x.lookup p q = TO_CHECK ∨
          (cellAt x.lookup p q = CHECKED ∧ Done x p q)))
  have hpres : ∀ x y a b, WF x → inB x a b → P0 x → UncoverAround x a b = .ok y →
      P0 y ∧ Done y a b ∧ (∀ p q, Done x p q → Done y p q) := by
    intro x y a b hwfx hbx ⟨hx1, hx2, hx3, hx4, hx5, hx6⟩ hy
    obtain ⟨y', hy', -, hfr, hmask, hlook, -, -⟩ := uncoverAround_spec hwfx hbx
    rw [hy] at hy'
    cases hy'
    have hinB : ∀ p q, inB x p q ↔ inB g p q := by
      intro p q; unfold inB; rw [hx2, hx3]
    have hvis : ∀ p q, cellAt x.mask p q = VISIBLE → cellAt y.mask p q = VISIBLE := by
      intro p q h
      rw [hmask p q]
      split
      · rw [h]; exact maskAfter_visible _
      · exact h
    have hnu : ∀ p q, cellAt x.lookup p q ≠ UNKNOWN → cellAt y.lookup p q ≠ UNKNOWN := by
      intro p q h
      rw [hlook p q]
      split
      · decide
      · split
        · exact lookupAfter_ne_unknown h
        · exact h
    have hmono : ∀ p q, Done x p q → Done y p q := by
      intro p q hd n m hadj hin
      exact ⟨fun h1 h2 => hvis n m ((hd n m hadj hin).1 h1 h2),
        fun h1 => hnu n m ((hd n m hadj hin).2 h1)⟩
    have hdone : Done y a b := by
      intro n m hadj hin
      have hcond : adj a b n m ∧ inB x n m := ⟨hadj, (hinB n m).mpr hin⟩
      constructor
      · intro h1 h2
        rw [hmask n m, if_pos hcond, hx1]
        exact maskAfter_open h1 (fun h => h2 (hx4 n m h))
      · intro hfresh
        have hne : ¬ (n = a ∧ m = b) := hadj.2.2.2.2
        rw [hlook n m, if_neg hne, if_pos hcond, hx1,
          lookupAfter_zero _ hfresh.1.2.1 (fun h => hfresh.1.2.2 (hx4 n m h))]
        split
        · decide
        · assumption
    refine ⟨⟨hfr.1.trans hx1, hfr.2.1.trans hx2, hfr.2.2.1.trans hx3, ?_, hvis l c hx5, ?_⟩,
      hdone, hmono⟩
    · intro p q h
      rw [hmask p q] at h
      split at h
      · exact hx4 p q ((maskAfter_eq_flagged _ _).mp h)
      · exact hx4 p q h
    · intro p q hfresh
      by_cases hpq : p = a ∧ q = b
      · obtain ⟨rfl, rfl⟩ := hpq
        right; right
        exact ⟨by rw [hlook p q, if_pos ⟨rfl, rfl⟩], hdone⟩
      · have hval : cellAt y.lookup p q =
            if cellAt x.lookup p q = UNKNOWN then
              (if adj a b p q then TO_CHECK else UNKNOWN)
            else cellAt x.lookup p q := by
          rw [hlook p q, if_neg hpq]
          by_cases hadj : adj a b p q
          · rw [if_pos ⟨hadj, (hinB p q).mpr hfresh.1.1⟩, hx1,
              lookupAfter_zero _ hfresh.1.2.1 (fun h => hfresh.1.2.2 (hx4 p q h)), if_pos hadj]
          · rw [if_neg (fun h => hadj h.1), if_neg hadj]
            split
            · assumption
            · rfl
        rcases hx6 p q hfresh with h | h | ⟨h, hd⟩
        · rw [if_pos h] at hval
          by_cases hadj : adj a b p q
          · rw [if_pos hadj] at hval; exact Or.inr (Or.inl hval)
          · rw [if_neg hadj] at hval; exact Or.inl hval
        · rw [if_neg (by rw [h]; decide)] at hval
          exact Or.inr (Or.inl (hval.trans h))
        · rw [if_neg (by rw [h]; decide)] at hval
          exact Or.inr (Or.inr ⟨hval.trans h, hmono p q hd⟩)
  obtain ⟨mk, g', hmk, hg', hwf', hfr', ⟨hP0, hDl⟩, hall⟩ :=
    uncoverTile_zero (fun x => P0 x ∧ Done x l c) hwf hb hnf hz
      (fun mk g2 hmk hg2 => by
        have hP1 : P0 { g with mask := mk } := by
          refine ⟨rfl, rfl, rfl, ?_, ?_, fun p q hf => Or.inl hf.2⟩
          · intro p q h
            have h' : cellAt mk p q = FLAGGED := h
            rw [cellAt_writeAt hmk] at h'
            split at h'
            · exact absurd h' (by decide)
            · exact h'
          · show cellAt mk l c = VISIBLE
            rw [cellAt_writeAt hmk, if_pos ⟨rfl, rfl⟩]
        obtain ⟨h1, h2, -⟩ := hpres { g with mask := mk } g2 l c
          ⟨hwf.1, writeAt_dims hmk hwf.2.1, hwf.2.2⟩ hb hP1 hg2
        exact ⟨h1, h2⟩)
      (fun g1 g2 a b h1 h2 _ h3 h4 => by
        obtain ⟨k1, -, k3⟩ := hpres g1 g2 a b h1 h2 h3.1 h4
        exact ⟨k1, k3 l c h3.2⟩)
  refine ⟨g', hg', ?_⟩
  have hchain : ∀ p q, Chain (zeroFresh g) l c p q →
      Done g' p q ∧ cellAt g'.mask p q = VISIBLE := by
    intro p q hch
    induction hch with
    | start => exact ⟨hDl, hP0.2.2.2.2.1⟩
    | step p q p' q' _ hadj helig ih =>
      obtain ⟨hd, -⟩ := ih
      obtain ⟨hv, hu⟩ := hd p' q' hadj helig.1.1
      have hvis := hv (by rw [helig.1.2.1]; decide) helig.1.2.2
      have hnu := hu helig
      rcases hP0.2.2.2.2.2 p' q' helig with h | h | ⟨-, h⟩
      · exact absurd h hnu
      · exact absurd h (hall p' q' helig.1.1)
      · exact ⟨h, hvis⟩
  intro p q hch
  obtain ⟨hd, hv⟩ := hchain p q hch
  exact ⟨hv, fun p' q' hadj hin h1 h2 => (hd p' q' hadj hin).1 h1 h2⟩

/-! ## Mine placement: the claims -/

/-- C1 at `BuildGrid(1, 1)`, `PlaceMines(0)` with the draw `(0, 0)`: the placement loop
places a mine before it compares `i` with `count`, so the board holds one mine, not zero,
and the only cell is that mine. -/
theorem placeMines_zero_places_one :
    ∃ g0 g, BuildGrid 1 1 = .ok g0 ∧ PlaceMines g0 0 [(0, 0)] = .ok g ∧
      countCells MINE_TILE g.board = 1 ∧ cellAt g.board 0 0 = MINE_TILE :=
  ⟨_, _, rfl, rfl, by decide, by decide⟩

/-- C2: once the placement loop has stopped, `PlaceMines` returns, and on the final board
every cell that is not a mine stores the number of mines among its neighbours inside the
grid, recomputed by brute force (`mineNeighbours`); the cells that are mines are exactly
those the placement loop left as mines, so the in-place recount neither creates nor erases
a mine. -/
theorem placeMines_counts (g gm : grid) (count : Int) (draws : List (Int × Int))
    (hwf : WF g) (hcount : count ≤ wrapInt (g.width * g.height))
    (hloop : placeLoop count draws { g with mines := count } 0 = .ok gm) :
    ∃ g', PlaceMines g count draws = .ok g' ∧
      (∀ l c, inB g' l c → cellAt g'.board l c ≠ MINE_TILE →
        cellAt g'.board l c = mineNeighbours g' l c) ∧
      (∀ l c, cellAt g'.board l c = MINE_TILE ↔ cellAt gm.board l c = MINE_TILE) := by
  have hwf0 : WF { g with mines := count } := hwf
  obtain ⟨hwfm, -, -, -⟩ := placeLoop_ok count draws _ gm 0 hwf0 hloop
  obtain ⟨g', hg', hwf', hfr, hmines, hcounts, -⟩ := recount_spec hwfm
  refine ⟨g', ?_, ?_, hmines⟩
  · unfold PlaceMines
    simp only
    rw [if_neg (by omega), hloop]
    exact hg'
  · intro l c hin hnm
    have hin' : inB gm l c := (inB_of_boardFrame hfr l c).mp hin
    rw [hcounts l c hin' (fun h => hnm ((hmines l c).mpr h))]
    exact (mineNeighbours_congr hfr.1 hfr.2.1 hmines l c).symm

theorem placeMines_counts_witness :
    ∃ g', PlaceMines ⟨[[0, 0, 0], [0, 0, 0], [0, 0, 0]], 3, 3, 0,
        [[0, 0, 0], [0, 0, 0], [0, 0, 0]], false, 0, [[0, 0, 0], [0, 0, 0], [0, 0, 0]]⟩ 2
        [(1, 1), (1, 1), (0, 0)] = .ok g' ∧
      (∀ l c, inB g' l c → cellAt g'.board l c ≠ MINE_TILE →
        cellAt g'.board l c = mineNeighbours g' l c) ∧
      (∀ l c, cellAt g'.board l c = MINE_TILE ↔
        cellAt (grid.mk [[9, 0, 0], [0, 9, 0], [0, 0, 0]] 3 3 2
          [[0, 0, 0], [0, 0, 0], [0, 0, 0]] false 0
          [[0, 0, 0], [0, 0, 0], [0, 0, 0]]).board l c = MINE_TILE) :=
  placeMines_counts _ _ 2 [(1, 1), (1, 1), (0, 0)] (by decide) (by decide) rfl

/-! ## Revealing: the claims -/

theorem rowGame_reachable : Reachable rowGame :=
  Reachable.init 5 1 1 [(0, 4)]
    ⟨[[0, 0, 0, 0, 0]], 5, 1, 0, [[0, 0, 0, 0, 0]], false, 0, [[0, 0, 0, 0, 0]]⟩ rowGame
    (by decide) (by decide) rfl rfl

theorem rowGameStale_reachable : Reachable rowGameStale :=
  Reachable.flag
    ⟨[[0, 0, 0, 1, 9]], 5, 1, 1, [[1, 1, 2, 0, 0]], false, 1, [[2, 2, 2, 0, 0]]⟩
    rowGameStale 0 2
    (Reachable.uncover
      ⟨[[0, 0, 0, 1, 9]], 5, 1, 1, [[0, 0, 2, 0, 0]], false, 1, [[0, 0, 2, 0, 0]]⟩
      ⟨[[0, 0, 0, 1, 9]], 5, 1, 1, [[1, 1, 2, 0, 0]], false, 1, [[2, 2, 2, 0, 0]]⟩ 0 0
      (Reachable.flag rowGame
        ⟨[[0, 0, 0, 1, 9]], 5, 1, 1, [[0, 0, 2, 0, 0]], false, 1, [[0, 0, 2, 0, 0]]⟩ 0 2
        rowGame_reachable (by decide) rfl)
      (by decide) rfl)
    (by decide) rfl

theorem rowGameFlagged_reachable : Reachable rowGameFlagged :=
  Reachable.flag rowGame rowGameFlagged 0 4 rowGame_reachable (by decide) rfl

theorem rowGameRevealed_reachable : Reachable rowGameRevealed :=
  Reachable.uncover rowGame rowGameRevealed 0 3 rowGame_reachable (by decide) rfl

theorem rowGameWon_reachable : Reachable rowGameWon :=
  Reachable.flag
    ⟨[[0, 0, 0, 1, 9]], 5, 1, 1, [[1, 1, 1, 1, 0]], false, 0, [[2, 2, 2, 2, 0]]⟩
    rowGameWon 0 4
    (Reachable.uncover rowGame
      ⟨[[0, 0, 0, 1, 9]], 5, 1, 1, [[1, 1, 1, 1, 0]], false, 0, [[2, 2, 2, 2, 0]]⟩ 0 0
      rowGame_reachable (by decide) rfl)
    (by decide) rfl

/-- C3, as stated, fails in the reachable state `rowGameStale`: the cell `(0, 0)` is an
unflagged zero-count cell, `(0, 2)` is linked to it by the unflagged zero-count cells
`(0, 1)`, `(0, 2)`, and after `UncoverTile(0, 0)` the cell `(0, 2)` is still covered. -/
theorem cascade_stale_counterexample :
    Reachable rowGameStale ∧ inB rowGameStale 0 0 ∧ cellAt rowGameStale.mask 0 0 ≠ FLAGGED ∧
      cellAt rowGameStale.board 0 0 = EMPTY_TILE ∧
      Chain (zeroOpen rowGameStale) 0 0 0 2 ∧
      ∃ g', UncoverTile rowGameStale 0 0 = .ok g' ∧ cellAt g'.mask 0 2 = COVERED ∧
        ¬ RegionRevealed (zeroOpen rowGameStale) rowGameStale g' 0 0 := by
  have hchain : Chain (zeroOpen rowGameStale) 0 0 0 2 :=
    Chain.step 0 1 0 2
      (Chain.step 0 0 0 1 Chain.start (by decide) ⟨by decide, by decide, by decide⟩)
      (by decide) ⟨by decide, by decide, by decide⟩
  refine ⟨rowGameStale_reachable, by decide, by decide, by decide, hchain,
    rowGameStale, rfl, by decide, ?_⟩
  intro h
  exact absurd (h 0 2 hchain).1 (by decide)

/-- C3 (amended): in every reachable state, for an in-bounds unflagged zero-count cell
`(r, c)`, `UncoverTile(r, c)` returns and afterwards every cell linked to `(r, c)` by a
chain of 8-adjacent unflagged zero-count cells whose cascade marker was `UNKNOWN` before
the call is revealed, and so is every neighbour of such a cell (and of `(r, c)`) that is
neither a mine nor flagged. -/
theorem uncoverTile_reveals_region (g : grid) (r c : Int) (hreach : Reachable g)
    (hb : inB g r c) (hnf : cellAt g.mask r c ≠ FLAGGED)
    (hz : cellAt g.board r c = EMPTY_TILE) :
    ∃ g', UncoverTile g r c = .ok g' ∧ RegionRevealed (zeroFresh g) g g' r c :=
  uncoverTile_region (reachable_inv hreach).1 hb hnf hz

theorem uncoverTile_reveals_region_witness :
    ∃ g', UncoverTile rowGame 0 0 = .ok g' ∧ RegionRevealed (zeroFresh rowGame) rowGame g' 0 0 :=
  uncoverTile_reveals_region rowGame 0 0 rowGame_reachable (by decide) (by decide) (by decide)

/-- C4: `UncoverTile` returns, every cell that was flagged is still flagged, every mine
other than the target keeps its visibility, and the flag count is unchanged: the cascade
leaves the mines and the flags alone. -/
theorem uncoverTile_keeps_flags_and_mines (g : grid) (r c : Int) (hwf : WF g)
    (hb : inB g r c) :
    ∃ g', UncoverTile g r c = .ok g' ∧
      (∀ p q, cellAt g.mask p q = FLAGGED → cellAt g'.mask p q = FLAGGED) ∧
      (∀ p q, cellAt g.board p q = MINE_TILE → ¬ (p = r ∧ q = c) →
        cellAt g'.mask p q = cellAt g.mask p q) ∧
      g'.flags = g.flags ∧ g'.board = g.board := by
  obtain ⟨g', h1, -, h3, -, -, -, h7, -, h9, h10⟩ := uncoverTile_frame hwf hb
  exact ⟨g', h1, h9, h10, h7, h3⟩

theorem uncoverTile_keeps_flags_and_mines_witness :
    ∃ g', UncoverTile rowGameFlagged 0 0 = .ok g' ∧
      (∀ p q, cellAt rowGameFlagged.mask p q = FLAGGED → cellAt g'.mask p q = FLAGGED) ∧
      (∀ p q, cellAt rowGameFlagged.board p q = MINE_TILE → ¬ (p = 0 ∧ q = 0) →
        cellAt g'.mask p q = cellAt rowGameFlagged.mask p q) ∧
      g'.flags = rowGameFlagged.flags ∧ g'.board = rowGameFlagged.board :=
  uncoverTile_keeps_flags_and_mines rowGameFlagged 0 0 (by decide) (by decide)

/-- C9: in every reachable state the counter `flags` equals the number of cells whose mask
value is `FLAGGED`. -/
theorem flags_eq_flagged_cells (g : grid) (hreach : Reachable g) :
    g.flags = (countCells FLAGGED g.mask : Int) :=
  (reachable_inv hreach).2.2.2

theorem flags_eq_flagged_cells_witness :
    rowGameStale.flags = (countCells FLAGGED rowGameStale.mask : Int) :=
  flags_eq_flagged_cells rowGameStale rowGameStale_reachable

/-! ## Failures -/

theorem readAt_of_neg {m : List (List Int)} {l c : Int} (h : l < 0 ∨ c < 0) :
    readAt m l c = .error .indexOutOfRange := by
  unfold readAt rowAt
  by_cases hl : l < 0
  · rw [if_pos hl]
  · rw [if_neg hl]
    have hc : c < 0 := h.resolve_left hl
    cases m[l.toNat]? with
    | none => rfl
    | some row =>
      show (if c < 0 then _ else _) = _
      rw [if_pos hc]

/-- `UncoverTile` returns exactly for the coordinates inside the grid. -/
theorem uncoverTile_ok_iff {g : grid} (hwf : WF g) (l c : Int) :
    (∃ g', UncoverTile g l c = .ok g') ↔ inB g l c := by
  constructor
  · rintro ⟨g', h⟩
    unfold UncoverTile at h
    split at h
    · cases h
    · rename_i hup
      split at h
      · cases h
      · rename_i m hm
        exact readAt_dims hwf.2.1 hm
  · intro hb
    obtain ⟨g', hg', -⟩ := uncoverTile_frame hwf hb
    exact ⟨g', hg'⟩

/-- The fault of `UncoverTile` outside the grid: the out-of-grid panic needs `l >= height`
or `c >= width`, and a column that is a letter; everything else is an index panic. -/
theorem uncoverTile_fault {g : grid} {l c : Int} (hout : ¬ inB g l c) :
    UncoverTile g l c =
      .error (if (l ≥ g.height ∨ c ≥ g.width) ∧ 0 ≤ c ∧ c < LETTERS_LEN then Fault.outOfGrid
        else Fault.indexOutOfRange) := by
  unfold UncoverTile
  by_cases hup : l ≥ g.height ∨ c ≥ g.width
  · rw [if_pos hup]
    unfold outOfGridPanic
    by_cases hc : 0 ≤ c ∧ c < LETTERS_LEN
    · rw [if_pos hc, if_pos ⟨hup, hc⟩]
    · rw [if_neg hc, if_neg (fun h => hc h.2)]
  · rw [if_neg hup, if_neg (fun h => hup h.1)]
    have hneg : l < 0 ∨ c < 0 := by unfold inB at hout; omega
    rw [readAt_of_neg hneg]

/-- C12 at out-of-grid coordinates of the 5x1 grid `rowGame`: a negative column or row, and
a column beyond the alphabet, end in the runtime's index panic, not in the out-of-grid
panic that `UncoverTile(1, 0)` raises. -/
theorem uncoverTile_negative_index :
    UncoverTile rowGame 0 (-1) = .error .indexOutOfRange ∧
      UncoverTile rowGame (-1) 0 = .error .indexOutOfRange ∧
      UncoverTile rowGame 1 60 = .error .indexOutOfRange ∧
      UncoverTile rowGame 1 0 = .error .outOfGrid :=
  ⟨rfl, rfl, rfl, rfl⟩

/-- The statements before the placement loop decide whether `PlaceMines` fails there. -/
theorem placeMines_of_guard (g : grid) (count : Int) (draws : List (Int × Int)) :
    (∀ e gp, placeGuard g count = .error (e, gp) → PlaceMines g count draws = .error e) ∧
    (∀ g1, placeGuard g count = .ok g1 →
      PlaceMines g count draws = placeLoop count draws g1 0 >>= recount) := by
  unfold placeGuard PlaceMines
  simp only
  by_cases h : count > wrapInt (g.width * g.height)
  · rw [if_pos h, if_pos h]
    constructor
    · intro e gp he
      cases he; rfl
    · intro g1 hg1
      cases hg1
  · rw [if_neg h, if_neg h]
    constructor
    · intro e gp he
      cases he
    · intro g1 hg1
      cases hg1
      cases placeLoop count draws { g with mines := count } 0 with
      | error e => rfl
      | ok gm => rfl

/-- C13: for `count > width*height` (the product being an `int`), `PlaceMines(count)` fails
with the too-many-mines panic whatever the random source would return; the panic is raised
before the placement loop, when only `mines` has been assigned: board, visibility, markers
and the other fields are those of the call. -/
theorem placeMines_too_many (g : grid) (count : Int) (draws : List (Int × Int))
    (hprod : IsInt64 (g.width * g.height)) (hcount : count > g.width * g.height) :
    PlaceMines g count draws = .error .tooManyMines ∧
      ∃ gp, placeGuard g count = .error (.tooManyMines, gp) ∧ gp.board = g.board ∧
        gp.mask = g.mask ∧ gp.lookup = g.lookup ∧ gp.flags = g.flags ∧
        gp.mineFound = g.mineFound ∧ gp.width = g.width ∧ gp.height = g.height := by
  have hguard : placeGuard g count = .error (.tooManyMines, { g with mines := count }) := by
    unfold placeGuard
    simp only
    rw [wrapInt_of_isInt64 hprod, if_pos hcount]
  exact ⟨(placeMines_of_guard g count draws).1 _ _ hguard,
    _, hguard, rfl, rfl, rfl, rfl, rfl, rfl, rfl⟩

theorem placeMines_too_many_witness :
    PlaceMines rowGame 6 [(0, 0)] = .error .tooManyMines ∧
      ∃ gp, placeGuard rowGame 6 = .error (.tooManyMines, gp) ∧ gp.board = rowGame.board ∧
        gp.mask = rowGame.mask ∧ gp.lookup = rowGame.lookup ∧ gp.flags = rowGame.flags ∧
        gp.mineFound = rowGame.mineFound ∧ gp.width = rowGame.width ∧
        gp.height = rowGame.height :=
  placeMines_too_many rowGame 6 [(0, 0)] (by decide) (by decide)

/-! ## Construction: the claims -/

theorem cellAt_replicate (n m : Nat) (l c : Int) :
    cellAt (List.replicate n (List.replicate m (0 : Int))) l c = 0 := by
  unfold cellAt
  split
  · rename_i v hv
    obtain ⟨row, hrow, -, hget⟩ := readAt_eq_ok hv
    obtain ⟨-, hrow'⟩ := rowAt_eq_ok hrow
    have h1 : row ∈ List.replicate n (List.replicate m (0 : Int)) :=
      List.getElem?_mem hrow'
    have h2 : row = List.replicate m (0 : Int) := (List.mem_replicate.mp h1).2
    have h3 : v ∈ row := List.getElem?_mem hget
    rw [h2] at h3
    exact (List.mem_replicate.mp h3).2
  · rfl

/-- What `BuildGrid` returns when neither `make` panics. -/
theorem buildGrid_of_fits {width height : Int} (hh : ¬ makesliceFails 24 height)
    (hw : ¬ (0 < height ∧ makesliceFails 8 width)) :
    ∃ g, BuildGrid width height = .ok g ∧ WF g ∧ g.width = width ∧ g.height = height ∧
      (∀ l c, inB g l c → cellAt g.board l c = EMPTY_TILE ∧ cellAt g.mask l c = COVERED ∧
        cellAt g.lookup l c = UNKNOWN) ∧
      g.flags = 0 ∧ g.mines = 0 ∧ g.mineFound = false := by
  have hb : BuildGrid width height = .ok
      { board := List.replicate height.toNat (List.replicate width.toNat (0 : Int)),
        width := width, height := height, mines := 0,
        mask := List.replicate height.toNat (List.replicate width.toNat (0 : Int)),
        mineFound := false, flags := 0,
        lookup := List.replicate height.toNat (List.replicate width.toNat (0 : Int)) } := by
    unfold BuildGrid
    rw [if_neg hh, if_neg hw]
  obtain ⟨hwf, hw', hh', hm, hf, hmf, -⟩ := buildGrid_ok hb
  exact ⟨_, hb, hwf, hw', hh',
    fun l c _ => ⟨cellAt_replicate _ _ l c, cellAt_replicate _ _ l c,
      cellAt_replicate _ _ l c⟩, hf, hm, hmf⟩

/-- C14, as stated, fails on both sides.  For zero dimensions `BuildGrid` does not fail:
`BuildGrid(0, 0)`, `BuildGrid(0, 3)` and `BuildGrid(3, 0)` return grids without cells, and
so does `BuildGrid(-1, 0)`.  For `width >= 1` and `height >= 1` it does not always return:
`BuildGrid(2^62, 1)` and `BuildGrid(1, 2^62)` end in the makeslice panic. -/
theorem buildGrid_zero_counterexample :
    BuildGrid 0 0 = .ok ⟨[], 0, 0, 0, [], false, 0, []⟩ ∧
      BuildGrid 0 3 = .ok ⟨[[], [], []], 0, 3, 0, [[], [], []], false, 0, [[], [], []]⟩ ∧
      BuildGrid 3 0 = .ok ⟨[], 3, 0, 0, [], false, 0, []⟩ ∧
      BuildGrid (-1) 0 = .ok ⟨[], -1, 0, 0, [], false, 0, []⟩ ∧
      BuildGrid (2 ^ 62) 1 = .error .makesliceLen ∧
      BuildGrid 1 (2 ^ 62) = .error .makesliceLen :=
  ⟨rfl, rfl, rfl, rfl, rfl, rfl⟩

/-- C14 (amended): `BuildGrid(width, height)` fails, with the runtime's makeslice panic,
whenever `height < 0`, or `width < 0` and `height >= 1`; and for `width >= 1` and
`height >= 1` within the limit of the allocator (`8 * width` and `24 * height` bytes at
most `maxAlloc`) it returns a grid with `height` rows of `width` cells in board, mask and
lookup, every cell zero / covered / unvisited, zero flags, zero mines and `mineFound`
false. -/
theorem buildGrid_result (width height : Int) :
    ((height < 0 ∨ (1 ≤ height ∧ width < 0)) →
        BuildGrid width height = .error .makesliceLen) ∧
      (1 ≤ width → 1 ≤ height → 8 * width ≤ maxAlloc → 24 * height ≤ maxAlloc →
        ∃ g, BuildGrid width height = .ok g ∧ WF g ∧ g.width = width ∧ g.height = height ∧
          (∀ l c, inB g l c → cellAt g.board l c = EMPTY_TILE ∧ cellAt g.mask l c = COVERED ∧
            cellAt g.lookup l c = UNKNOWN) ∧
          g.flags = 0 ∧ g.mines = 0 ∧ g.mineFound = false) := by
  constructor
  · intro hbad
    unfold BuildGrid
    by_cases hh : makesliceFails 24 height
    · rw [if_pos hh]
    · rw [if_neg hh]
      have hpos : 1 ≤ height ∧ width < 0 := by
        rcases hbad with h | h
        · exact absurd (Or.inl h) hh
        · exact h
      rw [if_pos ⟨by omega, Or.inl hpos.2⟩]
  · intro hw1 hh1 hwfit hhfit
    apply buildGrid_of_fits
    · unfold makesliceFails; omega
    · unfold makesliceFails; omega

theorem buildGrid_result_witness :
    BuildGrid 3 (-1) = .error .makesliceLen ∧
      ∃ g, BuildGrid 3 3 = .ok g ∧ WF g ∧ g.width = 3 ∧ g.height = 3 ∧
        (∀ l c, inB g l c → cellAt g.board l c = EMPTY_TILE ∧ cellAt g.mask l c = COVERED ∧
          cellAt g.lookup l c = UNKNOWN) ∧
        g.flags = 0 ∧ g.mines = 0 ∧ g.mineFound = false :=
  ⟨(buildGrid_result 3 (-1)).1 (by decide),
    (buildGrid_result 3 3).2 (by decide) (by decide) (by decide) (by decide)⟩

/-! ## Loss and win -/

/-- `UncoverTile` never clears `mineFound`. -/
theorem uncoverTile_mineFound {g g' : grid} {l c : Int} (hwf : WF g) (hb : inB g l c)
    (h : UncoverTile g l c = .ok g') :
    WF g' ∧ (g.mineFound = true → g'.mineFound = true) := by
  by_cases hfl : cellAt g.mask l c = FLAGGED
  · rw [uncoverTile_of_flagged hwf hb hfl] at h
    cases h
    exact ⟨hwf, fun hm => hm⟩
  · by_cases hz : cellAt g.board l c = EMPTY_TILE
    · obtain ⟨mk, g2, -, hg2, hwf2, hfr, -, -⟩ :=
        uncoverTile_zero (fun _ => True) hwf hb hfl hz (fun _ _ _ _ => trivial)
          (fun _ _ _ _ _ _ _ _ _ => trivial)
      rw [h] at hg2
      cases hg2
      exact ⟨hwf2, fun hm => hfr.2.2.2.2.2.trans hm⟩
    · obtain ⟨mk, hmk, hun⟩ := uncoverTile_unfold hwf hb hfl
      have hwf1 : WF { g with mask := mk } := ⟨hwf.1, writeAt_dims hmk hwf.2.1, hwf.2.2⟩
      by_cases hmine : cellAt g.board l c = MINE_TILE
      · rw [if_pos hmine, h] at hun
        cases hun
        exact ⟨hwf1, fun _ => rfl⟩
      · rw [if_neg hmine, if_neg hz, h] at hun
        cases hun
        exact ⟨hwf1, fun hm => hm⟩

/-- `FlagTileAsMined` returns inside the grid and leaves `mineFound`, the board and the
dimensions alone. -/
theorem flagTile_frame {g : grid} {l c : Int} (hwf : WF g) (hb : inB g l c) :
    ∃ g', FlagTileAsMined g l c = .ok g' ∧ WF g' ∧ g'.mineFound = g.mineFound ∧
      g'.board = g.board ∧ g'.width = g.width ∧ g'.height = g.height ∧
      g'.mines = g.mines := by
  by_cases hfl : cellAt g.mask l c = FLAGGED
  · obtain ⟨mk, lk, hmk, hlk, h⟩ := flagTile_flagged hwf hb hfl
    exact ⟨_, h, ⟨hwf.1, writeAt_dims hmk hwf.2.1, writeAt_dims hlk hwf.2.2⟩, rfl, rfl, rfl,
      rfl, rfl⟩
  · obtain ⟨mk, lk, hmk, hlk, h⟩ := flagTile_unflagged hwf hb hfl
    exact ⟨_, h, ⟨hwf.1, writeAt_dims hmk hwf.2.1, writeAt_dims hlk hwf.2.2⟩, rfl, rfl, rfl,
      rfl, rfl⟩

/-- Once set, `mineFound` stays set along every sequence of calls. -/
theorem plays_mineFound {g g' : grid} (hwf : WF g) (h : Plays g g') :
    WF g' ∧ (g.mineFound = true → g'.mineFound = true) := by
  induction h with
  | done => exact ⟨hwf, fun hm => hm⟩
  | uncover g1 g2 l c _ hb hun ih =>
    obtain ⟨hwf1, hm1⟩ := ih
    obtain ⟨hwf2, hm2⟩ := uncoverTile_mineFound hwf1 hb hun
    exact ⟨hwf2, fun hm => hm2 (hm1 hm)⟩
  | flag g1 g2 l c _ hb hfl ih =>
    obtain ⟨hwf1, hm1⟩ := ih
    obtain ⟨g3, hg3, hwf3, hmf, -⟩ := flagTile_frame hwf1 hb
    rw [hfl] at hg3
    cases hg3
    exact ⟨hwf3, fun hm => hmf.trans (hm1 hm)⟩

theorem rowGameLost_reachable : Reachable rowGameLost :=
  Reachable.uncover rowGame rowGameLost 0 4 rowGame_reachable (by decide) rfl

theorem rowGameLost_plays : Plays rowGameLost rowGameLostWon :=
  Plays.uncover rowGameLost
    ⟨[[0, 0, 0, 1, 9]], 5, 1, 1, [[0, 0, 0, 2, 1]], true, 1, [[0, 0, 0, 2, 0]]⟩
    rowGameLostWon 0 0
    (Plays.flag rowGameLost rowGameLost
      ⟨[[0, 0, 0, 1, 9]], 5, 1, 1, [[0, 0, 0, 2, 1]], true, 1, [[0, 0, 0, 2, 0]]⟩ 0 3
      (Plays.done rowGameLost) (by decide) rfl)
    (by decide) rfl

/-- C11, as stated, fails: in the reachable state `rowGameLost` the mine `(0, 4)` has been
revealed and `mineFound` is set; after `FlagTileAsMined(0, 3)` and `UncoverTile(0, 0)` four
cells are visible and one is flagged, so the condition of `CheckWinCondition` holds. -/
theorem win_after_loss_counterexample :
    Reachable rowGameLost ∧ rowGameLost.mineFound = true ∧
      Plays rowGameLost rowGameLostWon ∧ CheckWinCondition rowGameLostWon = true :=
  ⟨rowGameLost_reachable, rfl, rowGameLost_plays, by decide⟩

/-- C11 (amended): once `mineFound` is true it stays true along every sequence of further
in-bounds `UncoverTile` and `FlagTileAsMined` calls, so in every resulting state the loss
check is true and the end of the turn, which runs the loss check first and exits there,
reports the loss and never a win. -/
theorem loss_is_final (g g' : grid) (hreach : Reachable g) (hlost : g.mineFound = true)
    (hplays : Plays g g') :
    g'.mineFound = true ∧ CheckLoseCondition g' = true ∧ endOfTurn g' = Verdict.lose := by
  have hm := (plays_mineFound (reachable_inv hreach).1 hplays).2 hlost
  refine ⟨hm, hm, ?_⟩
  unfold endOfTurn CheckLoseCondition
  rw [if_pos hm]

theorem loss_is_final_witness :
    rowGameLostWon.mineFound = true ∧ CheckLoseCondition rowGameLostWon = true ∧
      endOfTurn rowGameLostWon = Verdict.lose :=
  loss_is_final rowGameLost rowGameLostWon rowGameLost_reachable rfl rowGameLost_plays

/-! ## Scenario: the 3x3 grid with a mine in the centre -/

/-- C15, as stated, fails: on the 3x3 grid with its only mine at `(1, 1)` the cell `(0, 0)`
has the count 1, so `UncoverTile(0, 0)` runs no cascade: the cells `(0, 1)`, `(1, 0)` and
`(2, 2)` are still covered. -/
theorem centreMine_counterexample :
    (BuildGrid 3 3 >>= fun g => PlaceMines g 1 [(1, 1)]) = .ok centreMine ∧
      cellAt centreMine.board 0 0 = 1 ∧
      ∃ g', UncoverTile centreMine 0 0 = .ok g' ∧ cellAt g'.mask 0 1 = COVERED ∧
        cellAt g'.mask 1 0 = COVERED ∧ cellAt g'.mask 2 2 = COVERED :=
  ⟨rfl, by decide, _, rfl, by decide, by decide, by decide⟩

/-- C15 (amended): on the 3x3 grid whose only mine is at `(1, 1)`, with the counts of
`PlaceMines` and every cell covered, `UncoverTile(0, 0)` reveals the cell `(0, 0)` alone
(its count is 1) and sets no loss; a following `UncoverTile(1, 1)` reveals the mine and
sets `mineFound`, so that the loss check is true. -/
theorem centreMine_scenario :
    (BuildGrid 3 3 >>= fun g => PlaceMines g 1 [(1, 1)]) = .ok centreMine ∧
      ∃ g1 g2, UncoverTile centreMine 0 0 = .ok g1 ∧
        g1.mask = [[1, 0, 0], [0, 0, 0], [0, 0, 0]] ∧ g1.mineFound = false ∧
        UncoverTile g1 1 1 = .ok g2 ∧
        g2.mask = [[1, 0, 0], [0, 1, 0], [0, 0, 0]] ∧ g2.mineFound = true ∧
        CheckLoseCondition g2 = true :=
  ⟨rfl, _, _, rfl, rfl, rfl, rfl, rfl, rfl, rfl⟩

/-! ## Revealing a numbered cell -/

/-- C19: on an in-bounds, unflagged cell that is not a mine and has a positive count,
`UncoverTile` reveals that cell and changes nothing else: the markers are untouched (no
cascade), every other cell keeps its visibility, and the flag count, `mineFound`, the
board and the dimensions are unchanged. -/
theorem uncoverTile_positive (g : grid) (r c : Int) (hwf : WF g) (hb : inB g r c)
    (hnf : cellAt g.mask r c ≠ FLAGGED) (hnm : cellAt g.board r c ≠ MINE_TILE)
    (hpos : cellAt g.board r c > EMPTY_TILE) :
    ∃ g', UncoverTile g r c = .ok g' ∧ cellAt g'.mask r c = VISIBLE ∧
      (∀ p q, ¬ (p = r ∧ q = c) → cellAt g'.mask p q = cellAt g.mask p q) ∧
      g'.lookup = g.lookup ∧ g'.flags = g.flags ∧ g'.mineFound = g.mineFound ∧
      g'.board = g.board ∧ g'.width = g.width ∧ g'.height = g.height ∧
      g'.mines = g.mines := by
  obtain ⟨mk, hmk, hun⟩ := uncoverTile_unfold hwf hb hnf
  have hnz : ¬ cellAt g.board r c = EMPTY_TILE := by
    intro h; rw [h] at hpos; exact absurd hpos (by decide)
  rw [if_neg hnm, if_neg hnz] at hun
  refine ⟨_, hun, ?_, ?_, rfl, rfl, rfl, rfl, rfl, rfl, rfl⟩
  · show cellAt mk r c = VISIBLE
    rw [cellAt_writeAt hmk, if_pos ⟨rfl, rfl⟩]
  · intro p q hpq
    show cellAt mk p q = _
    rw [cellAt_writeAt hmk, if_neg hpq]

theorem uncoverTile_positive_witness :
    ∃ g', UncoverTile rowGame 0 3 = .ok g' ∧ cellAt g'.mask 0 3 = VISIBLE ∧
      (∀ p q, ¬ (p = 0 ∧ q = 3) → cellAt g'.mask p q = cellAt rowGame.mask p q) ∧
      g'.lookup = rowGame.lookup ∧ g'.flags = rowGame.flags ∧
      g'.mineFound = rowGame.mineFound ∧ g'.board = rowGame.board ∧
      g'.width = rowGame.width ∧ g'.height = rowGame.height ∧ g'.mines = rowGame.mines :=
  uncoverTile_positive rowGame 0 3 (by decide) (by decide) (by decide) (by decide) (by decide)

/-! ## No marker is left pending between calls -/

theorem buildGrid_cells {width height : Int} {g : grid} (h : BuildGrid width height = .ok g)
    (l c : Int) :
    cellAt g.board l c = 0 ∧ cellAt g.mask l c = 0 ∧ cellAt g.lookup l c = 0 := by
  unfold BuildGrid at h
  split at h
  · cases h
  · split at h
    · cases h
    · simp only at h
      cases h
      exact ⟨cellAt_replicate _ _ l c, cellAt_replicate _ _ l c, cellAt_replicate _ _ l c⟩

theorem cellAt_of_not_inB {m : List (List Int)} {h w : Int} (hd : Dims m h w) {l c : Int}
    (hout : ¬ (0 ≤ l ∧ l < h ∧ 0 ≤ c ∧ c < w)) : cellAt m l c = 0 := by
  unfold cellAt
  split
  · rename_i v hv
    exact absurd (readAt_dims hd hv) hout
  · rfl

theorem uncoverTile_noPending {g g' : grid} {l c : Int} (hwf : WF g) (hnp : NoPending g)
    (hb : inB g l c) (h : UncoverTile g l c = .ok g') : NoPending g' := by
  by_cases hfl : cellAt g.mask l c = FLAGGED
  · rw [uncoverTile_of_flagged hwf hb hfl] at h
    cases h
    exact hnp
  · by_cases hz : cellAt g.board l c = EMPTY_TILE
    · obtain ⟨mk, g2, -, hg2, hwf2, hfr, -, hall⟩ :=
        uncoverTile_zero (fun _ => True) hwf hb hfl hz (fun _ _ _ _ => trivial)
          (fun _ _ _ _ _ _ _ _ _ => trivial)
      rw [h] at hg2
      cases hg2
      intro p q
      by_cases hin : inB g p q
      · exact hall p q hin
      · have hd : Dims g'.lookup g.height g.width := by
          have := hwf2.2.2; rw [hfr.2.1, hfr.2.2.1] at this; exact this
        rw [cellAt_of_not_inB hd hin]
        decide
    · obtain ⟨mk, hmk, hun⟩ := uncoverTile_unfold hwf hb hfl
      by_cases hmine : cellAt g.board l c = MINE_TILE
      · rw [if_pos hmine, h] at hun
        cases hun
        exact hnp
      · rw [if_neg hmine, if_neg hz, h] at hun
        cases hun
        exact hnp

theorem reachable_noPending {g : grid} (h : Reachable g) : NoPending g := by
  induction h with
  | init width height count draws g0 g hcells hcount hbuild hplace =>
    obtain ⟨hwf0, -⟩ := buildGrid_ok hbuild
    obtain ⟨gm, -, -, -, hfrm, -, hfr⟩ := placeMines_ok hwf0 hplace
    intro p q
    have h1 : g.lookup = g0.lookup := hfr.2.2.2.2.1.trans hfrm.2.2.2.2.1
    rw [h1, (buildGrid_cells hbuild p q).2.2]
    decide
  | uncover g g' l c hr hb hun ih =>
    exact uncoverTile_noPending (reachable_inv hr).1 ih hb hun
  | flag g g' l c hr hb hfl ih =>
    have hwf := (reachable_inv hr).1
    intro p q
    by_cases hcur : cellAt g.mask l c = FLAGGED
    · obtain ⟨mk, lk, hmk, hlk, hres⟩ := flagTile_flagged hwf hb hcur
      rw [hfl] at hres
      cases hres
      show cellAt lk p q ≠ TO_CHECK
      rw [cellAt_writeAt hlk]
      split
      · decide
      · exact ih p q
    · obtain ⟨mk, lk, hmk, hlk, hres⟩ := flagTile_unflagged hwf hb hcur
      rw [hfl] at hres
      cases hres
      show cellAt lk p q ≠ TO_CHECK
      rw [cellAt_writeAt hlk]
      split
      · decide
      · exact ih p q

/-! ## The cascade stays inside the region -/

theorem lookupAfter_eq_toCheck {b m lv : Int} (h : lookupAfter b m lv = TO_CHECK) :
    lv = TO_CHECK ∨ (b = EMPTY_TILE ∧ m ≠ FLAGGED ∧ lv = UNKNOWN) := by
  unfold lookupAfter at h
  by_cases h1 : b = MINE_TILE
  · rw [if_pos h1] at h; exact absurd h (by decide)
  · rw [if_neg h1] at h
    by_cases h2 : m = FLAGGED
    · rw [if_pos h2] at h; exact Or.inl h
    · rw [if_neg h2] at h
      by_cases h3 : lv = UNKNOWN
      · rw [if_pos h3] at h
        by_cases h4 : b = EMPTY_TILE
        · exact Or.inr ⟨h4, h2, h3⟩
        · rw [if_neg h4] at h
          by_cases h5 : b > EMPTY_TILE
          · rw [if_pos h5] at h; exact absurd h (by decide)
          · rw [if_neg h5] at h; exact Or.inl h
      · rw [if_neg h3] at h; exact Or.inl h

theorem maskAfter_changed {b m : Int} (h : maskAfter b m ≠ m) :
    b ≠ MINE_TILE ∧ m ≠ FLAGGED ∧ maskAfter b m = VISIBLE := by
  unfold maskAfter at h ⊢
  by_cases h1 : b = MINE_TILE
  · rw [if_pos h1] at h; exact absurd rfl h
  · rw [if_neg h1] at h ⊢
    by_cases h2 : m = FLAGGED
    · rw [if_pos h2] at h; exact absurd rfl h
    · rw [if_neg h2]; exact ⟨h1, h2, rfl⟩

/-- In a state without pending markers, the cascade of `UncoverTile(l, c)` on an unflagged
zero-count cell changes the visibility of `(l, c)` and of cells next to the region linked
to `(l, c)` through unflagged zero-count cells with the marker `UNKNOWN`, and of no other
cell; every change is a reveal. -/
theorem uncoverTile_sound {g : grid} {l c : Int} (hwf : WF g) (hnp : NoPending g)
    (hb : inB g l c) (hnf : cellAt g.mask l c ≠ FLAGGED)
    (hz : cellAt g.board l c = EMPTY_TILE) :
    ∃ g', UncoverTile g l c = .ok g' ∧ ChangesBounded (zeroFresh g) g g' l c ∧
      g'.flags = g.flags ∧ g'.mineFound = g.mineFound := by
  let P : grid → Prop := fun x =>
    x.board = g.board ∧ x.width = g.width ∧ x.height = g.height ∧
      (∀ p q, cellAt x.lookup p q = TO_CHECK → Chain (zeroFresh g) l c p q) ∧
      ChangesBounded (zeroFresh g) g x l c ∧
      (∀ p q, cellAt x.lookup p q = UNKNOWN → cellAt g.lookup p q = UNKNOWN)
  have hexp : ∀ x y a b, WF x → inB x a b → P x → Chain (zeroFresh g) l c a b →
      UncoverAround x a b = .ok y → P y := by
    intro x y a b hwfx hbx ⟨hx1, hx2, hx3, hx4, hx5, hx6⟩ hchain hy
    obtain ⟨y', hy', -, hfr, hmask, hlook, -, -⟩ := uncoverAround_spec hwfx hbx
    rw [hy] at hy'
    cases hy'
    have hinB : ∀ p q, inB x p q ↔ inB g p q := by
      intro p q; unfold inB; rw [hx2, hx3]
    -- a flag of `g` is still there, and no flag has appeared
    have hkeep : ∀ p q, cellAt x.mask p q ≠ FLAGGED → cellAt g.mask p q ≠ FLAGGED := by
      intro p q hne hg
      have hch : cellAt x.mask p q ≠ cellAt g.mask p q := by rw [hg]; exact hne
      rcases (hx5 p q hch).2 with ⟨rfl, rfl⟩ | ⟨-, -, h, -⟩
      · exact hnf hg
      · exact h hg
    refine ⟨hfr.1.trans hx1, hfr.2.1.trans hx2, hfr.2.2.1.trans hx3, ?_, ?_, ?_⟩
    · intro p q hpq
      rw [hlook p q] at hpq
      by_cases hc : p = a ∧ q = b
      · rw [if_pos hc] at hpq; exact absurd hpq (by decide)
      · rw [if_neg hc] at hpq
        by_cases hadj : adj a b p q ∧ inB x p q
        · rw [if_pos hadj] at hpq
          rcases lookupAfter_eq_toCheck hpq with h | ⟨h1, h2, h3⟩
          · exact hx4 p q h
          · rw [hx1] at h1
            exact Chain.step a b p q hchain hadj.1
              ⟨⟨(hinB p q).mp hadj.2, h1, hkeep p q h2⟩, hx6 p q h3⟩
        · rw [if_neg hadj] at hpq; exact hx4 p q hpq
    · intro p q hpq
      by_cases hsame : cellAt y.mask p q = cellAt x.mask p q
      · rw [hsame] at hpq ⊢
        exact hx5 p q hpq
      · have hval := hmask p q
        by_cases hadj : adj a b p q ∧ inB x p q
        · rw [if_pos hadj] at hval
          have hch : maskAfter (cellAt x.board p q) (cellAt x.mask p q) ≠ cellAt x.mask p q := by
            rw [← hval]; exact hsame
          obtain ⟨h1, h2, h3⟩ := maskAfter_changed hch
          rw [hx1] at h1
          exact ⟨hval.trans h3, Or.inr ⟨(hinB p q).mp hadj.2, h1, hkeep p q h2,
            a, b, hchain, hadj.1⟩⟩
        · rw [if_neg hadj] at hval; exact absurd hval hsame
    · intro p q hpq
      apply hx6 p q
      by_contra hne
      have : cellAt y.lookup p q ≠ UNKNOWN := by
        rw [hlook p q]
        split
        · decide
        · split
          · exact lookupAfter_ne_unknown hne
          · exact hne
      exact this hpq
  obtain ⟨mk, g', hmk, hg', hwf', hfr', hP', -⟩ := uncoverTile_zero P hwf hb hnf hz
    (fun mk g2 hmk hg2 => by
      have hP1 : P { g with mask := mk } := by
        refine ⟨rfl, rfl, rfl, fun p q h => absurd h (hnp p q), ?_, fun p q h => h⟩
        intro p q hpq
        have hpq' : cellAt mk p q ≠ cellAt g.mask p q := hpq
        show cellAt mk p q = VISIBLE ∧ _
        rw [cellAt_writeAt hmk] at hpq' ⊢
        by_cases hc : p = l ∧ q = c
        · rw [if_pos hc]; exact ⟨rfl, Or.inl hc⟩
        · rw [if_neg hc] at hpq'; exact absurd rfl hpq'
      exact hexp { g with mask := mk } g2 l c ⟨hwf.1, writeAt_dims hmk hwf.2.1, hwf.2.2⟩ hb
        hP1 Chain.start hg2)
    (fun g1 g2 a b h1 h2 h3 h4 h5 => hexp g1 g2 a b h1 h2 h4 (h4.2.2.2.1 a b h3) h5)
  exact ⟨g', hg', hP'.2.2.2.2.1, hfr'.2.2.2.2.1, hfr'.2.2.2.2.2⟩

theorem chain_mono {elig elig' : Int → Int → Prop} (h : ∀ p q, elig p q → elig' p q)
    {l c p q : Int} (hc : Chain elig l c p q) : Chain elig' l c p q := by
  induction hc with
  | start => exact Chain.start
  | step p q p' q' _ hadj he ih => exact Chain.step p q p' q' ih hadj (h p' q' he)

theorem chain_zero {g : grid} {elig : Int → Int → Prop}
    (h : ∀ p q, elig p q → cellAt g.board p q = EMPTY_TILE) {l c p q : Int}
    (hz : cellAt g.board l c = EMPTY_TILE) (hc : Chain elig l c p q) :
    cellAt g.board p q = EMPTY_TILE := by
  cases hc with
  | start => exact hz
  | step p0 q0 _ _ _ _ he => exact h p q he

/-! ## The bound on the revealed region -/

/-- C18: in every reachable state, for an in-bounds unflagged zero-count cell `(r, c)`,
`UncoverTile(r, c)` returns and every cell whose visibility it changes is revealed and is
either `(r, c)` itself or a cell of the grid that is not a mine and is 8-adjacent to a
zero-count cell linked to `(r, c)` by a chain of 8-adjacent zero-count cells; no other cell
changes. -/
theorem uncoverTile_changes_bounded (g : grid) (r c : Int) (hreach : Reachable g)
    (hb : inB g r c) (hnf : cellAt g.mask r c ≠ FLAGGED)
    (hz : cellAt g.board r c = EMPTY_TILE) :
    ∃ g', UncoverTile g r c = .ok g' ∧
      ∀ p q, cellAt g'.mask p q ≠ cellAt g.mask p q →
        cellAt g'.mask p q = VISIBLE ∧
        ((p = r ∧ q = c) ∨
          (inB g p q ∧ cellAt g.board p q ≠ MINE_TILE ∧
            ∃ a b, Chain (zeroCell g) r c a b ∧ cellAt g.board a b = EMPTY_TILE ∧
              adj a b p q)) := by
  obtain ⟨g', hg', hbnd, -, -⟩ :=
    uncoverTile_sound (reachable_inv hreach).1 (reachable_noPending hreach) hb hnf hz
  refine ⟨g', hg', ?_⟩
  intro p q hpq
  obtain ⟨hv, h⟩ := hbnd p q hpq
  refine ⟨hv, ?_⟩
  rcases h with h | ⟨h1, h2, -, a, b, hch, hadj⟩
  · exact Or.inl h
  · exact Or.inr ⟨h1, h2, a, b,
      chain_mono (fun p q he => ⟨he.1.1, he.1.2.1⟩) hch,
      chain_zero (fun p q he => he.1.2.1) hz hch, hadj⟩

theorem uncoverTile_changes_bounded_witness :
    ∃ g', UncoverTile rowGame 0 0 = .ok g' ∧
      ∀ p q, cellAt g'.mask p q ≠ cellAt rowGame.mask p q →
        cellAt g'.mask p q = VISIBLE ∧
        ((p = 0 ∧ q = 0) ∨
          (inB rowGame p q ∧ cellAt rowGame.board p q ≠ MINE_TILE ∧
            ∃ a b, Chain (zeroCell rowGame) 0 0 a b ∧ cellAt rowGame.board a b = EMPTY_TILE ∧
              adj a b p q)) :=
  uncoverTile_changes_bounded rowGame 0 0 rowGame_reachable (by decide) (by decide)
    (by decide)

/-! ## Sticky markers against reset markers -/

theorem resetLookup_wf {g : grid} (hwf : WF g) : WF (resetLookup g) := by
  refine ⟨hwf.1, hwf.2.1, ?_⟩
  show Dims (g.lookup.map (fun row => row.map (fun _ => UNKNOWN))) g.height g.width
  refine ⟨by rw [List.length_map]; exact hwf.2.2.1, ?_⟩
  intro row hrow
  obtain ⟨r0, hr0, rfl⟩ := List.mem_map.mp hrow
  rw [List.length_map]
  exact hwf.2.2.2 r0 hr0

theorem resetLookup_cellAt (g : grid) (p q : Int) :
    cellAt (resetLookup g).lookup p q = UNKNOWN := by
  unfold cellAt
  split
  · rename_i v hv
    obtain ⟨row, hrow, -, hget⟩ := readAt_eq_ok hv
    obtain ⟨-, hrow'⟩ := rowAt_eq_ok hrow
    have h1 : row ∈ (resetLookup g).lookup := List.getElem?_mem hrow'
    obtain ⟨r0, -, rfl⟩ := List.mem_map.mp h1
    have h3 : v ∈ r0.map (fun _ => UNKNOWN) := List.getElem?_mem hget
    obtain ⟨_, -, rfl⟩ := List.mem_map.mp h3
    rfl
  · rfl

theorem resetLookup_noPending (g : grid) : NoPending (resetLookup g) := by
  intro p q
  rw [resetLookup_cellAt]
  decide

/-- C16, as stated, fails in the reachable state `rowGameStale`: `UncoverTile(0, 0)` with
the markers as they are leaves `(0, 2)` covered, and the same call after a reset of the
markers reveals it. -/
theorem sticky_reset_counterexample :
    Reachable rowGameStale ∧ inB rowGameStale 0 0 ∧
      ∃ gs gt, UncoverTile rowGameStale 0 0 = .ok gs ∧
        UncoverTile (resetLookup rowGameStale) 0 0 = .ok gt ∧
        cellAt gs.mask 0 2 = COVERED ∧ cellAt gt.mask 0 2 = VISIBLE :=
  ⟨rowGameStale_reachable, by decide, _, _, rfl, rfl, by decide, by decide⟩

/-- C16 (amended): in every reachable state and for every in-bounds `(r, c)`,
`UncoverTile(r, c)` returns both with the markers as left by earlier calls and after a
reset of every marker to `UNKNOWN`; the two results have the same flag count and the same
`mineFound`, and the same visibility in every cell except where the call with the kept
markers leaves a cell as it was and the call with the reset markers reveals it. -/
theorem sticky_reset_agree (g : grid) (r c : Int) (hreach : Reachable g) (hb : inB g r c) :
    ∃ gs gt, UncoverTile g r c = .ok gs ∧ UncoverTile (resetLookup g) r c = .ok gt ∧
      gs.flags = gt.flags ∧ gs.mineFound = gt.mineFound ∧
      ∀ p q, cellAt gs.mask p q = cellAt gt.mask p q ∨
        (cellAt gs.mask p q = cellAt g.mask p q ∧ cellAt gt.mask p q = VISIBLE) := by
  have hwf := (reachable_inv hreach).1
  have hwfr := resetLookup_wf hwf
  have hbr : inB (resetLookup g) r c := hb
  by_cases hfl : cellAt g.mask r c = FLAGGED
  · exact ⟨g, resetLookup g, uncoverTile_of_flagged hwf hb hfl,
      uncoverTile_of_flagged hwfr hbr hfl, rfl, rfl, fun _ _ => Or.inl rfl⟩
  · by_cases hz : cellAt g.board r c = EMPTY_TILE
    · obtain ⟨gs, hgs, hbs, hfs, hms⟩ :=
        uncoverTile_sound hwf (reachable_noPending hreach) hb hfl hz
      obtain ⟨gt, hgt, hbt, hft, hmt⟩ :=
        uncoverTile_sound hwfr (resetLookup_noPending g) hbr hfl hz
      obtain ⟨gt', hgt', hreg⟩ := uncoverTile_region hwfr hbr hfl hz
      rw [hgt] at hgt'
      cases hgt'
      refine ⟨gs, gt, hgs, hgt, hfs.trans hft.symm, hms.trans hmt.symm, ?_⟩
      intro p q
      by_cases hs : cellAt gs.mask p q = cellAt g.mask p q
      · by_cases ht : cellAt gt.mask p q = cellAt g.mask p q
        · exact Or.inl (hs.trans ht.symm)
        · exact Or.inr ⟨hs, (hbt p q ht).1⟩
      · obtain ⟨hv, hwhere⟩ := hbs p q hs
        left
        rw [hv]
        rcases hwhere with ⟨rfl, rfl⟩ | ⟨h1, h2, h3, a, b, hch, hadj⟩
        · exact (hreg p q Chain.start).1.symm
        · have hch' : Chain (zeroFresh (resetLookup g)) r c a b :=
            chain_mono (fun p q he => ⟨he.1, resetLookup_cellAt g p q⟩) hch
          exact ((hreg a b hch').2 p q hadj h1 h2 h3).symm
    · obtain ⟨mk, hmk, hun⟩ := uncoverTile_unfold hwf hb hfl
      obtain ⟨mk', hmk', hun'⟩ := uncoverTile_unfold hwfr hbr hfl
      have hmk2 : writeAt g.mask r c VISIBLE = .ok mk' := hmk'
      rw [hmk] at hmk2
      cases hmk2
      by_cases hmine : cellAt g.board r c = MINE_TILE
      · have hmine' : cellAt (resetLookup g).board r c = MINE_TILE := hmine
        rw [if_pos hmine] at hun
        rw [if_pos hmine'] at hun'
        exact ⟨_, _, hun, hun', rfl, rfl, fun _ _ => Or.inl rfl⟩
      · have hmine' : ¬ cellAt (resetLookup g).board r c = MINE_TILE := hmine
        have hz' : ¬ cellAt (resetLookup g).board r c = EMPTY_TILE := hz
        rw [if_neg hmine, if_neg hz] at hun
        rw [if_neg hmine', if_neg hz'] at hun'
        exact ⟨_, _, hun, hun', rfl, rfl, fun _ _ => Or.inl rfl⟩

theorem sticky_reset_agree_witness :
    ∃ gs gt, UncoverTile rowGameStale 0 0 = .ok gs ∧
      UncoverTile (resetLookup rowGameStale) 0 0 = .ok gt ∧
      gs.flags = gt.flags ∧ gs.mineFound = gt.mineFound ∧
      ∀ p q, cellAt gs.mask p q = cellAt gt.mask p q ∨
        (cellAt gs.mask p q = cellAt rowGameStale.mask p q ∧ cellAt gt.mask p q = VISIBLE) :=
  sticky_reset_agree rowGameStale 0 0 rowGameStale_reachable (by decide)

/-! ## Counting cells position by position -/

theorem cellAt_natCast (m : List (List Int)) (i j : Nat) :
    cellAt m (i : Int) (j : Int) = ((m[i]?.getD [])[j]?).getD 0 := by
  unfold cellAt readAt rowAt
  rw [if_neg (by omega)]
  simp only [Int.toNat_ofNat]
  cases m[i]? with
  | none => rfl
  | some row =>
    simp only
    rw [if_neg (by omega)]
    simp only [Int.toNat_ofNat, Option.getD_some]
    cases row[j]? with
    | none => rfl
    | some v => rfl

theorem count_eq_countP_range (v : Int) (row : List Int) :
    row.count v = (List.range row.length).countP (fun j => decide ((row[j]?).getD 0 = v)) := by
  induction row with
  | nil => rfl
  | cons x xs ih =>
    rw [List.length_cons, List.range_succ_eq_map, List.countP_cons, List.countP_map,
      List.count_cons, ih]
    have hf : ((fun j => decide (((x :: xs)[j]?).getD 0 = v)) ∘ Nat.succ) =
        (fun j => decide ((xs[j]?).getD 0 = v)) := by
      funext j
      simp
    rw [hf]
    simp only [List.getElem?_cons_zero, Option.getD_some, beq_iff_eq, decide_eq_true_eq]

theorem sum_map_range {α : Type} (f : α → Nat) (d : α) (l : List α) :
    (l.map f).sum = ((List.range l.length).map (fun i => f ((l[i]?).getD d))).sum := by
  induction l with
  | nil => rfl
  | cons x xs ih =>
    rw [List.length_cons, List.range_succ_eq_map, List.map_cons, List.map_cons, List.map_map,
      List.sum_cons, List.sum_cons, ih]
    have hf : ((fun i => f (((x :: xs)[i]?).getD d)) ∘ Nat.succ) =
        (fun i => f ((xs[i]?).getD d)) := by
      funext i
      simp
    rw [hf]
    simp

theorem countP_allCells (f : Int → Int → Bool) (h w : Nat) :
    (allCells h w).countP (fun p => f p.1 p.2) =
      ((List.range h).map
        (fun (i : Nat) => (List.range w).countP (fun (j : Nat) => f (i : Int) (j : Int)))).sum := by
  unfold allCells
  rw [List.flatMap_def, List.countP_flatten, List.map_map]
  congr 1
  apply List.map_congr_left
  intro i _
  simp only [Function.comp, List.countP_map]
  rfl

/-- The number of cells that hold `v` is the number of positions of the grid at which `v`
stands. -/
theorem countCells_eq_countP {m : List (List Int)} {h w : Int} (hd : Dims m h w) (v : Int) :
    countCells v m =
      (allCells h.toNat w.toNat).countP (fun p => decide (cellAt m p.1 p.2 = v)) := by
  rw [countP_allCells (fun p q => decide (cellAt m p q = v))]
  unfold countCells
  rw [sum_map_range (fun row => List.count v row) [] m]
  have hlen : m.length = h.toNat := by have := hd.1; omega
  rw [hlen]
  congr 1
  apply List.map_congr_left
  intro i hi
  have hi' : i < m.length := by rw [hlen]; exact List.mem_range.mp hi
  have hrow : (m[i]?).getD [] = m[i] := by rw [List.getElem?_eq_getElem hi']; rfl
  have hw : (m[i]).length = w.toNat := by
    have := hd.2 _ (List.getElem_mem hi'); omega
  rw [hrow, count_eq_countP_range, hw]
  apply List.countP_congr
  intro j _
  rw [cellAt_natCast, hrow]

theorem mem_allCells {h w : Nat} {p : Int × Int} :
    p ∈ allCells h w ↔ 0 ≤ p.1 ∧ p.1 < h ∧ 0 ≤ p.2 ∧ p.2 < w := by
  unfold allCells
  simp only [List.mem_flatMap, List.mem_range, List.mem_map]
  constructor
  · rintro ⟨i, hi, j, hj, rfl⟩
    exact ⟨by simp, by simpa using hi, by simp, by simpa using hj⟩
  · rintro ⟨h1, h2, h3, h4⟩
    refine ⟨p.1.toNat, by omega, p.2.toNat, by omega, ?_⟩
    apply Prod.ext
    · simp only; omega
    · simp only; omega

theorem length_allCells (h w : Nat) : (allCells h w).length = h * w := by
  have := countP_allCells (fun _ _ => true) h w
  simp only [List.countP_true] at this
  rw [this]
  simp

theorem mem_allCells_of_inB {g : grid} {p q : Int} (hin : inB g p q) :
    (p, q) ∈ allCells g.height.toNat g.width.toNat := by
  rw [mem_allCells]
  obtain ⟨h1, h2, h3, h4⟩ := hin
  exact ⟨h1, by simp only; omega, h3, by simp only; omega⟩

/-- Two properties of the elements of a list that hold equally often, one implying the
other, hold of the same elements. -/
theorem countP_eq_imp {α : Type} (p q : α → Bool) (l : List α)
    (himp : ∀ x ∈ l, p x = true → q x = true) (hcount : l.countP p = l.countP q) :
    ∀ x ∈ l, q x = true → p x = true := by
  induction l with
  | nil => intro x hx; cases hx
  | cons a as ih =>
    have hle : as.countP p ≤ as.countP q :=
      List.countP_mono_left (fun x hx => himp x (List.mem_cons_of_mem _ hx))
    have ha := himp a (List.mem_cons_self _ _)
    rw [List.countP_cons, List.countP_cons] at hcount
    by_cases hpa : p a = true
    · have hqa := ha hpa
      rw [if_pos hpa, if_pos hqa] at hcount
      intro x hx hqx
      rcases List.mem_cons.mp hx with rfl | hx'
      · exact hpa
      · exact ih (fun y hy => himp y (List.mem_cons_of_mem _ hy)) (by omega) x hx' hqx
    · rw [if_neg hpa] at hcount
      by_cases hqa : q a = true
      · rw [if_pos hqa] at hcount; omega
      · rw [if_neg hqa] at hcount
        intro x hx hqx
        rcases List.mem_cons.mp hx with rfl | hx'
        · exact absurd hqx hqa
        · exact ih (fun y hy => himp y (List.mem_cons_of_mem _ hy)) (by omega) x hx' hqx

theorem countP_not_add {α : Type} (p : α → Bool) (l : List α) :
    l.countP p + l.countP (fun x => !p x) = l.length := by
  induction l with
  | nil => rfl
  | cons a as ih =>
    rw [List.countP_cons, List.countP_cons, List.length_cons]
    cases p a <;> simp <;> omega

/-! ## A win by the counts is a win by the positions -/

theorem width_nonneg_of_dims {m : List (List Int)} {h w : Int} (hd : Dims m h w)
    (hh : 0 < h) : 0 ≤ w := by
  have hlen : 0 < m.length := by have := hd.1; omega
  have := hd.2 _ (List.getElem_mem hlen)
  omega

theorem length_allCells_of_dims {m : List (List Int)} {h w : Int} (hd : Dims m h w) :
    ((allCells h.toNat w.toNat).length : Int) = w * h := by
  rw [length_allCells]
  have hh : 0 ≤ h := by have := hd.1; omega
  by_cases h0 : h = 0
  · subst h0; simp
  · have hw := width_nonneg_of_dims hd (by omega)
    push_cast
    rw [Int.toNat_of_nonneg hh, Int.toNat_of_nonneg hw]
    ring

/-- C20: in a grid state in which the board holds exactly `mines` mine cells, `flags` is
the number of `FLAGGED` cells and no mine cell is `VISIBLE`, the win condition of
`CheckWinCondition` forces the `FLAGGED` cells to be exactly the mine cells and every other
cell to be `VISIBLE`. -/
theorem win_flags_on_mines (g : grid) (hwf : WF g) (hcells : g.width * g.height < 2 ^ 63)
    (hmines : (countCells MINE_TILE g.board : Int) = g.mines)
    (hflags : g.flags = (countCells FLAGGED g.mask : Int))
    (hcovered : ∀ p q, inB g p q → cellAt g.board p q = MINE_TILE →
      cellAt g.mask p q ≠ VISIBLE)
    (hwin : CheckWinCondition g = true) :
    ∀ p q, inB g p q →
      (cellAt g.mask p q = FLAGGED ↔ cellAt g.board p q = MINE_TILE) ∧
      (cellAt g.board p q ≠ MINE_TILE → cellAt g.mask p q = VISIBLE) := by
  have hle := countCells_le_of_dims MINE_TILE hwf.1
  have hcomm : g.height * g.width = g.width * g.height := Int.mul_comm _ _
  have hint : IsInt64 g.mines := by
    unfold IsInt64
    have : (0 : Int) ≤ countCells MINE_TILE g.board := Int.natCast_nonneg _
    constructor <;> omega
  obtain ⟨hvis, hfm⟩ := (checkWin_counts hwf hcells hint).mp hwin
  -- the three counts, taken over the positions of the grid
  have hA := countCells_eq_countP hwf.1 MINE_TILE
  have hV := countCells_eq_countP hwf.2.1 VISIBLE
  have hF := countCells_eq_countP hwf.2.1 FLAGGED
  have hN := length_allCells_of_dims hwf.1
  have hnot := countP_not_add (fun p : Int × Int => decide (cellAt g.board p.1 p.2 = MINE_TILE))
    (allCells g.height.toNat g.width.toNat)
  have hin : ∀ x ∈ allCells g.height.toNat g.width.toNat, inB g x.1 x.2 := by
    intro x hx
    obtain ⟨h1, h2, h3, h4⟩ := mem_allCells.mp hx
    exact ⟨h1, by omega, h3, by omega⟩
  -- every cell that is not a mine is visible
  have hopen : ∀ x ∈ allCells g.height.toNat g.width.toNat,
      (!decide (cellAt g.board x.1 x.2 = MINE_TILE)) = true →
        decide (cellAt g.mask x.1 x.2 = VISIBLE) = true := by
    apply countP_eq_imp
    · intro x hx hv
      rw [decide_eq_true_eq] at hv
      rw [Bool.not_eq_true', decide_eq_false_iff_not]
      exact fun hm => hcovered x.1 x.2 (hin x hx) hm hv
    · omega
  -- every mine is flagged
  have hmine : ∀ x ∈ allCells g.height.toNat g.width.toNat,
      decide (cellAt g.board x.1 x.2 = MINE_TILE) = true →
        decide (cellAt g.mask x.1 x.2 = FLAGGED) = true := by
    apply countP_eq_imp
    · intro x hx hf
      rw [decide_eq_true_eq] at hf ⊢
      by_contra hnm
      have hv := hopen x hx (by rw [Bool.not_eq_true', decide_eq_false_iff_not]; exact hnm)
      rw [decide_eq_true_eq, hf] at hv
      exact absurd hv (by decide)
    · omega
  intro p q hpq
  have hmem := mem_allCells_of_inB hpq
  refine ⟨⟨fun hf => ?_, fun hm => ?_⟩, fun hnm => ?_⟩
  · by_contra hnm
    have hv := hopen (p, q) hmem
      (by rw [Bool.not_eq_true', decide_eq_false_iff_not]; exact hnm)
    rw [decide_eq_true_eq] at hv
    rw [hf] at hv
    exact absurd hv (by decide)
  · have := hmine (p, q) hmem (by rw [decide_eq_true_eq]; exact hm)
    rwa [decide_eq_true_eq] at this
  · have := hopen (p, q) hmem
      (by rw [Bool.not_eq_true', decide_eq_false_iff_not]; exact hnm)
    rwa [decide_eq_true_eq] at this

theorem win_flags_on_mines_witness :
    ((cellAt rowGameWon.mask 0 4 = FLAGGED ↔ cellAt rowGameWon.board 0 4 = MINE_TILE) ∧
      (cellAt rowGameWon.board 0 4 ≠ MINE_TILE → cellAt rowGameWon.mask 0 4 = VISIBLE)) ∧
    ((cellAt rowGameWon.mask 0 3 = FLAGGED ↔ cellAt rowGameWon.board 0 3 = MINE_TILE) ∧
      (cellAt rowGameWon.board 0 3 ≠ MINE_TILE → cellAt rowGameWon.mask 0 3 = VISIBLE)) :=
  have hall := win_flags_on_mines rowGameWon (by decide) (by decide) (by decide) (by decide)
    (by
      intro p q hin hm
      obtain ⟨h1, h2, h3, h4⟩ := hin
      have hh : rowGameWon.height = 1 := rfl
      have hw : rowGameWon.width = 5 := rfl
      have hp : p = 0 := by omega
      subst hp
      rw [hw] at h4
      interval_cases q
      all_goals first | decide | exact absurd hm (by decide))
    (by decide)
  ⟨hall 0 4 (by decide), hall 0 3 (by decide)⟩

/-! ## The log of the cascade -/

theorem foldlM_fst {σ τ α : Type} (f : σ → α → Except Fault σ)
    (fL : σ × τ → α → Except Fault (σ × τ))
    (h : ∀ s x, (fL s x).map Prod.fst = f s.1 x) (xs : List α) (s : σ × τ) :
    (xs.foldlM fL s).map Prod.fst = xs.foldlM f s.1 := by
  induction xs generalizing s with
  | nil => rfl
  | cons x xs ih =>
    rw [List.foldlM_cons, List.foldlM_cons]
    have hx := h s x
    cases hfx : fL s x with
    | error e =>
      rw [hfx] at hx
      rw [← hx]
      rfl
    | ok s1 =>
      rw [hfx] at hx
      rw [← hx]
      exact ih s1

theorem foldlM_ok_inv {σ α : Type} (f : σ → α → Except Fault σ) (I : σ → Prop)
    (xs : List α) (hstep : ∀ s x s', I s → f s x = .ok s' → I s') (s s' : σ) (h0 : I s)
    (h : xs.foldlM f s = .ok s') : I s' := by
  induction xs generalizing s with
  | nil =>
    cases h
    exact h0
  | cons x xs ih =>
    rw [List.foldlM_cons] at h
    cases hfx : f s x with
    | error e =>
      rw [hfx] at h
      cases h
    | ok s1 =>
      rw [hfx] at h
      exact ih s1 (hstep s x s1 h0 hfx) h

theorem scanCellLog_erase (l : Nat) (s : (grid × Bool) × List (Int × Int)) (c : Nat) :
    (scanCellLog l s c).map Prod.fst = scanCell l s.1 c := by
  unfold scanCellLog scanCell
  cases readAt s.1.1.lookup l c with
  | error e => rfl
  | ok tile =>
    simp only
    by_cases ht : tile = TO_CHECK
    · rw [if_pos ht, if_pos ht]
      cases UncoverAround s.1.1 l c with
      | error e => rfl
      | ok g => rfl
    · rw [if_neg ht, if_neg ht]
      rfl

theorem scanRowLog_erase (s : (grid × Bool) × List (Int × Int)) (l : Nat) :
    (scanRowLog s l).map Prod.fst = scanRow s.1 l := by
  unfold scanRowLog scanRow
  cases rowAt s.1.1.lookup l with
  | error e => rfl
  | ok line => exact foldlM_fst (scanCell l) (scanCellLog l) (scanCellLog_erase l) _ s

theorem scanPassLog_erase (g : grid) (log : List (Int × Int)) :
    (scanPassLog g log).map Prod.fst = scanPass g :=
  foldlM_fst scanRow scanRowLog scanRowLog_erase _ ((g, false), log)

theorem uncoverTilesToCheckLog_erase (fuel : Nat) (g : grid) (log : List (Int × Int)) :
    (UncoverTilesToCheckLog fuel g log).map Prod.fst = UncoverTilesToCheck fuel g := by
  induction fuel generalizing g log with
  | zero => rfl
  | succ n ih =>
    unfold UncoverTilesToCheckLog UncoverTilesToCheck
    have hp := scanPassLog_erase g log
    cases hsl : scanPassLog g log with
    | error e =>
      rw [hsl] at hp
      rw [← hp]
      rfl
    | ok r =>
      obtain ⟨⟨g1, goOn⟩, log1⟩ := r
      rw [hsl] at hp
      rw [← hp]
      show (if goOn = true then UncoverTilesToCheckLog n g1 log1 else .ok (g1, log1)).map
        Prod.fst = if goOn = true then UncoverTilesToCheck n g1 else .ok g1
      cases goOn with
      | true => exact ih g1 log1
      | false => rfl

/-- The logged functions compute the grid of the plain ones. -/
theorem uncoverTileLog_erase (g : grid) (l c : Int) :
    (UncoverTileLog g l c).map Prod.fst = UncoverTile g l c := by
  unfold UncoverTileLog UncoverTile
  by_cases hup : l ≥ g.height ∨ c ≥ g.width
  · rw [if_pos hup, if_pos hup]; rfl
  · rw [if_neg hup, if_neg hup]
    cases readAt g.mask l c with
    | error e => rfl
    | ok m =>
      simp only
      by_cases hfl : m = FLAGGED
      · rw [if_pos hfl, if_pos hfl]; rfl
      · rw [if_neg hfl, if_neg hfl]
        cases readAt g.board l c with
        | error e => rfl
        | ok b =>
          simp only
          by_cases hmine : b = MINE_TILE
          · rw [if_pos hmine, if_pos hmine]
            cases writeAt g.mask l c VISIBLE with
            | error e => rfl
            | ok mk => rfl
          · rw [if_neg hmine, if_neg hmine]
            cases writeAt g.mask l c VISIBLE with
            | error e => rfl
            | ok mk =>
              simp only
              by_cases hz : b = EMPTY_TILE
              · rw [if_pos hz, if_pos hz]
                cases UncoverAround { g with mask := mk } l c with
                | error e => rfl
                | ok g1 => exact uncoverTilesToCheckLog_erase _ g1 _
              · rw [if_neg hz, if_neg hz]; rfl

/-- A property of the grid and the log that every logged expansion keeps holds after a
pass of the loops. -/
theorem scanPassLog_inv (P : grid → List (Int × Int) → Prop)
    (hstep : ∀ g1 g2 log a b, WF g1 → inB g1 a b → cellAt g1.lookup a b = TO_CHECK →
      P g1 log → UncoverAround g1 a b = .ok g2 → P g2 (log ++ [(a, b)]))
    {g g' : grid} {log log' : List (Int × Int)} {goOn : Bool} (hwf : WF g) (hP : P g log)
    (h : scanPassLog g log = .ok ((g', goOn), log')) : WF g' ∧ P g' log' := by
  have hcell : ∀ (l : Nat) (s : (grid × Bool) × List (Int × Int)) (c : Nat)
      (s' : (grid × Bool) × List (Int × Int)), (WF s.1.1 ∧ P s.1.1 s.2) →
      scanCellLog l s c = .ok s' → (WF s'.1.1 ∧ P s'.1.1 s'.2) := by
    intro l s c s' ⟨hwfs, hPs⟩ hs
    unfold scanCellLog at hs
    cases hr : readAt s.1.1.lookup l c with
    | error e => rw [hr] at hs; cases hs
    | ok tile =>
      rw [hr] at hs
      simp only at hs
      by_cases ht : tile = TO_CHECK
      · rw [if_pos ht] at hs
        have hin := readAt_dims hwfs.2.2 hr
        have hbs : inB s.1.1 l c := hin
        obtain ⟨g2, hg2, hwf2, -⟩ := uncoverAround_spec hwfs hbs
        rw [hg2] at hs
        cases hs
        exact ⟨hwf2, hstep s.1.1 g2 s.2 l c hwfs hbs
          ((cellAt_of_readAt hr).trans ht) hPs hg2⟩
      · rw [if_neg ht] at hs
        cases hs
        exact ⟨hwfs, hPs⟩
  have hrow : ∀ (s : (grid × Bool) × List (Int × Int)) (l : Nat)
      (s' : (grid × Bool) × List (Int × Int)), (WF s.1.1 ∧ P s.1.1 s.2) →
      scanRowLog s l = .ok s' → (WF s'.1.1 ∧ P s'.1.1 s'.2) := by
    intro s l s' hs hrun
    unfold scanRowLog at hrun
    cases hr : rowAt s.1.1.lookup l with
    | error e => rw [hr] at hrun; cases hrun
    | ok line =>
      rw [hr] at hrun
      exact foldlM_ok_inv (scanCellLog l) (fun s => WF s.1.1 ∧ P s.1.1 s.2) _
        (fun s x s' => hcell l s x s') s s' hs hrun
  exact foldlM_ok_inv scanRowLog (fun s => WF s.1.1 ∧ P s.1.1 s.2) _ hrow
    ((g, false), log) ((g', goOn), log') ⟨hwf, hP⟩ h

theorem uncoverTilesToCheckLog_inv (P : grid → List (Int × Int) → Prop)
    (hstep : ∀ g1 g2 log a b, WF g1 → inB g1 a b → cellAt g1.lookup a b = TO_CHECK →
      P g1 log → UncoverAround g1 a b = .ok g2 → P g2 (log ++ [(a, b)]))
    (fuel : Nat) {g g' : grid} {log log' : List (Int × Int)} (hwf : WF g) (hP : P g log)
    (h : UncoverTilesToCheckLog fuel g log = .ok (g', log')) : P g' log' := by
  induction fuel generalizing g log with
  | zero => cases h
  | succ n ih =>
    unfold UncoverTilesToCheckLog at h
    cases hsl : scanPassLog g log with
    | error e => rw [hsl] at h; cases h
    | ok r =>
      obtain ⟨⟨g1, goOn⟩, log1⟩ := r
      rw [hsl] at h
      obtain ⟨hwf1, hP1⟩ := scanPassLog_inv P hstep hwf hP hsl
      have h' : (if goOn = true then UncoverTilesToCheckLog n g1 log1 else .ok (g1, log1))
          = .ok (g', log') := h
      cases goOn with
      | true => exact ih hwf1 hP1 h'
      | false =>
        cases h'
        exact hP1

/-! ## Termination and the number of expansions -/

/-- More fuel does not change the result of the cascade. -/
theorem uncoverTilesToCheck_fuel_mono (fuel k : Nat) (g g' : grid)
    (h : UncoverTilesToCheck fuel g = .ok g') : UncoverTilesToCheck (fuel + k) g = .ok g' := by
  induction fuel generalizing g with
  | zero => cases h
  | succ n ih =>
    rw [Nat.add_right_comm]
    unfold UncoverTilesToCheck at h ⊢
    cases hp : scanPass g with
    | error e => rw [hp] at h; cases h
    | ok r =>
      obtain ⟨g1, goOn⟩ := r
      rw [hp] at h
      have h' : (if goOn = true then UncoverTilesToCheck n g1 else .ok g1) = .ok g' := h
      show (if goOn = true then UncoverTilesToCheck (n + k) g1 else .ok g1) = .ok g'
      cases goOn with
      | true => exact ih g1 h'
      | false => exact h'

/-- The cascade returns the same grid for every fuel above the number of cells that are
not yet marked `CHECKED`. -/
theorem cascade_fuel_enough {g : grid} (hwf : WF g) (fuel : Nat)
    (hfuel : (g.lookup.map List.length).sum < fuel + countCells CHECKED g.lookup) :
    ∃ g', UncoverTilesToCheck fuel g = .ok g' ∧
      UncoverTilesToCheck (cascadeFuel g) g = .ok g' := by
  obtain ⟨g1, h1, -⟩ := cascade_spec (fun _ => True) (fun _ _ _ _ _ _ _ _ _ => trivial)
    fuel g hwf trivial hfuel
  obtain ⟨g2, h2, -⟩ := cascade_spec (fun _ => True) (fun _ _ _ _ _ _ _ _ _ => trivial)
    (cascadeFuel g) g hwf trivial (cascadeFuel_enough g)
  refine ⟨g1, h1, ?_⟩
  rcases Nat.le_total fuel (cascadeFuel g) with hle | hle
  · obtain ⟨k, hk⟩ := Nat.exists_eq_add_of_le hle
    rw [hk]
    exact uncoverTilesToCheck_fuel_mono fuel k g g1 h1
  · obtain ⟨k, hk⟩ := Nat.exists_eq_add_of_le hle
    have := uncoverTilesToCheck_fuel_mono (cascadeFuel g) k g g2 h2
    rw [← hk, h1] at this
    cases this
    exact h2

/-- The log of a call of `UncoverTile` on a well-formed grid has no repetition and holds
cells of the grid only. -/
theorem uncoverTileLog_nodup {g g' : grid} {l c : Int} {log : List (Int × Int)}
    (hwf : WF g) (hb : inB g l c) (h : UncoverTileLog g l c = .ok (g', log)) :
    log.Nodup ∧ ∀ p ∈ log, inB g p.1 p.2 := by
  let P : grid → List (Int × Int) → Prop := fun x lg =>
    x.width = g.width ∧ x.height = g.height ∧ lg.Nodup ∧
      ∀ p ∈ lg, inB g p.1 p.2 ∧ cellAt x.lookup p.1 p.2 = CHECKED
  have hstep : ∀ g1 g2 lg a b, WF g1 → inB g1 a b → cellAt g1.lookup a b = TO_CHECK →
      P g1 lg → UncoverAround g1 a b = .ok g2 → P g2 (lg ++ [(a, b)]) := by
    intro g1 g2 lg a b hwf1 hb1 htc ⟨hw, hh, hnd, hall⟩ hg2
    obtain ⟨y, hy, -, hfr, -, hlook, -, -⟩ := uncoverAround_spec hwf1 hb1
    rw [hg2] at hy
    cases hy
    have hnew : (a, b) ∉ lg := by
      intro hmem
      have := (hall (a, b) hmem).2
      rw [htc] at this
      exact absurd this (by decide)
    have hinb : inB g a b := by unfold inB at hb1 ⊢; rw [← hw, ← hh]; exact hb1
    refine ⟨hfr.2.1.trans hw, hfr.2.2.1.trans hh, ?_, ?_⟩
    · rw [List.nodup_append]
      refine ⟨hnd, List.nodup_singleton _, ?_⟩
      intro x hx hx'
      rw [List.mem_singleton] at hx'
      subst hx'
      exact hnew hx
    · intro p hp
      rcases List.mem_append.mp hp with hp | hp
      · obtain ⟨h1, h2⟩ := hall p hp
        refine ⟨h1, ?_⟩
        rw [hlook p.1 p.2]
        split
        · rfl
        · split
          · rw [h2]; exact lookupAfter_checked _ _
          · exact h2
      · rw [List.mem_singleton] at hp
        subst hp
        exact ⟨hinb, by rw [hlook a b, if_pos ⟨rfl, rfl⟩]⟩
  unfold UncoverTileLog at h
  rw [if_neg (inB_not_panic hb)] at h
  cases hm : readAt g.mask l c with
  | error e => rw [hm] at h; cases h
  | ok m =>
    rw [hm] at h
    simp only at h
    by_cases hfl : m = FLAGGED
    · rw [if_pos hfl] at h
      cases h
      exact ⟨List.nodup_nil, fun p hp => absurd hp (List.not_mem_nil p)⟩
    · rw [if_neg hfl] at h
      cases hbd : readAt g.board l c with
      | error e => rw [hbd] at h; cases h
      | ok b =>
        rw [hbd] at h
        simp only at h
        cases hmk : writeAt g.mask l c VISIBLE with
        | error e =>
          rw [hmk] at h
          by_cases hmine : b = MINE_TILE
          · rw [if_pos hmine] at h; cases h
          · rw [if_neg hmine] at h; cases h
        | ok mk =>
          rw [hmk] at h
          simp only at h
          by_cases hmine : b = MINE_TILE
          · rw [if_pos hmine] at h
            cases h
            exact ⟨List.nodup_nil, fun p hp => absurd hp (List.not_mem_nil p)⟩
          · rw [if_neg hmine] at h
            by_cases hz : b = EMPTY_TILE
            · rw [if_pos hz] at h
              have hwf1 : WF { g with mask := mk } :=
                ⟨hwf.1, writeAt_dims hmk hwf.2.1, hwf.2.2⟩
              have hb1 : inB { g with mask := mk } l c := hb
              obtain ⟨g1, hg1, hwfg1, hfr1, -, hlook1, -, -⟩ := uncoverAround_spec hwf1 hb1
              rw [hg1] at h
              have hP1 : P g1 [(l, c)] := by
                refine ⟨hfr1.2.1, hfr1.2.2.1, List.nodup_singleton _, ?_⟩
                intro p hp
                rw [List.mem_singleton] at hp
                subst hp
                exact ⟨hb, by rw [hlook1 l c, if_pos ⟨rfl, rfl⟩]⟩
              obtain ⟨-, -, hnd, hall⟩ :=
                uncoverTilesToCheckLog_inv P hstep (cascadeFuel g1) hwfg1 hP1 h
              exact ⟨hnd, fun p hp => (hall p hp).1⟩
            · rw [if_neg hz] at h
              cases h
              exact ⟨List.nodup_nil, fun p hp => absurd hp (List.not_mem_nil p)⟩

/-- C17: in every reachable state and for every in-bounds `(r, c)`, `UncoverTile(r, c)`
returns (the cascade terminates), and the cells at which `UncoverAround` is invoked during
the call are pairwise distinct cells of the grid: `UncoverAround` is invoked at most once
on a cell, and at most `width*height` times in all. -/
theorem uncoverTile_expands_once (g : grid) (r c : Int) (hreach : Reachable g)
    (hb : inB g r c) :
    ∃ g' log, UncoverTileLog g r c = .ok (g', log) ∧ UncoverTile g r c = .ok g' ∧
      log.Nodup ∧ (∀ p ∈ log, inB g p.1 p.2) ∧ (log.length : Int) ≤ g.width * g.height := by
  have hwf := (reachable_inv hreach).1
  obtain ⟨g', hg', -⟩ := uncoverTile_frame hwf hb
  have herase := uncoverTileLog_erase g r c
  cases hlog : UncoverTileLog g r c with
  | error e =>
    rw [hlog, hg'] at herase
    cases herase
  | ok res =>
    obtain ⟨g2, log⟩ := res
    rw [hlog, hg'] at herase
    have hgeq : g2 = g' := by
      have h1 : (Except.ok g2 : Except Fault grid) = .ok g' := herase
      exact Except.ok.inj h1
    subst hgeq
    obtain ⟨hnd, hall⟩ := uncoverTileLog_nodup hwf hb hlog
    refine ⟨g2, log, rfl, hg', hnd, hall, ?_⟩
    have hsub : log ⊆ allCells g.height.toNat g.width.toNat := by
      intro p hp
      exact mem_allCells_of_inB (hall p hp)
    have hlen := (List.subperm_of_subset hnd hsub).length_le
    have hN := length_allCells_of_dims hwf.1
    omega

theorem uncoverTile_expands_once_witness :
    ∃ g' log, UncoverTileLog rowGame 0 0 = .ok (g', log) ∧ UncoverTile rowGame 0 0 = .ok g' ∧
      log.Nodup ∧ (∀ p ∈ log, inB rowGame p.1 p.2) ∧
      (log.length : Int) ≤ rowGame.width * rowGame.height :=
  uncoverTile_expands_once rowGame 0 0 rowGame_reachable (by decide)

end Minesweeper
